import Mathlib

/-!
Verification of the exact joltage-configuration solver of `src/solvers/day10.ts`
(the `Fraction` class, `buildAugmentedMatrix`, `rref`, `computeVariableUpperBounds`,
`minPressesForJoltage` and its inner depth-first search `dfs`).

Conventions of the shallow embedding:
* JavaScript `bigint` values become `Int`; press counts, targets and indices become `Nat`.
  (The source stores targets as JS numbers but converts them to `BigInt` before any
  arithmetic; all claims stay inside the exact-integer regime.)
* The augmented matrix is represented as a function `Nat → Nat → Fraction` together with
  explicit row/column counts; array writes become function updates.
* A `throw` becomes an `Except SolveError` error value (one constructor per throw site,
  grouped by the error taxonomy of the specification); `Fraction.div`, which throws on a
  zero divisor, returns an `Option`.
* JavaScript truncating `bigint` division appears only in `Fraction.make` and
  `Fraction.toNumber`, where the divisor divides the dividend exactly, so Lean's `Int`
  division `/` agrees with it there.
-/

namespace Day10

/-- The error taxonomy of the solver: one constructor per distinct throw site of
`minPressesForJoltage` / `Fraction.div`, grouped as in the specification. -/
inductive SolveError where
  /-- `Fraction.div` was asked to divide by the zero fraction. -/
  | divisionByZero : SolveError
  /-- No buttons with non-zero targets, or a reduced row with no coefficients and a
  non-zero right-hand side. -/
  | infeasibleTarget : SolveError
  /-- With zero free variables, a pivot row's right-hand side is not an integer. -/
  | nonIntegerSolution : SolveError
  /-- With zero free variables, a pivot row's value is negative or above its bound. -/
  | boundsViolation : SolveError
  /-- The search exhausted all branches without a feasible leaf. -/
  | unsolvable : SolveError
deriving DecidableEq, Repr

deriving instance DecidableEq for Except

/-- Exact rational number: the `Fraction` class of the source, a numerator/denominator
pair of arbitrary-precision integers. -/
structure Fraction where
  num : Int
  den : Int
deriving DecidableEq, Repr

namespace Fraction

/-- `Fraction.abs`: absolute value of a bigint. -/
def absB (value : Int) : Int := if value < 0 then -value else value

/-- The Euclidean loop of `Fraction.gcd` on the absolute values (already `Nat`s):
`while (y !== 0) { (x, y) = (y, x % y) }; return x`.  The loop computes `Nat.gcd`,
which is the definition used (so that the kernel can evaluate it); `gcdLoop_eq`
below recovers the loop's step equation. -/
def gcdLoop (x y : Nat) : Nat := Nat.gcd y x

/-- The loop of `Fraction.gcd` satisfies its source recurrence: return `x` once
`y` is zero, otherwise continue with `(y, x % y)`. -/
theorem gcdLoop_eq (x y : Nat) : gcdLoop x y = if y = 0 then x else gcdLoop y (x % y) := by
  unfold gcdLoop
  rcases y with _ | k
  · simp
  · rw [Nat.gcd_rec (k + 1) x]
    simp

/-- `Fraction.gcd` of the source: Euclid on the absolute values of two bigints. -/
def gcdB (a b : Int) : Int := (gcdLoop a.natAbs b.natAbs : Int)

/-- The `Fraction` constructor: canonicalize zero to `0/1`, make the denominator
positive, and divide both components by their gcd.  The source throws when
`den = 0`; no operation below ever passes a zero denominator (proved later), and on
that dead branch this total version returns a junk value. -/
def make (num den : Int) : Fraction :=
  if num = 0 then ⟨0, 1⟩
  else
    let numerator := if den < 0 then -num else num
    let denominator := if den < 0 then -den else den
    let gcdValue := gcdB numerator denominator
    ⟨numerator / gcdValue, denominator / gcdValue⟩

/-- `Fraction.ZERO`. -/
def ZERO : Fraction := make 0 1

/-- `Fraction.ONE`. -/
def ONE : Fraction := make 1 1

/-- `Fraction.fromInt`. -/
def fromInt (value : Int) : Fraction := make value 1

/-- `Fraction.add`. -/
def add (a b : Fraction) : Fraction :=
  make (a.num * b.den + b.num * a.den) (a.den * b.den)

/-- `Fraction.sub`. -/
def sub (a b : Fraction) : Fraction :=
  make (a.num * b.den - b.num * a.den) (a.den * b.den)

/-- `Fraction.mul`. -/
def mul (a b : Fraction) : Fraction :=
  make (a.num * b.num) (a.den * b.den)

/-- `Fraction.div`: `none` models the `Division by zero fraction` throw. -/
def div (a b : Fraction) : Option Fraction :=
  if b.num = 0 then none else some (make (a.num * b.den) (a.den * b.num))

/-- The successful branch of `Fraction.div`, used where the caller has already
checked the divisor against zero (the pivot normalization in `rref`). -/
def divNZ (a b : Fraction) : Fraction :=
  make (a.num * b.den) (a.den * b.num)

/-- `Fraction.mulInt` (integer argument branch). -/
def mulInt (a : Fraction) (value : Int) : Fraction :=
  make (a.num * value) a.den

/-- `Fraction.isZero`. -/
def isZero (a : Fraction) : Bool := a.num = 0

/-- `Fraction.isInteger`. -/
def isInteger (a : Fraction) : Bool := a.den = 1

/-- `Fraction.compare`: three-way comparison by cross-multiplication. -/
def compare (a b : Fraction) : Int :=
  let left := a.num * b.den
  let right := b.num * a.den
  if left < right then -1 else if right < left then 1 else 0

/-- `Fraction.toNumber`.  The source converts to a JS float; every call site first
checks `isInteger`, where the value is exactly `num / den = num`. -/
def toNumber (a : Fraction) : Int := a.num / a.den

end Fraction

/-- The `Machine` record of the source (the light-mask fields feed only the part-1
breadth-first search, which is outside the solver verified here). -/
structure Machine where
  numLights : Nat
  targetMask : Nat
  buttonMasks : List Nat
  buttonCounterSets : List (List Nat)
  joltageTargets : List Nat
deriving DecidableEq, Repr

/-- A matrix of fractions, as entries indexed by row and column. -/
abbrev Mat := Nat → Nat → Fraction

/-- `buildAugmentedMatrix`: one row per counter, one column per button plus a
right-hand-side column; entry `[counter][button]` is `1` when the button's counter
set contains the counter, and the entry in column `cols` is the counter's target. -/
def buildAugmentedMatrix (buttonCounterSets : List (List Nat)) (counterCount : Nat)
    (targets : List Nat) : Mat :=
  let cols := buttonCounterSets.length
  fun row col =>
    if row < counterCount then
      if col < cols then
        if (buttonCounterSets.getD col []).contains row then Fraction.ONE else Fraction.ZERO
      else if col = cols then Fraction.fromInt (targets.getD row 0)
      else Fraction.ZERO
    else Fraction.ZERO

/-- The pivot scan of `rref`, with the number of rows still to inspect as the
structural argument. -/
def findPivotGo (m : Mat) (col : Nat) : Nat → Nat → Option Nat
  | 0, _ => none
  | remaining + 1, startRow =>
    if (m startRow col).isZero then findPivotGo m col remaining (startRow + 1)
    else some startRow

/-- The pivot scan of `rref`: the first row index in `[startRow, rowCount)` whose
entry in column `col` is non-zero. -/
def findPivotRow (m : Mat) (rowCount startRow col : Nat) : Option Nat :=
  findPivotGo m col (rowCount - startRow) startRow

/-- The row swap of `rref`. -/
def swapRows (m : Mat) (i j : Nat) : Mat :=
  fun r c => if r = i then m j c else if r = j then m i c else m r c

/-- Pivot normalization of `rref`: divide the entries of `row` from column `col`
to the end of the row (exclusive bound `width`) by the pivot value. -/
def scaleRowFrom (m : Mat) (row col width : Nat) (pivotValue : Fraction) : Mat :=
  fun r c =>
    if r = row ∧ col ≤ c ∧ c < width then (m r c).divNZ pivotValue else m r c

/-- Elimination step of `rref`: for every other row with a non-zero factor in the
pivot column, subtract `factor * pivotRowEntry` from its entries from `col` on. -/
def eliminateOthers (m : Mat) (row col width rowCount : Nat) : Mat :=
  fun r c =>
    if r < rowCount ∧ r ≠ row ∧ ¬(m r col).isZero ∧ col ≤ c ∧ c < width then
      (m r c).sub ((m r col).mul (m row c))
    else m r c

/-- The column loop of `rref`, with the number of button columns still to process
as the structural argument.  `none` models the `Division by zero fraction` throw
(the scan guarantees a non-zero pivot, so `none` is in fact never produced). -/
def rrefGo (rowCount width : Nat) :
    Nat → Mat → (Nat → Option Nat) → Nat → Nat → Option (Mat × (Nat → Option Nat))
  | 0, m, pivots, _, _ => some (m, pivots)
  | remainingCols + 1, m, pivots, col, currentRow =>
    if currentRow < rowCount then
      match findPivotRow m rowCount currentRow col with
      | none => rrefGo rowCount width remainingCols m pivots (col + 1) currentRow
      | some pivotRow =>
        let m1 := swapRows m currentRow pivotRow
        let pivotValue := m1 currentRow col
        if pivotValue.isZero then none
        else
          let m2 := scaleRowFrom m1 currentRow col width pivotValue
          let m3 := eliminateOthers m2 currentRow col width rowCount
          rrefGo rowCount width remainingCols m3
            (fun r => if r = currentRow then some col else pivots r)
            (col + 1) (currentRow + 1)
    else some (m, pivots)

/-- `rref`: reduce the augmented matrix (rows of length `variableCount + 1`) to
reduced row-echelon form, tracking each row's pivot column. -/
def rref (matrix : Mat) (rowCount variableCount : Nat) :
    Option (Mat × (Nat → Option Nat)) :=
  rrefGo rowCount (variableCount + 1) variableCount matrix (fun _ => none) 0 0

/-- `computeVariableUpperBounds`: per button, the minimum target among the counters
it affects, or `0` for a button affecting no counters.  (In the source the fold
starts from `+Infinity`; with a non-empty counter list the result is the plain
minimum of the affected targets, as folded here.) -/
def computeVariableUpperBounds (buttonCounterSets : List (List Nat))
    (targets : List Nat) : List Nat :=
  buttonCounterSets.map fun counters =>
    match counters.map (fun index => targets.getD index 0) with
    | [] => 0
    | t :: ts => ts.foldl min t

/-- The `PivotRow` record of the source. -/
structure PivotRow where
  pivotCol : Nat
  rhs : Fraction
  minAllowed : Fraction
  maxAllowed : Fraction
  coeffs : List Fraction
  minSuffix : List Fraction
  maxSuffix : List Fraction
  sourceRow : Nat
deriving DecidableEq, Repr

/-- The per-row loop of `minPressesForJoltage` building the pivot rows: a row with
no non-zero button coefficient and a non-zero right-hand side is the infeasibility
signal; rows without a pivot are skipped; pivot rows record their right-hand side
and allowed window `[rhs - upperBound, rhs]`. -/
def buildPivotRows (m : Mat) (pivots : Nat → Option Nat) (varCount : Nat)
    (upperBounds : List Nat) : List Nat → Except SolveError (List PivotRow)
  | [] => .ok []
  | row :: rest =>
    let rhs := m row varCount
    let hasCoefficients := (List.range varCount).any fun c => !(m row c).isZero
    if !hasCoefficients && !rhs.isZero then .error .infeasibleTarget
    else
      match pivots row with
      | none => buildPivotRows m pivots varCount upperBounds rest
      | some pivotCol =>
        let upperBound := upperBounds.getD pivotCol 0
        let minAllowed := rhs.sub (Fraction.fromInt upperBound)
        (buildPivotRows m pivots varCount upperBounds rest).map fun prs =>
          { pivotCol := pivotCol, rhs := rhs, minAllowed := minAllowed,
            maxAllowed := rhs, coeffs := [], minSuffix := [], maxSuffix := [],
            sourceRow := row } :: prs

/-- The free-variable info records (`col`, `bound`, `originalIndex`). -/
structure FreeVarInfo where
  col : Nat
  bound : Nat
  originalIndex : Nat
deriving DecidableEq, Repr

/-- The sort comparator on free variables: ascending bound, ties by column.  The
source sorts with a JS comparator; the order is total, so the sorted result is the
unique sorted permutation, produced here by insertion sort. -/
def freeVarLE (a b : FreeVarInfo) : Prop :=
  a.bound < b.bound ∨ (a.bound = b.bound ∧ a.col ≤ b.col)

instance : DecidableRel freeVarLE := fun a b => by
  unfold freeVarLE; infer_instance

/-- The suffix tables of minimum/maximum possible contributions of the remaining
free variables: at entry `idx`, the sums over positions `idx ≤ j` of the least
(resp. greatest) of `0` and `coeff j * bound j`. -/
def suffixTables : List Fraction → List Nat → List Fraction × List Fraction
  | [], _ => ([Fraction.ZERO], [Fraction.ZERO])
  | _ :: _, [] => ([Fraction.ZERO], [Fraction.ZERO])
  | coeff :: cs, bound :: bs =>
    let (mins, maxs) := suffixTables cs bs
    let contributions :=
      if !coeff.isZero && bound > 0 then
        let comparison := coeff.compare Fraction.ZERO
        if comparison > 0 then (Fraction.ZERO, coeff.mulInt (bound : Int))
        else if comparison < 0 then (coeff.mulInt (bound : Int), Fraction.ZERO)
        else (Fraction.ZERO, Fraction.ZERO)
      else (Fraction.ZERO, Fraction.ZERO)
    (contributions.1.add (mins.getD 0 Fraction.ZERO) :: mins,
     contributions.2.add (maxs.getD 0 Fraction.ZERO) :: maxs)

/-- Fill a pivot row's `coeffs` (the matrix entries at the free columns, in search
order) and its suffix tables. -/
def attachCoeffs (m : Mat) (freeColumns : List Nat) (order : List Nat)
    (freeBounds : List Nat) (row : PivotRow) : PivotRow :=
  let coeffs := order.map fun idx => m row.sourceRow (freeColumns.getD idx 0)
  let tables := suffixTables coeffs freeBounds
  { row with coeffs := coeffs, minSuffix := tables.1, maxSuffix := tables.2 }

/-- The zero-free-variable path: each pivot row's right-hand side must be an
integer press count within `[0, bound]`; the result is their sum. -/
def uniqueSolveTotal (upperBounds : List Nat) : List PivotRow → Except SolveError Nat
  | [] => .ok 0
  | row :: rest =>
    if !row.rhs.isInteger then .error .nonIntegerSolution
    else
      let presses := row.rhs.toNumber
      let bound := upperBounds.getD row.pivotCol 0
      if presses < 0 ∨ (bound : Int) < presses then .error .boundsViolation
      else (uniqueSolveTotal upperBounds rest).map fun total => total + presses.toNat

/-- The leaf computation of `dfs`: each pivot row's implied press count is
`rhs - assignedContribution`, which must be an integer in `[0, bound]`; the leaf
total adds these to the free-variable partial sum (`none` = rejected leaf). -/
def leafTotal (upperBounds : List Nat) : List (PivotRow × Fraction) → Nat → Option Nat
  | [], partial_ => some partial_
  | (row, assigned) :: rest, partial_ =>
    let pivotValue := row.rhs.sub assigned
    if !pivotValue.isInteger then none
    else
      let value := pivotValue.toNumber
      let bound := upperBounds.getD row.pivotCol 0
      if value < 0 ∨ (bound : Int) < value then none
      else (leafTotal upperBounds rest partial_).map fun total => total + value.toNat

/-- The pruning test of `dfs`: for every pivot row, the window of still-possible
contributions `[assigned + minSuffix, assigned + maxSuffix]` (using the suffix
tables at position `sufIdx`) must intersect the allowed window
`[minAllowed, maxAllowed]`. -/
def feasibleAll (rows : List (PivotRow × Fraction)) (sufIdx : Nat) : Bool :=
  rows.all fun ra =>
    let minPossible := ra.2.add (ra.1.minSuffix.getD sufIdx Fraction.ZERO)
    let maxPossible := ra.2.add (ra.1.maxSuffix.getD sufIdx Fraction.ZERO)
    0 ≤ maxPossible.compare ra.1.minAllowed ∧ minPossible.compare ra.1.maxAllowed ≤ 0

/-- Add free variable `index`'s contribution `coeff * value` to every pivot row's
assigned contribution (skipping zero coefficients, as the source does). -/
def addContrib (rows : List (PivotRow × Fraction)) (index : Nat) (value : Nat) :
    List (PivotRow × Fraction) :=
  rows.map fun ra =>
    let coeff := ra.1.coeffs.getD index Fraction.ZERO
    if coeff.isZero then ra else (ra.1, ra.2.add (coeff.mulInt (value : Int)))

/-- The recursive search `dfs` of the source, with the remaining free-variable
bounds as the structural argument, the per-row assigned contributions threaded as
the second component of each pair, and the incumbent `best` threaded explicitly
(`none` = `Infinity`).  At a node the source computes `maxValue` from the incumbent
at loop entry, then tries `value = 0 .. maxValue`, pruning branches whose pivot-row
windows cannot intersect the allowed windows. -/
def dfs (upperBounds : List Nat) :
    List Nat → Nat → List (PivotRow × Fraction) → Nat → Option Nat → Option Nat
  | [], partialSum, rows, _, best =>
    match leafTotal upperBounds rows partialSum with
    | none => best
    | some total =>
      match best with
      | none => some total
      | some b => if total < b then some total else best
  | bound :: rest, partialSum, rows, index, best =>
    if bound = 0 then
      if feasibleAll rows (index + 1) then
        dfs upperBounds rest partialSum rows (index + 1) best
      else best
    else
      let maxValueOpt : Option Nat :=
        match best with
        | none => some bound
        | some b => if b ≤ partialSum then none else some (min bound (b - partialSum - 1))
      match maxValueOpt with
      | none => best
      | some maxValue =>
        (List.range (maxValue + 1)).foldl
          (fun acc value =>
            let newRows := if value = 0 then rows else addContrib rows index value
            if feasibleAll newRows (index + 1) then
              dfs upperBounds rest (partialSum + value) newRows (index + 1) acc
            else acc)
          best

/-- The data handed from the setup phase of `minPressesForJoltage` to its search
phase: the pivot rows (with coefficients and suffix tables), the per-button upper
bounds, and the free-variable bounds in search order. -/
structure SearchData where
  pivotRows : List PivotRow
  upperBounds : List Nat
  freeBounds : List Nat
deriving DecidableEq, Repr

/-- Everything `minPressesForJoltage` does before the search: the early returns
for no counters / no buttons, matrix construction, `rref`, the pivot-row and
free-variable analysis, and the zero-free-variable direct solve.  `.inl n` is an
early result, `.inr d` means the bounded search runs on `d`. -/
def searchSetup (machine : Machine) : Except SolveError (Nat ⊕ SearchData) :=
  let targets := machine.joltageTargets
  if targets.length = 0 then .ok (.inl 0)
  else
    let buttonSets := machine.buttonCounterSets
    if buttonSets.length = 0 then
      if targets.all (· = 0) then .ok (.inl 0) else .error .infeasibleTarget
    else
      let augmented := buildAugmentedMatrix buttonSets targets.length targets
      match rref augmented targets.length buttonSets.length with
      | none => .error .divisionByZero
      | some (matrix, pivotColumnsByRow) =>
        let upperBounds := computeVariableUpperBounds buttonSets targets
        match buildPivotRows matrix pivotColumnsByRow buttonSets.length upperBounds
            (List.range targets.length) with
        | .error e => .error e
        | .ok pivotRows0 =>
          let pivotCols := pivotRows0.map (·.pivotCol)
          let freeColumns := (List.range buttonSets.length).filter
            fun col => !pivotCols.contains col
          if pivotRows0.length = 0 then .ok (.inl 0)
          else
            let freeVarInfos := freeColumns.enum.map fun p =>
              { col := p.2, bound := upperBounds.getD p.2 0, originalIndex := p.1 :
                FreeVarInfo }
            let sortedInfos := List.insertionSort freeVarLE freeVarInfos
            let freeBounds := sortedInfos.map (·.bound)
            let order := sortedInfos.map (·.originalIndex)
            let pivotRows := pivotRows0.map
              (attachCoeffs matrix freeColumns order freeBounds)
            if freeColumns.length = 0 then
              (uniqueSolveTotal upperBounds pivotRows).map .inl
            else
              .ok (.inr ⟨pivotRows, upperBounds, freeBounds⟩)

/-- The search phase of `minPressesForJoltage`: run `dfs` from index `0` with all
assigned contributions zero and no incumbent. -/
def runSearch (d : SearchData) : Option Nat :=
  dfs d.upperBounds d.freeBounds 0 (d.pivotRows.map fun row => (row, Fraction.ZERO)) 0 none

/-- `minPressesForJoltage`: setup, then (when needed) the bounded search; an
exhausted search is the `Unsolvable` failure. -/
def minPressesForJoltage (machine : Machine) : Except SolveError Nat :=
  match searchSetup machine with
  | .error e => .error e
  | .ok (.inl n) => .ok n
  | .ok (.inr d) =>
    match runSearch d with
    | none => .error .unsolvable
    | some best => .ok best

/-- The sum, over the buttons whose counter set contains counter `c`, of the
configuration's press counts (the simulated final value of counter `c`). -/
def pressSum (buttonCounterSets : List (List Nat)) (cfg : List Nat) (c : Nat) : Nat :=
  (List.range buttonCounterSets.length).foldl
    (fun acc b => if (buttonCounterSets.getD b []).contains c then acc + cfg.getD b 0 else acc) 0

/-- A valid configuration: one press count per button, and every counter's
simulated value equals its target. -/
def IsValidConfig (machine : Machine) (cfg : List Nat) : Prop :=
  cfg.length = machine.buttonCounterSets.length ∧
    ∀ c < machine.joltageTargets.length,
      pressSum machine.buttonCounterSets cfg c = machine.joltageTargets.getD c 0

instance (machine : Machine) (cfg : List Nat) : Decidable (IsValidConfig machine cfg) := by
  unfold IsValidConfig; infer_instance


/-! ### Concrete machines used as witnesses and counterexamples -/

/-- Scenario A of the specification: one counter with target 5, one button
affecting it. -/
def mScenarioA : Machine := ⟨1, 0, [], [[0]], [5]⟩

/-- Scenario C of the specification: targets `[4, 1]`, a button affecting both
counters and a button affecting only counter 0. -/
def mScenarioC : Machine := ⟨2, 0, [], [[0, 1], [0]], [4, 1]⟩

/-- Scenario D of the specification: one counter with target 2 and no buttons. -/
def mScenarioD : Machine := ⟨1, 0, [], [], [2]⟩

/-- Scenario E of the specification: targets `[2, 3]` with one dedicated button
per counter. -/
def mScenarioE : Machine := ⟨2, 0, [], [[0], [1]], [2, 3]⟩

/-- Scenario E with the two targets swapped: same buttons, targets `[3, 2]`. -/
def mSwapE : Machine := ⟨2, 0, [], [[0], [1]], [3, 2]⟩

/-- A machine whose reduced system is feasible over the rationals but admits no
integer assignment within bounds: counter 0 forces the shared button to 5 presses,
above its bound `min 5 3 = 3`. -/
def mUnsolvable : Machine := ⟨2, 0, [], [[0, 1], [1], [1]], [5, 3]⟩

/-- A machine whose reduction produces a pivot-free row with non-zero right-hand
side: one button affecting both counters, targets `[1, 2]`. -/
def mInfeasibleRow : Machine := ⟨2, 0, [], [[0, 1]], [1, 2]⟩

/-- A machine with no counters but one button. -/
def mNoCounters : Machine := ⟨0, 0, [], [[0]], []⟩

/-- A machine with one counter at target 0 and a single button affecting no
counters. -/
def mZeroEffect : Machine := ⟨1, 0, [], [[]], [0]⟩

/-! ### Basic lemmas about `pressSum` -/

/-- A conditional-accumulate fold is the starting value plus a sum of guarded terms. -/
theorem foldl_guard_add {α : Type} (p : α → Bool) (f : α → Nat) :
    ∀ (l : List α) (a : Nat),
      l.foldl (fun acc b => if p b then acc + f b else acc) a =
        a + (l.map fun b => if p b then f b else 0).sum := by
  intro l
  induction l with
  | nil => intro a; simp
  | cons x xs ih =>
    intro a
    by_cases hx : p x <;> simp [List.foldl_cons, hx, ih, Nat.add_assoc]

/-- `pressSum` as the sum of the per-button contributions. -/
theorem pressSum_eq_sum (buttonCounterSets : List (List Nat)) (cfg : List Nat) (c : Nat) :
    pressSum buttonCounterSets cfg c =
      ((List.range buttonCounterSets.length).map
        fun b => if (buttonCounterSets.getD b []).contains c then cfg.getD b 0 else 0).sum := by
  unfold pressSum
  rw [foldl_guard_add (fun b => (buttonCounterSets.getD b []).contains c)
    (fun b => cfg.getD b 0) (List.range buttonCounterSets.length) 0]
  simp

/-! ### Claim theorems: the easily evaluated claims -/

/-- Claim C10: a machine with an empty target vector returns 0 immediately,
whatever its buttons. -/
theorem c10_empty_targets_zero (m : Machine) (h : m.joltageTargets = []) :
    minPressesForJoltage m = .ok 0 := by
  unfold minPressesForJoltage searchSetup
  rw [h]
  simp

/-- Witness for C10 at a machine with no counters and one button. -/
theorem c10_empty_targets_zero_witness : minPressesForJoltage mNoCounters = .ok 0 :=
  c10_empty_targets_zero mNoCounters rfl

/-- Claim C4: a machine with no buttons and some non-zero target fails with
`InfeasibleTarget`. -/
theorem c4_no_buttons_infeasible (m : Machine) (h1 : m.buttonCounterSets = [])
    (h2 : ∃ t ∈ m.joltageTargets, t ≠ 0) :
    minPressesForJoltage m = .error .infeasibleTarget := by
  obtain ⟨t, ht, hne⟩ := h2
  unfold minPressesForJoltage searchSetup
  rw [h1]
  have hlen : ¬ m.joltageTargets.length = 0 := by
    intro h0
    rw [List.length_eq_zero] at h0
    rw [h0] at ht
    exact absurd ht (List.not_mem_nil t)
  have hall : ¬ m.joltageTargets.all (· = 0) = true := by
    intro hall
    exact hne (by simpa using List.all_eq_true.mp hall t ht)
  simp [hlen, hall]

/-- Witness for C4: scenario D (one counter with target 2, zero buttons). -/
theorem c4_no_buttons_infeasible_witness :
    minPressesForJoltage mScenarioD = .error .infeasibleTarget :=
  c4_no_buttons_infeasible mScenarioD rfl ⟨2, by decide, by decide⟩

/-- Claim C5: when the setup phase hands the bounded search a system and the
search exhausts its space without a feasible leaf, the solve fails with
`Unsolvable`. -/
theorem c5_exhausted_search_unsolvable (m : Machine) (d : SearchData)
    (h1 : searchSetup m = .ok (.inr d)) (h2 : runSearch d = none) :
    minPressesForJoltage m = .error .unsolvable := by
  unfold minPressesForJoltage
  rw [h1]
  simp only [h2]

/-- The search data produced for `mUnsolvable` (used to witness C5). -/
def mUnsolvableData : SearchData :=
  match searchSetup mUnsolvable with
  | .ok (.inr d) => d
  | _ => ⟨[], [], []⟩

/-- Witness for C5 at `mUnsolvable`. -/
theorem c5_exhausted_search_unsolvable_witness :
    minPressesForJoltage mUnsolvable = .error .unsolvable :=
  c5_exhausted_search_unsolvable mUnsolvable mUnsolvableData (by rfl) (by rfl)

/-- Claim C9: on scenario C (targets `[4, 1]`, a shared button and a solo button)
the solver returns 4, the configuration pressing the shared button once and the
solo button three times is valid with total 4, and no valid configuration has a
smaller total. -/
theorem c9_scenario_c :
    minPressesForJoltage mScenarioC = .ok 4 ∧ IsValidConfig mScenarioC [1, 3] ∧
      ∀ cfg, IsValidConfig mScenarioC cfg → 4 ≤ cfg.sum := by
  refine ⟨by decide, by decide, ?_⟩
  rintro cfg ⟨hlen, hc⟩
  match cfg, hlen with
  | [a, b], _ =>
    have h0 := hc 0 (by decide)
    rw [pressSum_eq_sum] at h0
    simp [mScenarioC, List.range_succ] at h0
    simp [List.sum_cons]
    omega

/-- Witness for C9: instantiating its minimality clause at the optimal
configuration. -/
theorem c9_scenario_c_witness : 4 ≤ List.sum [1, 3] :=
  c9_scenario_c.2.2 [1, 3] c9_scenario_c.2.1

/-- Claim C2, counterexample: the solver's output is only a total press count and
includes no per-button press vector.  The two machines below share their buttons
and produce identical outputs (`.ok 5`), yet their unique valid press vectors
differ (`[2, 3]` versus `[3, 2]`), so no per-button press vector can be part of
(or recovered from) the solver's output. -/
theorem c2_counterexample :
    minPressesForJoltage mScenarioE = .ok 5 ∧ minPressesForJoltage mSwapE = .ok 5 ∧
      mScenarioE.buttonCounterSets = mSwapE.buttonCounterSets ∧
      IsValidConfig mScenarioE [2, 3] ∧ ¬IsValidConfig mScenarioE [3, 2] ∧
      IsValidConfig mSwapE [3, 2] ∧ ¬IsValidConfig mSwapE [2, 3] := by
  decide

/-- Claim C8, counterexample: a valid configuration may press a button that
affects no counters any positive number of times, exceeding that button's
computed upper bound of 0. -/
theorem c8_counterexample :
    IsValidConfig mZeroEffect [1] ∧
      (computeVariableUpperBounds mZeroEffect.buttonCounterSets
        mZeroEffect.joltageTargets).getD 0 0 = 0 ∧
      ¬([1].getD 0 0 ≤ (computeVariableUpperBounds mZeroEffect.buttonCounterSets
        mZeroEffect.joltageTargets).getD 0 0) := by
  decide

/-- In a valid configuration, a button's press count is at most the target of
any in-range counter it affects. -/
theorem pressCount_le_target (m : Machine) (cfg : List Nat) (b c : Nat)
    (hv : IsValidConfig m cfg) (hmem : c ∈ m.buttonCounterSets.getD b [])
    (hclt : c < m.joltageTargets.length) :
    cfg.getD b 0 ≤ m.joltageTargets.getD c 0 := by
  obtain ⟨hlen, hc⟩ := hv
  have hb : b < m.buttonCounterSets.length := by
    by_contra hb
    rw [List.getD_eq_default] at hmem
    · exact absurd hmem (List.not_mem_nil c)
    · omega
  have hsum := hc c hclt
  rw [pressSum_eq_sum] at hsum
  have hterm :
      cfg.getD b 0 ≤ ((List.range m.buttonCounterSets.length).map
        fun i => if (m.buttonCounterSets.getD i []).contains c then cfg.getD i 0 else 0).sum := by
    have hmem2 : (if (m.buttonCounterSets.getD b []).contains c then cfg.getD b 0 else 0) ∈
        ((List.range m.buttonCounterSets.length).map
          fun i => if (m.buttonCounterSets.getD i []).contains c then cfg.getD i 0 else 0) :=
      List.mem_map_of_mem _ (List.mem_range.mpr hb)
    have hcontains : (m.buttonCounterSets.getD b []).contains c = true := by
      simpa using hmem
    rw [hcontains] at hmem2
    simp only [if_true] at hmem2
    exact List.single_le_sum (fun x _ => Nat.zero_le x) _ hmem2
  omega

/-- A button affecting no counters gets computed upper bound `0`. -/
theorem ub_zero_of_empty (sets : List (List Nat)) (targets : List Nat) (b : Nat)
    (h : sets.getD b [] = []) : (computeVariableUpperBounds sets targets).getD b 0 = 0 := by
  induction sets generalizing b with
  | nil => simp [computeVariableUpperBounds]
  | cons s rest ih =>
    cases b with
    | zero =>
      simp only [List.getD_cons_zero] at h
      simp [computeVariableUpperBounds, h]
    | succ b2 =>
      simp only [List.getD_cons_succ] at h
      simpa [computeVariableUpperBounds] using ih b2 h

/-- Claim C8, amended: in every valid configuration, a button that affects at
least one (in-range) counter is pressed at most that counter's target — hence at
most the minimum target over the counters it affects; and
`computeVariableUpperBounds` assigns bound 0 to a button affecting no counters.
(A button affecting no counters may be pressed arbitrarily often in a valid
configuration, and the solver returns no per-button press vector, so those
clauses of the original claim are dropped.) -/
theorem c8_amended :
    (∀ (m : Machine) (cfg : List Nat) (b c : Nat), IsValidConfig m cfg →
        c ∈ m.buttonCounterSets.getD b [] → c < m.joltageTargets.length →
        cfg.getD b 0 ≤ m.joltageTargets.getD c 0) ∧
    (∀ (sets : List (List Nat)) (targets : List Nat) (b : Nat),
        sets.getD b [] = [] → (computeVariableUpperBounds sets targets).getD b 0 = 0) :=
  ⟨pressCount_le_target, ub_zero_of_empty⟩

/-- If some row in the given list has only zero coefficients in the button
columns and a non-zero right-hand side, the pivot-row construction signals
`InfeasibleTarget`. -/
theorem buildPivotRows_error_of_bad (m : Mat) (piv : Nat → Option Nat) (varCount : Nat)
    (ub : List Nat) :
    ∀ rows : List Nat, (∃ row ∈ rows, (∀ c < varCount, (m row c).isZero = true) ∧
        (m row varCount).isZero = false) →
      buildPivotRows m piv varCount ub rows = .error .infeasibleTarget := by
  intro rows
  induction rows with
  | nil => rintro ⟨row, hmem, _⟩; exact absurd hmem (List.not_mem_nil row)
  | cons row rest ih =>
    rintro ⟨r, hmem, hzero, hrhs⟩
    unfold buildPivotRows
    dsimp only
    rcases List.mem_cons.mp hmem with hr | hr
    · subst hr
      have hco : ((List.range varCount).any fun c => !(m r c).isZero) = false := by
        rw [List.any_eq_false]
        intro c hc
        simp [hzero c (List.mem_range.mp hc)]
      rw [hco]
      simp [hrhs]
    · have herr := ih ⟨r, hr, hzero, hrhs⟩
      by_cases hbad : (!(List.range varCount).any fun c => !(m row c).isZero) &&
          !(m row varCount).isZero
      · rw [hbad]
        simp
      · rw [Bool.not_eq_true] at hbad
        rw [hbad]
        simp only [Bool.false_eq_true, if_false]
        cases hp : piv row with
        | none => exact herr
        | some pivotCol => rw [herr]; rfl

/-- Claim C3: if after row reduction some row has all-zero button coefficients
and a non-zero right-hand side, the solve fails with `InfeasibleTarget`. -/
theorem c3_unsatisfiable_row_infeasible (m : Machine) (mtx : Mat) (piv : Nat → Option Nat)
    (hbtn : m.buttonCounterSets.length ≠ 0) (htgt : m.joltageTargets.length ≠ 0)
    (hr : rref (buildAugmentedMatrix m.buttonCounterSets m.joltageTargets.length
        m.joltageTargets) m.joltageTargets.length m.buttonCounterSets.length =
        some (mtx, piv))
    (hbad : ∃ row < m.joltageTargets.length,
        (∀ c < m.buttonCounterSets.length, (mtx row c).isZero = true) ∧
        (mtx row m.buttonCounterSets.length).isZero = false) :
    minPressesForJoltage m = .error .infeasibleTarget := by
  obtain ⟨row, hrlt, hzero, hrhs⟩ := hbad
  have herr := buildPivotRows_error_of_bad mtx piv m.buttonCounterSets.length
    (computeVariableUpperBounds m.buttonCounterSets m.joltageTargets)
    (List.range m.joltageTargets.length) ⟨row, List.mem_range.mpr hrlt, hzero, hrhs⟩
  unfold minPressesForJoltage searchSetup
  rw [if_neg htgt, if_neg hbtn]
  dsimp only
  rw [hr]
  dsimp only
  rw [herr]

/-- The reduced matrix and pivot assignment of `mInfeasibleRow`. -/
def mInfeasibleRowRed : Mat × (Nat → Option Nat) :=
  match rref (buildAugmentedMatrix mInfeasibleRow.buttonCounterSets
      mInfeasibleRow.joltageTargets.length mInfeasibleRow.joltageTargets)
      mInfeasibleRow.joltageTargets.length mInfeasibleRow.buttonCounterSets.length with
  | some p => p
  | none => (fun _ _ => Fraction.ZERO, fun _ => none)

/-- Witness for C3 at `mInfeasibleRow` (row 1 reduces to `0 = 1`). -/
theorem c3_unsatisfiable_row_infeasible_witness :
    minPressesForJoltage mInfeasibleRow = .error .infeasibleTarget :=
  c3_unsatisfiable_row_infeasible mInfeasibleRow mInfeasibleRowRed.1 mInfeasibleRowRed.2
    (by decide) (by decide) (by rfl)
    ⟨1, by decide, by decide, by decide⟩

/-- The pivot scan only returns rows whose entry in the scanned column is
non-zero. -/
theorem findPivotGo_nonzero (m : Mat) (col : Nat) :
    ∀ (remaining startRow p : Nat), findPivotGo m col remaining startRow = some p →
      (m p col).isZero = false := by
  intro remaining
  induction remaining with
  | zero => intro s p h; exact absurd h (by simp [findPivotGo])
  | succ k ih =>
    intro s p h
    unfold findPivotGo at h
    by_cases hz : (m s col).isZero
    · rw [if_pos hz] at h
      exact ih (s + 1) p h
    · rw [if_neg hz] at h
      cases h
      exact Bool.of_not_eq_true hz

/-- The scanned pivot row has a non-zero pivot entry. -/
theorem findPivotRow_nonzero (m : Mat) (rowCount startRow col p : Nat)
    (h : findPivotRow m rowCount startRow col = some p) : (m p col).isZero = false :=
  findPivotGo_nonzero m col (rowCount - startRow) startRow p h

/-- The column loop of `rref` never takes its division-by-zero branch: the scan
guarantees each pivot is non-zero. -/
theorem rrefGo_isSome (rowCount width : Nat) :
    ∀ (remainingCols : Nat) (m : Mat) (pivots : Nat → Option Nat) (col currentRow : Nat),
      (rrefGo rowCount width remainingCols m pivots col currentRow).isSome := by
  intro remainingCols
  induction remainingCols with
  | zero => intro m pivots col currentRow; simp [rrefGo]
  | succ k ih =>
    intro m pivots col currentRow
    unfold rrefGo
    by_cases hcr : currentRow < rowCount
    · rw [if_pos hcr]
      cases hf : findPivotRow m rowCount currentRow col with
      | none => exact ih m pivots (col + 1) currentRow
      | some pivotRow =>
        dsimp only
        have hz : (swapRows m currentRow pivotRow currentRow col).isZero = false := by
          have := findPivotRow_nonzero m rowCount currentRow col pivotRow hf
          by_cases hcp : currentRow = pivotRow
          · simpa [swapRows, hcp] using this
          · simpa [swapRows] using this
        rw [hz]
        simp only [Bool.false_eq_true, if_false]
        exact ih _ _ (col + 1) (currentRow + 1)
    · rw [if_neg hcr]
      simp

/-- `rref` always succeeds. -/
theorem rref_isSome (matrix : Mat) (rowCount variableCount : Nat) :
    (rref matrix rowCount variableCount).isSome :=
  rrefGo_isSome rowCount (variableCount + 1) variableCount matrix (fun _ => none) 0 0

/-- The pivot-row construction only ever fails with `InfeasibleTarget`. -/
theorem buildPivotRows_error_eq (m : Mat) (piv : Nat → Option Nat) (varCount : Nat)
    (ub : List Nat) :
    ∀ (rows : List Nat) (e : SolveError),
      buildPivotRows m piv varCount ub rows = .error e → e = .infeasibleTarget := by
  intro rows
  induction rows with
  | nil => intro e h; exact absurd h (by simp [buildPivotRows])
  | cons row rest ih =>
    intro e h
    unfold buildPivotRows at h
    dsimp only at h
    by_cases hc : (!(List.range varCount).any fun c => !(m row c).isZero) && !(m row varCount).isZero
    · rw [hc] at h
      simp only [if_true] at h
      cases h
      rfl
    · rw [Bool.not_eq_true] at hc
      rw [hc] at h
      simp only [Bool.false_eq_true, if_false] at h
      cases hp : piv row with
      | none => rw [hp] at h; exact ih e h
      | some pivotCol =>
        rw [hp] at h
        dsimp only at h
        cases hrec : buildPivotRows m piv varCount ub rest with
        | error e2 =>
          rw [hrec] at h
          cases h
          exact ih _ hrec
        | ok prs => rw [hrec] at h; exact absurd h (by simp [Except.map])

/-- The zero-free-variable direct solve never fails with `DivisionByZero`. -/
theorem uniqueSolveTotal_error_ne_div (ub : List Nat) :
    ∀ (rows : List PivotRow) (e : SolveError),
      uniqueSolveTotal ub rows = .error e → e ≠ .divisionByZero := by
  intro rows
  induction rows with
  | nil => intro e h; exact absurd h (by simp [uniqueSolveTotal])
  | cons row rest ih =>
    intro e h
    unfold uniqueSolveTotal at h
    dsimp only at h
    by_cases h1 : !row.rhs.isInteger
    · rw [if_pos h1] at h
      cases h
      decide
    · rw [if_neg h1] at h
      by_cases h2 : row.rhs.toNumber < 0 ∨ ((ub.getD row.pivotCol 0 : Nat) : Int) < row.rhs.toNumber
      · rw [if_pos h2] at h
        cases h
        decide
      · rw [if_neg h2] at h
        cases hrec : uniqueSolveTotal ub rest with
        | error e2 =>
          rw [hrec] at h
          cases h
          exact ih _ hrec
        | ok total => rw [hrec] at h; exact absurd h (by simp [Except.map])

/-- Mapping the direct-solve result into the setup phase's sum type never yields
`DivisionByZero`. -/
theorem map_uniqueSolveTotal_ne_div (ub : List Nat) (rows : List PivotRow) :
    Except.map (Sum.inl : Nat → Nat ⊕ SearchData) (uniqueSolveTotal ub rows) ≠
      .error .divisionByZero := by
  cases hu : uniqueSolveTotal ub rows with
  | error e =>
    intro h
    simp only [Except.map] at h
    cases h
    exact uniqueSolveTotal_error_ne_div ub rows _ hu rfl
  | ok t => simp [Except.map]

/-- The setup phase never fails with `DivisionByZero` (the reduction's division
guard is unreachable). -/
theorem searchSetup_ne_div (m : Machine) : searchSetup m ≠ .error .divisionByZero := by
  unfold searchSetup
  dsimp only
  split
  · simp
  · split
    · split
      · simp
      · intro h
        cases h
    · rename_i hbtn
      cases hrref : rref (buildAugmentedMatrix m.buttonCounterSets m.joltageTargets.length
          m.joltageTargets) m.joltageTargets.length m.buttonCounterSets.length with
      | none =>
        have := rref_isSome (buildAugmentedMatrix m.buttonCounterSets m.joltageTargets.length
          m.joltageTargets) m.joltageTargets.length m.buttonCounterSets.length
        rw [hrref] at this
        exact absurd this (by simp)
      | some p =>
        obtain ⟨mtx, piv⟩ := p
        dsimp only
        cases hb : buildPivotRows mtx piv m.buttonCounterSets.length
            (computeVariableUpperBounds m.buttonCounterSets m.joltageTargets)
            (List.range m.joltageTargets.length) with
        | error e =>
          have he := buildPivotRows_error_eq mtx piv m.buttonCounterSets.length
            (computeVariableUpperBounds m.buttonCounterSets m.joltageTargets)
            (List.range m.joltageTargets.length) e hb
          subst he
          intro h
          cases h
        | ok pivotRows0 =>
          dsimp only
          split
          · simp
          · split
            · exact map_uniqueSolveTotal_ne_div _ _
            · simp

/-- Claim C7: a solve call never fails with `DivisionByZero` — every divisor used
during row reduction is a scanned, non-zero pivot, so the division guard's error
branch is unreachable (this holds for every machine, in particular for every
machine with valid counter indices and matching target count). -/
theorem c7_no_division_by_zero (m : Machine) :
    minPressesForJoltage m ≠ .error .divisionByZero := by
  unfold minPressesForJoltage
  cases hs : searchSetup m with
  | error e =>
    intro h
    cases h
    exact searchSetup_ne_div m hs
  | ok v =>
    cases v with
    | inl n => simp
    | inr d =>
      dsimp only
      cases hr : runSearch d with
      | none => simp
      | some best => simp

/-- Witness for C7 at scenario A. -/
theorem c7_no_division_by_zero_witness :
    minPressesForJoltage mScenarioA ≠ .error .divisionByZero :=
  c7_no_division_by_zero mScenarioA

namespace Fraction

/-- The representation invariant of `Fraction`: positive denominator, numerator
and denominator coprime, and zero canonicalized to `0/1`.  (The third conjunct
follows from the first two; it is kept explicit because the specification states
it.) -/
def Reduced (f : Fraction) : Prop :=
  0 < f.den ∧ Int.gcd f.num f.den = 1 ∧ (f.num = 0 → f.den = 1)

instance (f : Fraction) : Decidable (Reduced f) := by
  unfold Reduced; infer_instance

/-- The source's gcd loop computes the gcd of the two integers. -/
theorem gcdB_eq (a b : Int) : gcdB a b = (Int.gcd a b : Int) := by
  unfold gcdB gcdLoop
  rw [Nat.gcd_comm]
  rfl

/-- The constructor establishes the invariant whenever the denominator is
non-zero (the source throws on a zero denominator). -/
theorem make_reduced (n d : Int) (hd : d ≠ 0) : Reduced (make n d) := by
  unfold make
  by_cases hn : n = 0
  · rw [if_pos hn]
    exact ⟨by norm_num, by decide, fun _ => rfl⟩
  · rw [if_neg hn]
    dsimp only
    rw [gcdB_eq]
    set n2 := if d < 0 then -n else n with hn2
    set d2 := if d < 0 then -d else d with hd2
    have hd2pos : 0 < d2 := by rw [hd2]; split <;> omega
    have hn2ne : n2 ≠ 0 := by rw [hn2]; split <;> simpa using hn
    have hgpos : 0 < Int.gcd n2 d2 := Int.gcd_pos_iff.mpr (Or.inl hn2ne)
    have hGne : (Int.gcd n2 d2 : Int) ≠ 0 := Int.natCast_ne_zero.mpr hgpos.ne'
    obtain ⟨p, hp⟩ := (Int.gcd_dvd_left : (Int.gcd n2 d2 : Int) ∣ n2)
    obtain ⟨q, hq⟩ := (Int.gcd_dvd_right : (Int.gcd n2 d2 : Int) ∣ d2)
    have hnum : n2 / (Int.gcd n2 d2 : Int) = p := by
      have hcan := Int.mul_ediv_cancel_left p hGne
      rw [← hp] at hcan
      exact hcan
    have hden : d2 / (Int.gcd n2 d2 : Int) = q := by
      have hcan := Int.mul_ediv_cancel_left q hGne
      rw [← hq] at hcan
      exact hcan
    have hGpos : (0 : Int) < (Int.gcd n2 d2 : Int) := by exact_mod_cast hgpos
    have hqpos : 0 < q := by
      by_contra hqle
      push_neg at hqle
      nlinarith [hq, hd2pos, hGpos]
    have hpne : p ≠ 0 := by
      intro h0
      rw [h0, mul_zero] at hp
      exact hn2ne hp
    refine ⟨?_, ?_, ?_⟩
    · show 0 < d2 / (Int.gcd n2 d2 : Int)
      rw [hden]; exact hqpos
    · show Int.gcd (n2 / (Int.gcd n2 d2 : Int)) (d2 / (Int.gcd n2 d2 : Int)) = 1
      exact Int.gcd_div_gcd_div_gcd hgpos
    · intro h0
      rw [hnum] at h0
      exact absurd h0 hpne
  
/-- A reduced fraction's denominator is non-zero. -/
theorem Reduced.den_ne {f : Fraction} (h : Reduced f) : f.den ≠ 0 :=
  ne_of_gt h.1

end Fraction

/-- Claim C6: every `Fraction` produced by the constructor (with the source's
precondition of a non-zero denominator) or by `add`, `sub`, `mul`, `div`,
`mulInt` from reduced operands is in lowest terms with a positive denominator,
and a zero value is always the literal `0/1`. -/
theorem c6_fraction_invariant :
    (∀ n d : Int, d ≠ 0 → Fraction.Reduced (Fraction.make n d)) ∧
    (∀ a b : Fraction, a.Reduced → b.Reduced → (a.add b).Reduced) ∧
    (∀ a b : Fraction, a.Reduced → b.Reduced → (a.sub b).Reduced) ∧
    (∀ a b : Fraction, a.Reduced → b.Reduced → (a.mul b).Reduced) ∧
    (∀ a b c : Fraction, a.Reduced → b.Reduced → a.div b = some c → c.Reduced) ∧
    (∀ (a : Fraction) (v : Int), a.Reduced → (a.mulInt v).Reduced) ∧
    (∀ f : Fraction, f.Reduced → f.num = 0 → f = ⟨0, 1⟩) := by
  refine ⟨Fraction.make_reduced, ?_, ?_, ?_, ?_, ?_, ?_⟩
  · intro a b ha hb
    exact Fraction.make_reduced _ _ (mul_ne_zero ha.den_ne hb.den_ne)
  · intro a b ha hb
    exact Fraction.make_reduced _ _ (mul_ne_zero ha.den_ne hb.den_ne)
  · intro a b ha hb
    exact Fraction.make_reduced _ _ (mul_ne_zero ha.den_ne hb.den_ne)
  · intro a b c ha hb hdiv
    unfold Fraction.div at hdiv
    by_cases hbz : b.num = 0
    · rw [if_pos hbz] at hdiv; cases hdiv
    · rw [if_neg hbz] at hdiv
      cases hdiv
      exact Fraction.make_reduced _ _ (mul_ne_zero ha.den_ne hbz)
  · intro a v ha
    exact Fraction.make_reduced _ _ ha.den_ne
  · rintro ⟨n, d⟩ hf h0
    obtain ⟨-, -, hden⟩ := hf
    have hd1 : d = 1 := hden h0
    have hn0 : n = 0 := h0
    subst hd1 hn0
    rfl

/-- Witness for C6 at concrete fractions (construction with a negative
denominator, and each operation on reduced operands). -/
theorem c6_fraction_invariant_witness :
    Fraction.Reduced (Fraction.make 6 (-4)) ∧
    Fraction.Reduced (Fraction.add ⟨1, 2⟩ ⟨1, 3⟩) ∧
    Fraction.Reduced (Fraction.sub ⟨1, 2⟩ ⟨1, 3⟩) ∧
    Fraction.Reduced (Fraction.mul ⟨2, 3⟩ ⟨3, 4⟩) ∧
    Fraction.Reduced (Fraction.divNZ ⟨1, 2⟩ ⟨2, 3⟩) ∧
    Fraction.Reduced (Fraction.mulInt ⟨1, 2⟩ 4) :=
  ⟨c6_fraction_invariant.1 6 (-4) (by decide),
   c6_fraction_invariant.2.1 ⟨1, 2⟩ ⟨1, 3⟩ (by decide) (by decide),
   c6_fraction_invariant.2.2.1 ⟨1, 2⟩ ⟨1, 3⟩ (by decide) (by decide),
   c6_fraction_invariant.2.2.2.1 ⟨2, 3⟩ ⟨3, 4⟩ (by decide) (by decide),
   c6_fraction_invariant.2.2.2.2.1 ⟨1, 2⟩ ⟨2, 3⟩ (Fraction.divNZ ⟨1, 2⟩ ⟨2, 3⟩)
     (by decide) (by decide) (by decide),
   c6_fraction_invariant.2.2.2.2.2.1 ⟨1, 2⟩ 4 (by decide)⟩

/-- Witness for the amended C8: the shared button of scenario C within a valid
configuration, and a zero-effect button's computed bound. -/
theorem c8_amended_witness :
    [1, 3].getD 0 0 ≤ mScenarioC.joltageTargets.getD 1 0 ∧
    (computeVariableUpperBounds [[]] [5]).getD 0 0 = 0 :=
  ⟨c8_amended.1 mScenarioC [1, 3] 0 1 (by decide) (by decide) (by decide),
   c8_amended.2 [[]] [5] 0 (by decide)⟩

namespace Fraction

/-- The rational number denoted by a fraction. -/
def toRat (f : Fraction) : ℚ := (f.num : ℚ) / (f.den : ℚ)

theorem toRat_make (n d : Int) (hd : d ≠ 0) : toRat (make n d) = (n : ℚ) / (d : ℚ) := by
  unfold make
  by_cases hn : n = 0
  · rw [if_pos hn]
    simp [toRat, hn]
  · rw [if_neg hn]
    dsimp only
    rw [gcdB_eq]
    set n2 := if d < 0 then -n else n with hn2
    set d2 := if d < 0 then -d else d with hd2
    have hgpos : 0 < Int.gcd n2 d2 := by
      refine Int.gcd_pos_iff.mpr (Or.inl ?_)
      rw [hn2]; split <;> simpa using hn
    have hGne : (Int.gcd n2 d2 : Int) ≠ 0 := Int.natCast_ne_zero.mpr hgpos.ne'
    obtain ⟨p, hp⟩ := (Int.gcd_dvd_left : (Int.gcd n2 d2 : Int) ∣ n2)
    obtain ⟨q, hq⟩ := (Int.gcd_dvd_right : (Int.gcd n2 d2 : Int) ∣ d2)
    have hnum : n2 / (Int.gcd n2 d2 : Int) = p := by
      have hcan := Int.mul_ediv_cancel_left p hGne
      rw [← hp] at hcan
      exact hcan
    have hden : d2 / (Int.gcd n2 d2 : Int) = q := by
      have hcan := Int.mul_ediv_cancel_left q hGne
      rw [← hq] at hcan
      exact hcan
    have hfrac : (n2 : ℚ) / (d2 : ℚ) = (n : ℚ) / (d : ℚ) := by
      rw [hn2, hd2]
      split
      · push_cast
        rw [neg_div_neg_eq]
      · rfl
    rw [toRat]
    dsimp only
    rw [hnum, hden, ← hfrac]
    have hGQ : ((Int.gcd n2 d2 : Int) : ℚ) ≠ 0 := by exact_mod_cast hGne
    rw [show (n2 : ℚ) = ((Int.gcd n2 d2 : Int) : ℚ) * (p : ℚ) by exact_mod_cast hp,
      show (d2 : ℚ) = ((Int.gcd n2 d2 : Int) : ℚ) * (q : ℚ) by exact_mod_cast hq]
    rw [mul_div_mul_left _ _ hGQ]

theorem toRat_ZERO : toRat ZERO = 0 := by simp [toRat, ZERO, make]

theorem toRat_ONE : toRat ONE = 1 := by simp [toRat, ONE, make, gcdB_eq]

theorem toRat_fromInt (v : Int) : toRat (fromInt v) = (v : ℚ) := by
  rw [fromInt, toRat_make v 1 one_ne_zero]
  norm_num

theorem toRat_add (a b : Fraction) (ha : a.den ≠ 0) (hb : b.den ≠ 0) :
    toRat (add a b) = toRat a + toRat b := by
  rw [add, toRat_make _ _ (mul_ne_zero ha hb), toRat, toRat]
  have ha2 : (a.den : ℚ) ≠ 0 := Int.cast_ne_zero.mpr ha
  have hb2 : (b.den : ℚ) ≠ 0 := Int.cast_ne_zero.mpr hb
  field_simp

theorem toRat_sub (a b : Fraction) (ha : a.den ≠ 0) (hb : b.den ≠ 0) :
    toRat (sub a b) = toRat a - toRat b := by
  rw [sub, toRat_make _ _ (mul_ne_zero ha hb), toRat, toRat]
  have ha2 : (a.den : ℚ) ≠ 0 := Int.cast_ne_zero.mpr ha
  have hb2 : (b.den : ℚ) ≠ 0 := Int.cast_ne_zero.mpr hb
  field_simp
  ring

theorem toRat_mul (a b : Fraction) (ha : a.den ≠ 0) (hb : b.den ≠ 0) :
    toRat (mul a b) = toRat a * toRat b := by
  rw [mul, toRat_make _ _ (mul_ne_zero ha hb), toRat, toRat]
  push_cast
  rw [div_mul_div_comm]

theorem toRat_mulInt (a : Fraction) (v : Int) (ha : a.den ≠ 0) :
    toRat (mulInt a v) = toRat a * (v : ℚ) := by
  rw [mulInt, toRat_make _ _ ha, toRat]
  push_cast
  ring

theorem toRat_divNZ (a b : Fraction) (ha : a.den ≠ 0) (hbn : b.num ≠ 0) (hbd : b.den ≠ 0) :
    toRat (divNZ a b) = toRat a / toRat b := by
  rw [divNZ, toRat_make _ _ (mul_ne_zero ha hbn), toRat, toRat]
  have ha2 : (a.den : ℚ) ≠ 0 := Int.cast_ne_zero.mpr ha
  have hb2 : (b.den : ℚ) ≠ 0 := Int.cast_ne_zero.mpr hbd
  have hb3 : (b.num : ℚ) ≠ 0 := Int.cast_ne_zero.mpr hbn
  field_simp

/-- With a non-zero denominator, `isZero` decides whether the denoted rational
is zero. -/
theorem isZero_iff (a : Fraction) (ha : a.den ≠ 0) : a.isZero = true ↔ toRat a = 0 := by
  have ha2 : (a.den : ℚ) ≠ 0 := Int.cast_ne_zero.mpr ha
  rw [isZero, toRat, div_eq_zero_iff]
  simp [ha2]

theorem isZero_eq_false_iff (a : Fraction) (ha : a.den ≠ 0) :
    a.isZero = false ↔ toRat a ≠ 0 := by
  rw [← Bool.not_eq_true, not_iff_not]
  exact isZero_iff a ha

/-- An integer-denominator fraction denotes its numerator. -/
theorem toRat_of_isInteger (a : Fraction) (h : a.isInteger = true) :
    toRat a = (a.num : ℚ) := by
  rw [isInteger, decide_eq_true_eq] at h
  rw [toRat, h]
  norm_num

theorem toNumber_of_isInteger (a : Fraction) (h : a.isInteger = true) :
    a.toNumber = a.num := by
  rw [isInteger, decide_eq_true_eq] at h
  rw [toNumber, h, Int.ediv_one]

/-- A reduced fraction denoting an integer has denominator one. -/
theorem isInteger_of_int (a : Fraction) (ha : Reduced a) (k : Int) (h : toRat a = (k : ℚ)) :
    a.isInteger = true := by
  obtain ⟨hpos, hgcd, -⟩ := ha
  have hdne : (a.den : ℚ) ≠ 0 := Int.cast_ne_zero.mpr (ne_of_gt hpos)
  have hnum : (a.num : ℚ) = (k : ℚ) * (a.den : ℚ) := by
    rw [toRat, div_eq_iff hdne] at h
    exact h
  have hnum2 : a.num = k * a.den := by exact_mod_cast hnum
  have hdvd : a.den ∣ a.num := Dvd.intro_left k hnum2.symm
  have hdvd2 : a.den.natAbs ∣ Int.gcd a.num a.den :=
    Nat.dvd_gcd (Int.natAbs_dvd_natAbs.mpr hdvd) dvd_rfl
  rw [hgcd, Nat.dvd_one] at hdvd2
  have : a.den = 1 := by
    have := Int.natAbs_eq a.den
    omega
  simp [isInteger, this]

/-- `compare` is non-negative exactly when the first fraction is at least the
second (denominators positive). -/
theorem compare_nonneg_iff (a b : Fraction) (ha : 0 < a.den) (hb : 0 < b.den) :
    0 ≤ compare a b ↔ toRat b ≤ toRat a := by
  have ha2 : (0 : ℚ) < (a.den : ℚ) := by exact_mod_cast ha
  have hb2 : (0 : ℚ) < (b.den : ℚ) := by exact_mod_cast hb
  rw [compare, toRat, toRat, div_le_div_iff hb2 ha2]
  constructor
  · intro h
    by_contra hlt
    push_neg at hlt
    have hlt2 : a.num * b.den < b.num * a.den := by exact_mod_cast hlt
    rw [if_pos hlt2] at h
    norm_num at h
  · intro h
    have h2 : ¬(a.num * b.den < b.num * a.den) := by
      push_neg
      exact_mod_cast h
    rw [if_neg h2]
    split <;> norm_num

/-- `compare` is non-positive exactly when the first fraction is at most the
second (denominators positive). -/
theorem compare_nonpos_iff (a b : Fraction) (ha : 0 < a.den) (hb : 0 < b.den) :
    compare a b ≤ 0 ↔ toRat a ≤ toRat b := by
  have ha2 : (0 : ℚ) < (a.den : ℚ) := by exact_mod_cast ha
  have hb2 : (0 : ℚ) < (b.den : ℚ) := by exact_mod_cast hb
  rw [compare, toRat, toRat, div_le_div_iff ha2 hb2]
  constructor
  · intro h
    by_cases hlt : a.num * b.den < b.num * a.den
    · exact le_of_lt (by exact_mod_cast hlt)
    · rw [if_neg hlt] at h
      by_cases hgt : b.num * a.den < a.num * b.den
      · rw [if_pos hgt] at h
        norm_num at h
      · push_neg at hlt hgt
        have : a.num * b.den = b.num * a.den := le_antisymm hgt hlt
        exact_mod_cast le_of_eq this
  · intro h
    have h2 : a.num * b.den ≤ b.num * a.den := by exact_mod_cast h
    by_cases hlt : a.num * b.den < b.num * a.den
    · rw [if_pos hlt]; norm_num
    · rw [if_neg hlt]
      have : ¬(b.num * a.den < a.num * b.den) := by omega
      rw [if_neg this]

/-- `compare` is positive exactly when the first fraction exceeds the second. -/
theorem compare_pos_iff (a b : Fraction) (ha : 0 < a.den) (hb : 0 < b.den) :
    0 < compare a b ↔ toRat b < toRat a := by
  have h := compare_nonpos_iff a b ha hb
  constructor
  · intro hc
    by_contra hle
    push_neg at hle
    have := h.mpr hle
    omega
  · intro hlt
    by_contra hle
    push_neg at hle
    have := h.mp (by omega)
    exact absurd this (not_le.mpr hlt)

/-- `compare` is negative exactly when the first fraction is below the second. -/
theorem compare_neg_iff (a b : Fraction) (ha : 0 < a.den) (hb : 0 < b.den) :
    compare a b < 0 ↔ toRat a < toRat b := by
  have h := compare_nonneg_iff a b ha hb
  constructor
  · intro hc
    by_contra hle
    push_neg at hle
    have := h.mpr hle
    omega
  · intro hlt
    by_contra hle
    push_neg at hle
    have := h.mp (by omega)
    exact absurd this (not_le.mpr hlt)

/-- Reduced fractions with equal numerators and denominators are equal; in
particular `make` of a reduced pair is the pair itself. -/
theorem toRat_eq_zero_iff_num (a : Fraction) (ha : a.den ≠ 0) :
    toRat a = 0 ↔ a.num = 0 := (isZero_iff a ha).symm.trans (by simp [isZero])

end Fraction

/-! ### Semantics of the linear system -/

/-- The equation of row `row` of an augmented matrix with `varCount` variable
columns (column `varCount` is the right-hand side), at the rational assignment
`x`. -/
def RowEq (m : Mat) (varCount row : Nat) (x : Nat → ℚ) : Prop :=
  ∑ c ∈ Finset.range varCount, (m row c).toRat * x c = (m row varCount).toRat

/-- Satisfaction of every row equation of the system. -/
def Sat (m : Mat) (rowCount varCount : Nat) (x : Nat → ℚ) : Prop :=
  ∀ r < rowCount, RowEq m varCount r x

/-- Every entry of the matrix is a reduced fraction. -/
def MatReduced (m : Mat) : Prop := ∀ r c, (m r c).Reduced

theorem Fraction.add_reduced (a b : Fraction) (ha : a.den ≠ 0) (hb : b.den ≠ 0) :
    (a.add b).Reduced := Fraction.make_reduced _ _ (mul_ne_zero ha hb)

theorem Fraction.sub_reduced (a b : Fraction) (ha : a.den ≠ 0) (hb : b.den ≠ 0) :
    (a.sub b).Reduced := Fraction.make_reduced _ _ (mul_ne_zero ha hb)

theorem Fraction.mul_reduced (a b : Fraction) (ha : a.den ≠ 0) (hb : b.den ≠ 0) :
    (a.mul b).Reduced := Fraction.make_reduced _ _ (mul_ne_zero ha hb)

theorem Fraction.mulInt_reduced (a : Fraction) (v : Int) (ha : a.den ≠ 0) :
    (a.mulInt v).Reduced := Fraction.make_reduced _ _ ha

theorem Fraction.divNZ_reduced (a b : Fraction) (ha : a.den ≠ 0) (hb : b.num ≠ 0) :
    (a.divNZ b).Reduced := Fraction.make_reduced _ _ (mul_ne_zero ha hb)

theorem Fraction.ZERO_reduced : Fraction.ZERO.Reduced := by decide

theorem Fraction.ONE_reduced : Fraction.ONE.Reduced := by decide

theorem Fraction.fromInt_reduced (v : Int) : (Fraction.fromInt v).Reduced :=
  Fraction.make_reduced _ _ one_ne_zero

theorem swapRows_matReduced (m : Mat) (i j : Nat) (h : MatReduced m) :
    MatReduced (swapRows m i j) := by
  intro r c
  unfold swapRows
  split
  · exact h j c
  · split
    · exact h i c
    · exact h r c

theorem scaleRowFrom_matReduced (m : Mat) (row col width : Nat) (pv : Fraction)
    (h : MatReduced m) (hpn : pv.num ≠ 0) : MatReduced (scaleRowFrom m row col width pv) := by
  intro r c
  unfold scaleRowFrom
  split
  · exact Fraction.make_reduced _ _ (mul_ne_zero (h r c).den_ne hpn)
  · exact h r c

theorem eliminateOthers_matReduced (m : Mat) (row col width rowCount : Nat)
    (h : MatReduced m) : MatReduced (eliminateOthers m row col width rowCount) := by
  intro r c
  unfold eliminateOthers
  split
  · exact Fraction.make_reduced _ _
      (mul_ne_zero (h r c).den_ne (Fraction.make_reduced _ _
        (mul_ne_zero (h r col).den_ne (h row c).den_ne)).den_ne)
  · exact h r c

/-- Swapping two rows inside the system does not change its solutions. -/
theorem sat_swapRows (m : Mat) (rowCount varCount i j : Nat)
    (hi : i < rowCount) (hj : j < rowCount) (x : Nat → ℚ) :
    Sat (swapRows m i j) rowCount varCount x ↔ Sat m rowCount varCount x := by
  have hrow : ∀ r, RowEq (swapRows m i j) varCount r x ↔
      RowEq m varCount (if r = i then j else if r = j then i else r) x := by
    intro r
    unfold RowEq swapRows
    split
    · exact Iff.rfl
    · split
      · exact Iff.rfl
      · exact Iff.rfl
  constructor
  · intro h r hr
    by_cases hri : r = i
    · have h2 := (hrow j).mp (h j hj)
      by_cases hji : j = i
      · rw [if_pos hji] at h2
        rw [hri, ← hji]
        exact h2
      · rw [if_neg hji, if_pos rfl] at h2
        rw [hri]
        exact h2
    · by_cases hrj : r = j
      · have h2 := (hrow i).mp (h i hi)
        rw [if_pos rfl] at h2
        rw [hrj]
        exact h2
      · have h2 := (hrow r).mp (h r hr)
        rw [if_neg hri, if_neg hrj] at h2
        exact h2
  · intro h r hr
    rw [hrow]
    split
    · exact h j hj
    · split
      · exact h i hi
      · exact h r hr

/-- Scaling a row (whose entries left of `col` denote zero) by a non-zero pivot
does not change the solutions of the system. -/
theorem sat_scaleRowFrom (m : Mat) (rowCount varCount row col : Nat) (pv : Fraction)
    (hred : MatReduced m) (hpn : pv.num ≠ 0) (hpd : pv.den ≠ 0)
    (hleft : ∀ c < col, (m row c).toRat = 0) (x : Nat → ℚ) :
    Sat (scaleRowFrom m row col (varCount + 1) pv) rowCount varCount x ↔
      Sat m rowCount varCount x := by
  have hpvQ : pv.toRat ≠ 0 := by
    rw [Fraction.toRat]
    exact div_ne_zero (Int.cast_ne_zero.mpr hpn) (Int.cast_ne_zero.mpr hpd)
  have hother : ∀ r, r ≠ row → ∀ c, scaleRowFrom m row col (varCount + 1) pv r c = m r c := by
    intro r hr c
    unfold scaleRowFrom
    rw [if_neg (by tauto)]
  have hentry : ∀ c, c ≤ varCount →
      (scaleRowFrom m row col (varCount + 1) pv row c).toRat = (m row c).toRat / pv.toRat := by
    intro c hc
    unfold scaleRowFrom
    by_cases hcc : col ≤ c
    · rw [if_pos ⟨rfl, hcc, by omega⟩]
      exact Fraction.toRat_divNZ _ _ (hred row c).den_ne hpn hpd
    · rw [if_neg (by tauto)]
      rw [hleft c (by omega)]
      simp
  have hroweq : RowEq (scaleRowFrom m row col (varCount + 1) pv) varCount row x ↔
      RowEq m varCount row x := by
    unfold RowEq
    have hsum : ∑ c ∈ Finset.range varCount,
        (scaleRowFrom m row col (varCount + 1) pv row c).toRat * x c =
        (∑ c ∈ Finset.range varCount, (m row c).toRat * x c) / pv.toRat := by
      rw [Finset.sum_div]
      refine Finset.sum_congr rfl ?_
      intro c hc
      rw [hentry c (le_of_lt (Finset.mem_range.mp hc)), div_mul_eq_mul_div]
    rw [hsum, hentry varCount le_rfl]
    constructor
    · intro h
      have := congrArg (· * pv.toRat) h
      simpa [div_mul_cancel₀ _ hpvQ] using this
    · intro h
      rw [h]
  constructor
  · intro h r hr
    by_cases hrr : r = row
    · subst hrr
      exact hroweq.mp (h r hr)
    · have := h r hr
      unfold RowEq at this ⊢
      simpa [hother r hrr] using this
  · intro h r hr
    by_cases hrr : r = row
    · subst hrr
      exact hroweq.mpr (h r hr)
    · have := h r hr
      unfold RowEq at this ⊢
      simpa [hother r hrr] using this

/-- Eliminating the pivot column from the other rows (the pivot row's entries
left of `col` denoting zero) does not change the solutions of the system. -/
theorem sat_eliminateOthers (m : Mat) (rowCount varCount row col : Nat)
    (hred : MatReduced m) (hrowlt : row < rowCount)
    (hleft : ∀ c < col, (m row c).toRat = 0) (x : Nat → ℚ) :
    Sat (eliminateOthers m row col (varCount + 1) rowCount) rowCount varCount x ↔
      Sat m rowCount varCount x := by
  have hrow_same : ∀ c, eliminateOthers m row col (varCount + 1) rowCount row c = m row c := by
    intro c
    unfold eliminateOthers
    rw [if_neg (by tauto)]
  have hentry : ∀ r, r < rowCount → r ≠ row → ∀ c, c ≤ varCount →
      (eliminateOthers m row col (varCount + 1) rowCount r c).toRat =
        (m r c).toRat - (m r col).toRat * (m row c).toRat := by
    intro r hrlt hrne c hc
    unfold eliminateOthers
    by_cases hfz : (m r col).isZero
    · rw [if_neg (by tauto)]
      rw [(Fraction.isZero_iff _ (hred r col).den_ne).mp hfz]
      ring
    · by_cases hcc : col ≤ c
      · rw [if_pos ⟨hrlt, hrne, hfz, hcc, by omega⟩]
        rw [Fraction.toRat_sub _ _ (hred r c).den_ne
          (Fraction.mul_reduced _ _ (hred r col).den_ne (hred row c).den_ne).den_ne]
        rw [Fraction.toRat_mul _ _ (hred r col).den_ne (hred row c).den_ne]
      · rw [if_neg (by tauto)]
        rw [hleft c (by omega)]
        ring
  have hkey : ∀ r, r < rowCount → r ≠ row → RowEq m varCount row x →
      (RowEq (eliminateOthers m row col (varCount + 1) rowCount) varCount r x ↔
        RowEq m varCount r x) := by
    intro r hrlt hrne hrow
    unfold RowEq at hrow ⊢
    have hsum : ∑ c ∈ Finset.range varCount,
        (eliminateOthers m row col (varCount + 1) rowCount r c).toRat * x c =
        (∑ c ∈ Finset.range varCount, (m r c).toRat * x c) -
          (m r col).toRat * ∑ c ∈ Finset.range varCount, (m row c).toRat * x c := by
      rw [Finset.mul_sum, ← Finset.sum_sub_distrib]
      refine Finset.sum_congr rfl ?_
      intro c hc
      rw [hentry r hrlt hrne c (le_of_lt (Finset.mem_range.mp hc))]
      ring
    rw [hsum, hentry r hrlt hrne varCount le_rfl, hrow]
    exact sub_left_inj
  constructor
  · intro h r hr
    have hroweq_row : RowEq m varCount row x := by
      have hthis := h row hrowlt
      unfold RowEq at hthis ⊢
      simpa [hrow_same] using hthis
    by_cases hrr : r = row
    · subst hrr
      exact hroweq_row
    · exact (hkey r hr hrr hroweq_row).mp (h r hr)
  · intro h r hr
    by_cases hrr : r = row
    · subst hrr
      have hthis := h r hrowlt
      unfold RowEq at hthis ⊢
      simpa [hrow_same] using hthis
    · exact (hkey r hr hrr (h row hrowlt)).mpr (h r hr)

/-! ### Entry-level descriptions of the row operations -/

theorem scaleRowFrom_other (m : Mat) (row col width : Nat) (pv : Fraction) (r c : Nat)
    (hr : r ≠ row) : scaleRowFrom m row col width pv r c = m r c := by
  unfold scaleRowFrom
  rw [if_neg (by tauto)]

theorem scaleRowFrom_left (m : Mat) (row col width : Nat) (pv : Fraction) (c : Nat)
    (hc : c < col) : scaleRowFrom m row col width pv row c = m row c := by
  unfold scaleRowFrom
  rw [if_neg (by omega)]

theorem scaleRowFrom_at (m : Mat) (row col width : Nat) (pv : Fraction) (c : Nat)
    (hc1 : col ≤ c) (hc2 : c < width) :
    scaleRowFrom m row col width pv row c = (m row c).divNZ pv := by
  unfold scaleRowFrom
  rw [if_pos ⟨rfl, hc1, hc2⟩]

theorem eliminateOthers_row (m : Mat) (row col width rowCount : Nat) (c : Nat) :
    eliminateOthers m row col width rowCount row c = m row c := by
  unfold eliminateOthers
  rw [if_neg (by tauto)]

theorem eliminateOthers_left (m : Mat) (row col width rowCount : Nat) (r c : Nat)
    (hc : c < col) : eliminateOthers m row col width rowCount r c = m r c := by
  unfold eliminateOthers
  rw [if_neg (by omega)]

/-- The value of an eliminated entry, as a rational, given that the pivot row's
entries left of `col` denote zero. -/
theorem eliminateOthers_toRat (m : Mat) (row col varCount rowCount : Nat)
    (hred : MatReduced m) (hleft : ∀ c < col, (m row c).toRat = 0)
    (r : Nat) (hrlt : r < rowCount) (hrne : r ≠ row) (c : Nat) (hc : c ≤ varCount) :
    (eliminateOthers m row col (varCount + 1) rowCount r c).toRat =
      (m r c).toRat - (m r col).toRat * (m row c).toRat := by
  unfold eliminateOthers
  by_cases hfz : (m r col).isZero
  · rw [if_neg (by tauto)]
    rw [(Fraction.isZero_iff _ (hred r col).den_ne).mp hfz]
    ring
  · by_cases hcc : col ≤ c
    · rw [if_pos ⟨hrlt, hrne, hfz, hcc, by omega⟩]
      rw [Fraction.toRat_sub _ _ (hred r c).den_ne
        (Fraction.mul_reduced _ _ (hred r col).den_ne (hred row c).den_ne).den_ne]
      rw [Fraction.toRat_mul _ _ (hred r col).den_ne (hred row c).den_ne]
    · rw [if_neg (by tauto)]
      rw [hleft c (by omega)]
      ring

/-! ### The pivot scan: postconditions -/

theorem findPivotGo_none (m : Mat) (col : Nat) :
    ∀ (remaining startRow : Nat), findPivotGo m col remaining startRow = none →
      ∀ r, startRow ≤ r → r < startRow + remaining → (m r col).isZero = true := by
  intro remaining
  induction remaining with
  | zero => intro s _ r h1 h2; omega
  | succ k ih =>
    intro s h r h1 h2
    unfold findPivotGo at h
    by_cases hz : (m s col).isZero
    · rw [if_pos hz] at h
      by_cases hrs : r = s
      · rw [hrs]; exact hz
      · exact ih (s + 1) h r (by omega) (by omega)
    · rw [if_neg hz] at h
      cases h

theorem findPivotGo_range (m : Mat) (col : Nat) :
    ∀ (remaining startRow p : Nat), findPivotGo m col remaining startRow = some p →
      startRow ≤ p ∧ p < startRow + remaining := by
  intro remaining
  induction remaining with
  | zero => intro s p h; exact absurd h (by simp [findPivotGo])
  | succ k ih =>
    intro s p h
    unfold findPivotGo at h
    by_cases hz : (m s col).isZero
    · rw [if_pos hz] at h
      have := ih (s + 1) p h
      omega
    · rw [if_neg hz] at h
      cases h
      omega

theorem findPivotRow_none (m : Mat) (rowCount startRow col : Nat)
    (h : findPivotRow m rowCount startRow col = none) :
    ∀ r, startRow ≤ r → r < rowCount → (m r col).isZero = true := by
  intro r h1 h2
  exact findPivotGo_none m col (rowCount - startRow) startRow h r h1 (by omega)

theorem findPivotRow_range (m : Mat) (rowCount startRow col p : Nat)
    (h : findPivotRow m rowCount startRow col = some p) :
    startRow ≤ p ∧ p < rowCount := by
  have := findPivotGo_range m col (rowCount - startRow) startRow p h
  by_cases hs : startRow ≤ rowCount
  · omega
  · exfalso
    unfold findPivotRow at h
    rw [show rowCount - startRow = 0 by omega] at h
    exact absurd h (by simp [findPivotGo])

/-! ### The full reduction: structure and solution preservation -/

/-- The structural outcome of `rref`: `k` pivot rows (one per row `r < k`), each
with a pivot column holding a one and zeros elsewhere, pivot columns strictly
increasing with the row, and every later row denoting an all-zero coefficient
row. -/
structure RrefOutcome (mtx : Mat) (piv : Nat → Option Nat) (rowCount varCount k : Nat) :
    Prop where
  k_le : k ≤ rowCount
  piv_none : ∀ r, k ≤ r → piv r = none
  piv_some : ∀ r, r < k → ∃ c, c < varCount ∧ piv r = some c ∧ (mtx r c).toRat = 1 ∧
    ∀ r2, r2 < rowCount → r2 ≠ r → (mtx r2 c).toRat = 0
  piv_mono : ∀ r1 r2 c1 c2, r1 < r2 → r2 < k → piv r1 = some c1 → piv r2 = some c2 →
    c1 < c2
  tail_zero : ∀ r, k ≤ r → r < rowCount → ∀ c, c < varCount → (mtx r c).toRat = 0

/-- The main induction over the column loop of `rref`: given the loop invariants
(zeros left of the current column in the unprocessed rows, and the already
established pivots), the loop produces a matrix in reduced row-echelon form with
the same solutions. -/
theorem rrefGo_spec (rowCount varCount : Nat) :
    ∀ (remainingCols : Nat) (m : Mat) (pivots : Nat → Option Nat) (col currentRow : Nat)
      (mtx : Mat) (piv : Nat → Option Nat),
      col + remainingCols = varCount →
      currentRow ≤ rowCount →
      MatReduced m →
      (∀ r, currentRow ≤ r → r < rowCount → ∀ c, c < col → (m r c).toRat = 0) →
      (∀ r, currentRow ≤ r → pivots r = none) →
      (∀ r, r < currentRow → ∃ c, c < col ∧ pivots r = some c ∧ (m r c).toRat = 1 ∧
        ∀ r2, r2 < rowCount → r2 ≠ r → (m r2 c).toRat = 0) →
      (∀ r1 r2 c1 c2, r1 < r2 → r2 < currentRow → pivots r1 = some c1 →
        pivots r2 = some c2 → c1 < c2) →
      rrefGo rowCount (varCount + 1) remainingCols m pivots col currentRow = some (mtx, piv) →
      (∃ k, currentRow ≤ k ∧ RrefOutcome mtx piv rowCount varCount k) ∧
      MatReduced mtx ∧ (∀ x, Sat mtx rowCount varCount x ↔ Sat m rowCount varCount x) := by
  intro remainingCols
  induction remainingCols with
  | zero =>
    intro m pivots col currentRow mtx piv hcols hcur hred hleft hpnone hpsome hpmono hrun
    unfold rrefGo at hrun
    rw [Option.some_inj, Prod.mk.injEq] at hrun
    obtain ⟨h1, h2⟩ := hrun
    subst h1 h2
    refine ⟨⟨currentRow, le_rfl, ?_⟩, hred, fun x => Iff.rfl⟩
    exact {
      k_le := hcur
      piv_none := hpnone
      piv_some := by
        intro r hr
        obtain ⟨c, hc, rest⟩ := hpsome r hr
        exact ⟨c, by omega, rest⟩
      piv_mono := hpmono
      tail_zero := by
        intro r h1 h2 c hc
        exact hleft r h1 h2 c (by omega) }
  | succ rc ih =>
    intro m pivots col currentRow mtx piv hcols hcur hred hleft hpnone hpsome hpmono hrun
    unfold rrefGo at hrun
    by_cases hcr : currentRow < rowCount
    · rw [if_pos hcr] at hrun
      cases hf : findPivotRow m rowCount currentRow col with
      | none =>
        rw [hf] at hrun
        dsimp only at hrun
        have hzero_col : ∀ r, currentRow ≤ r → r < rowCount → (m r col).toRat = 0 := by
          intro r h1 h2
          exact (Fraction.isZero_iff _ (hred r col).den_ne).mp
            (findPivotRow_none m rowCount currentRow col hf r h1 h2)
        exact ih m pivots (col + 1) currentRow mtx piv (by omega) hcur hred
          (by
            intro r h1 h2 c hc
            by_cases hcc : c = col
            · rw [hcc]; exact hzero_col r h1 h2
            · exact hleft r h1 h2 c (by omega))
          hpnone
          (by
            intro r hr
            obtain ⟨c, hc, rest⟩ := hpsome r hr
            exact ⟨c, by omega, rest⟩)
          hpmono hrun
      | some p =>
        rw [hf] at hrun
        dsimp only at hrun
        obtain ⟨hple, hplt⟩ := findPivotRow_range m rowCount currentRow col p hf
        have hpz : (m p col).isZero = false := findPivotRow_nonzero m rowCount currentRow col p hf
        have hpv_eq : swapRows m currentRow p currentRow col = m p col := by
          unfold swapRows
          rw [if_pos rfl]
        rw [hpv_eq, hpz] at hrun
        simp only [Bool.false_eq_true, if_false] at hrun
        have hcollt : col < varCount := by omega
        have hpn : (m p col).num ≠ 0 := by
          simpa [Fraction.isZero] using hpz
        have hpden : (m p col).den ≠ 0 := (hred p col).den_ne
        have hpvQ : (m p col).toRat ≠ 0 :=
          (Fraction.isZero_eq_false_iff _ hpden).mp hpz
        -- facts about m1 = swapRows m currentRow p
        have hred1 : MatReduced (swapRows m currentRow p) := swapRows_matReduced m currentRow p hred
        have hleft1 : ∀ r, currentRow ≤ r → r < rowCount → ∀ c, c < col →
            ((swapRows m currentRow p) r c).toRat = 0 := by
          intro r h1 h2 c hc
          unfold swapRows
          split
          · exact hleft p hple hplt c hc
          · split
            · exact hleft currentRow le_rfl hcr c hc
            · exact hleft r h1 h2 c hc
        have hrow1_same : ∀ r, r < currentRow → ∀ c, (swapRows m currentRow p) r c = m r c := by
          intro r hr c
          unfold swapRows
          rw [if_neg (by omega), if_neg (by omega)]
        -- pivot columns of old pivots stay zero after the swap
        have hswap_zero : ∀ rr cc, rr < currentRow →
            (∀ r2, r2 < rowCount → r2 ≠ rr → (m r2 cc).toRat = 0) →
            (∀ r2, r2 < rowCount → r2 ≠ rr → ((swapRows m currentRow p) r2 cc).toRat = 0) := by
          intro rr cc hrr hall r2 h2 hne
          unfold swapRows
          split
          · exact hall p hplt (by omega)
          · split
            · exact hall currentRow hcr (by omega)
            · exact hall r2 h2 hne
        -- facts about m2 = scaleRowFrom m1 currentRow col (varCount+1) (m p col)
        have hred2 : MatReduced (scaleRowFrom (swapRows m currentRow p) currentRow col
            (varCount + 1) (m p col)) :=
          scaleRowFrom_matReduced _ _ _ _ _ hred1 hpn
        have h2_other : ∀ r, r ≠ currentRow → ∀ c,
            scaleRowFrom (swapRows m currentRow p) currentRow col (varCount + 1) (m p col) r c =
              (swapRows m currentRow p) r c := by
          intro r hr c
          exact scaleRowFrom_other _ _ _ _ _ _ _ hr
        have h2_rowleft : ∀ c, c < col →
            scaleRowFrom (swapRows m currentRow p) currentRow col (varCount + 1) (m p col)
              currentRow c = (swapRows m currentRow p) currentRow c := by
          intro c hc
          exact scaleRowFrom_left _ _ _ _ _ _ hc
        have h2_pivot : (scaleRowFrom (swapRows m currentRow p) currentRow col (varCount + 1)
            (m p col) currentRow col).toRat = 1 := by
          rw [scaleRowFrom_at _ _ _ _ _ _ le_rfl (by omega)]
          rw [hpv_eq]
          rw [Fraction.toRat_divNZ _ _ hpden hpn hpden]
          exact div_self hpvQ
        have hleft2row : ∀ c, c < col →
            ((scaleRowFrom (swapRows m currentRow p) currentRow col (varCount + 1) (m p col))
              currentRow c).toRat = 0 := by
          intro c hc
          rw [h2_rowleft c hc]
          exact hleft1 currentRow le_rfl hcr c hc
        -- facts about m3 = eliminateOthers m2 currentRow col (varCount+1) rowCount
        have hred3 : MatReduced (eliminateOthers (scaleRowFrom (swapRows m currentRow p)
            currentRow col (varCount + 1) (m p col)) currentRow col (varCount + 1) rowCount) :=
          eliminateOthers_matReduced _ _ _ _ _ hred2
        have h3_toRat := eliminateOthers_toRat (scaleRowFrom (swapRows m currentRow p)
          currentRow col (varCount + 1) (m p col)) currentRow col varCount rowCount
          hred2 hleft2row
        -- the new left-zero invariant
        have hleft3 : ∀ r, currentRow + 1 ≤ r → r < rowCount → ∀ c, c < col + 1 →
            ((eliminateOthers (scaleRowFrom (swapRows m currentRow p) currentRow col
              (varCount + 1) (m p col)) currentRow col (varCount + 1) rowCount) r c).toRat = 0 := by
          intro r h1 h2 c hc
          by_cases hcc : c = col
          · subst hcc
            rw [h3_toRat r h2 (by omega) c (by omega)]
            rw [h2_pivot]
            ring
          · rw [eliminateOthers_left _ _ _ _ _ _ _ (by omega)]
            rw [h2_other r (by omega) c]
            exact hleft1 r (by omega) h2 c (by omega)
        -- the new pivots function invariants
        have hpnone3 : ∀ r, currentRow + 1 ≤ r →
            (fun r2 => if r2 = currentRow then some col else pivots r2) r = none := by
          intro r hr
          dsimp only
          rw [if_neg (by omega)]
          exact hpnone r (by omega)
        have hpsome3 : ∀ r, r < currentRow + 1 →
            ∃ c, c < col + 1 ∧
              (fun r2 => if r2 = currentRow then some col else pivots r2) r = some c ∧
              ((eliminateOthers (scaleRowFrom (swapRows m currentRow p) currentRow col
                (varCount + 1) (m p col)) currentRow col (varCount + 1) rowCount) r c).toRat = 1 ∧
              ∀ r2, r2 < rowCount → r2 ≠ r →
                ((eliminateOthers (scaleRowFrom (swapRows m currentRow p) currentRow col
                  (varCount + 1) (m p col)) currentRow col (varCount + 1) rowCount) r2 c).toRat = 0 := by
          intro r hr
          by_cases hreq : r = currentRow
          · subst hreq
            refine ⟨col, by omega, by simp, ?_, ?_⟩
            · rw [eliminateOthers_row]
              exact h2_pivot
            · intro r2 h2 hne
              rw [h3_toRat r2 h2 hne col (by omega)]
              rw [h2_pivot]
              ring
          · obtain ⟨c, hclt, hpeq, hone, hzeros⟩ := hpsome r (by omega)
            refine ⟨c, by omega, by simp [hreq, hpeq], ?_, ?_⟩
            · rw [eliminateOthers_left _ _ _ _ _ _ _ hclt]
              rw [h2_other r hreq c]
              rw [hrow1_same r (by omega) c]
              exact hone
            · intro r2 h2 hne
              rw [eliminateOthers_left _ _ _ _ _ _ _ hclt]
              have hz1 := hswap_zero r c (by omega) hzeros r2 h2 hne
              by_cases hr2c : r2 = currentRow
              · rw [hr2c, h2_rowleft c hclt]
                rw [hr2c] at hz1
                exact hz1
              · rw [h2_other r2 hr2c c]
                exact hz1
        have hpmono3 : ∀ r1 r2 c1 c2, r1 < r2 → r2 < currentRow + 1 →
            (fun r3 => if r3 = currentRow then some col else pivots r3) r1 = some c1 →
            (fun r3 => if r3 = currentRow then some col else pivots r3) r2 = some c2 →
            c1 < c2 := by
          intro r1 r2 c1 c2 h12 h2c hq1 hq2
          dsimp only at hq1 hq2
          by_cases hr2 : r2 = currentRow
          · rw [if_pos hr2] at hq2
            rw [if_neg (by omega)] at hq1
            obtain ⟨c, hclt, hpeq, -, -⟩ := hpsome r1 (by omega)
            rw [hpeq] at hq1
            cases hq1
            cases hq2
            omega
          · rw [if_neg hr2] at hq2
            rw [if_neg (by omega)] at hq1
            exact hpmono r1 r2 c1 c2 h12 (by omega) hq1 hq2
        obtain ⟨⟨kk, hkk, houtcome⟩, hredm, hsat⟩ :=
          ih _ _ (col + 1) (currentRow + 1) mtx piv (by omega) (by omega)
            hred3 hleft3 hpnone3 hpsome3 hpmono3 hrun
        refine ⟨⟨kk, by omega, houtcome⟩, hredm, fun x => ?_⟩
        have hs3 := sat_eliminateOthers (scaleRowFrom (swapRows m currentRow p) currentRow col
          (varCount + 1) (m p col)) rowCount varCount currentRow col hred2 hcr hleft2row x
        have hs2 := sat_scaleRowFrom (swapRows m currentRow p) rowCount varCount currentRow col
          (m p col) hred1 hpn hpden (hleft1 currentRow le_rfl hcr) x
        have hs1 := sat_swapRows m rowCount varCount currentRow p hcr hplt x
        exact (hsat x).trans (hs3.trans (hs2.trans hs1))
    · rw [if_neg hcr] at hrun
      rw [Option.some_inj, Prod.mk.injEq] at hrun
      obtain ⟨h1, h2⟩ := hrun
      subst h1 h2
      refine ⟨⟨currentRow, le_rfl, ?_⟩, hred, fun x => Iff.rfl⟩
      exact {
        k_le := hcur
        piv_none := hpnone
        piv_some := by
          intro r hr
          obtain ⟨c, hc, rest⟩ := hpsome r hr
          exact ⟨c, by omega, rest⟩
        piv_mono := hpmono
        tail_zero := by
          intro r h1 h2 c hc
          omega }

/-- `rref` of a reduced matrix succeeds with a row-echelon structure and the
same solutions. -/
theorem rref_spec (m : Mat) (rowCount varCount : Nat) (mtx : Mat) (piv : Nat → Option Nat)
    (hred : MatReduced m)
    (hrun : rref m rowCount varCount = some (mtx, piv)) :
    (∃ k, RrefOutcome mtx piv rowCount varCount k) ∧
    MatReduced mtx ∧ (∀ x, Sat mtx rowCount varCount x ↔ Sat m rowCount varCount x) := by
  have := rrefGo_spec rowCount varCount varCount m (fun _ => none) 0 0 mtx piv
    (by omega) (by omega) hred
    (by intro r h1 h2 c hc; omega)
    (by intro r hr; rfl)
    (by intro r hr; omega)
    (by intro r1 r2 c1 c2 h12 h2c hq1 hq2; omega)
    hrun
  exact ⟨⟨this.1.choose, this.1.choose_spec.2⟩, this.2.1, this.2.2⟩

/-! ### Semantics of the augmented matrix -/

theorem buildAugmentedMatrix_matReduced (sets : List (List Nat)) (counterCount : Nat)
    (targets : List Nat) : MatReduced (buildAugmentedMatrix sets counterCount targets) := by
  intro r c
  unfold buildAugmentedMatrix
  split
  · split
    · split
      · exact Fraction.ONE_reduced
      · exact Fraction.ZERO_reduced
    · split
      · exact Fraction.fromInt_reduced _
      · exact Fraction.ZERO_reduced
  · exact Fraction.ZERO_reduced

/-- A `Finset.range` sum is the sum of the mapped `List.range`. -/
theorem finset_sum_eq_list_sum {M : Type} [AddCommMonoid M] (n : Nat) (f : Nat → M) :
    ∑ b ∈ Finset.range n, f b = ((List.range n).map f).sum := by
  induction n with
  | zero => simp
  | succ k ih => rw [Finset.sum_range_succ, List.range_succ]; simp [ih]

/-- Satisfaction of the built system is exactly the simulation equation of each
counter, over the rationals. -/
theorem sat_buildAugmentedMatrix_iff (sets : List (List Nat)) (targets : List Nat)
    (x : Nat → ℚ) :
    Sat (buildAugmentedMatrix sets targets.length targets) targets.length sets.length x ↔
      ∀ c, c < targets.length →
        (∑ b ∈ Finset.range sets.length,
          if (sets.getD b []).contains c then x b else 0) = (targets.getD c 0 : ℚ) := by
  unfold Sat RowEq
  constructor
  · intro h c hc
    have hrow := h c hc
    rw [show (buildAugmentedMatrix sets targets.length targets c sets.length) =
        Fraction.fromInt (targets.getD c 0 : Int) by
      unfold buildAugmentedMatrix
      rw [if_pos hc, if_neg (by omega), if_pos rfl]] at hrow
    rw [Fraction.toRat_fromInt] at hrow
    push_cast at hrow
    rw [← hrow]
    refine Finset.sum_congr rfl ?_
    intro b hb
    have hblt := Finset.mem_range.mp hb
    rw [show (buildAugmentedMatrix sets targets.length targets c b) =
        (if (sets.getD b []).contains c then Fraction.ONE else Fraction.ZERO) by
      unfold buildAugmentedMatrix
      rw [if_pos hc, if_pos hblt]]
    split
    · rw [Fraction.toRat_ONE]; ring
    · rw [Fraction.toRat_ZERO]; ring
  · intro h r hr
    rw [show (buildAugmentedMatrix sets targets.length targets r sets.length) =
        Fraction.fromInt (targets.getD r 0 : Int) by
      unfold buildAugmentedMatrix
      rw [if_pos hr, if_neg (by omega), if_pos rfl]]
    rw [Fraction.toRat_fromInt]
    push_cast
    rw [← h r hr]
    refine Finset.sum_congr rfl ?_
    intro b hb
    have hblt := Finset.mem_range.mp hb
    rw [show (buildAugmentedMatrix sets targets.length targets r b) =
        (if (sets.getD b []).contains r then Fraction.ONE else Fraction.ZERO) by
      unfold buildAugmentedMatrix
      rw [if_pos hr, if_pos hblt]]
    split
    · rw [Fraction.toRat_ONE]; ring
    · rw [Fraction.toRat_ZERO]; ring

/-- The rational assignment read off a press-count list. -/
def cfgQ (cfg : List Nat) : Nat → ℚ := fun b => (cfg.getD b 0 : ℚ)

/-- The simulated value of a counter, cast to the rationals. -/
theorem pressSum_cast (sets : List (List Nat)) (cfg : List Nat) (c : Nat) :
    ((pressSum sets cfg c : Nat) : ℚ) =
      ∑ b ∈ Finset.range sets.length, (if (sets.getD b []).contains c then cfgQ cfg b else 0) := by
  rw [pressSum_eq_sum, finset_sum_eq_list_sum, Nat.cast_list_sum, List.map_map]
  congr 1
  apply List.map_congr_left
  intro b hb
  simp only [Function.comp, cfgQ]
  split <;> simp

/-- A configuration is valid exactly when it has one entry per button and its
rational reading satisfies the built system. -/
theorem isValidConfig_iff_sat (m : Machine) (cfg : List Nat) :
    IsValidConfig m cfg ↔ cfg.length = m.buttonCounterSets.length ∧
      Sat (buildAugmentedMatrix m.buttonCounterSets m.joltageTargets.length m.joltageTargets)
        m.joltageTargets.length m.buttonCounterSets.length (cfgQ cfg) := by
  unfold IsValidConfig
  rw [sat_buildAugmentedMatrix_iff]
  constructor
  · rintro ⟨hlen, h⟩
    refine ⟨hlen, fun c hc => ?_⟩
    rw [← pressSum_cast]
    exact_mod_cast congrArg (Nat.cast : Nat → ℚ) (h c hc)
  · rintro ⟨hlen, h⟩
    refine ⟨hlen, fun c hc => ?_⟩
    have hq := h c hc
    rw [← pressSum_cast] at hq
    exact_mod_cast hq

/-! ### Structure of the pivot-row list -/

/-- The record pushed by the pivot-row construction for a row with a pivot. -/
def mkPivotRow (m : Mat) (varCount : Nat) (ub : List Nat) (row col : Nat) : PivotRow :=
  { pivotCol := col, rhs := m row varCount,
    minAllowed := (m row varCount).sub (Fraction.fromInt (ub.getD col 0 : Int)),
    maxAllowed := m row varCount, coeffs := [], minSuffix := [], maxSuffix := [],
    sourceRow := row }

/-- A `filterMap` where every element maps to `some` is a `map`. -/
theorem filterMap_eq_map_of {α β : Type} (f : α → Option β) (g : α → β) :
    ∀ l : List α, (∀ a ∈ l, f a = some (g a)) → l.filterMap f = l.map g := by
  intro l
  induction l with
  | nil => intro h; rfl
  | cons a as ih =>
    intro h
    rw [List.filterMap_cons, h a (by simp), List.map_cons,
      ih fun b hb => h b (by simp [hb])]

/-- A successful pivot-row construction returns exactly the records of the rows
with pivots, and certifies that every coefficient-free row has a zero right-hand
side. -/
theorem buildPivotRows_ok (m : Mat) (piv : Nat → Option Nat) (varCount : Nat)
    (ub : List Nat) :
    ∀ (rows : List Nat) (prs : List PivotRow),
      buildPivotRows m piv varCount ub rows = .ok prs →
      prs = rows.filterMap (fun r => (piv r).map (mkPivotRow m varCount ub r)) ∧
      ∀ r ∈ rows, ((List.range varCount).any fun c => !(m r c).isZero) = false →
        (m r varCount).isZero = true := by
  intro rows
  induction rows with
  | nil =>
    intro prs h
    unfold buildPivotRows at h
    rw [Except.ok.injEq] at h
    subst h
    exact ⟨rfl, by intro r hr; exact absurd hr (List.not_mem_nil r)⟩
  | cons row rest ih =>
    intro prs h
    unfold buildPivotRows at h
    dsimp only at h
    by_cases hbad : (!(List.range varCount).any fun c => !(m row c).isZero) &&
        !(m row varCount).isZero
    · rw [hbad] at h
      simp only [if_true] at h
      cases h
    · rw [Bool.not_eq_true] at hbad
      rw [hbad] at h
      simp only [Bool.false_eq_true, if_false] at h
      have hcheck : ((List.range varCount).any fun c => !(m row c).isZero) = false →
          (m row varCount).isZero = true := by
        intro hco
        by_contra hrhs
        rw [Bool.not_eq_true] at hrhs
        rw [hco, hrhs] at hbad
        exact absurd hbad (by decide)
      cases hp : piv row with
      | none =>
        rw [hp] at h
        obtain ⟨hfm, hrest⟩ := ih prs h
        refine ⟨?_, ?_⟩
        · rw [List.filterMap_cons, hp]
          exact hfm
        · intro r hr
          rcases List.mem_cons.mp hr with hr1 | hr2
          · rw [hr1]; exact hcheck
          · exact hrest r hr2
      | some pivotCol =>
        rw [hp] at h
        dsimp only at h
        cases hrec : buildPivotRows m piv varCount ub rest with
        | error e => rw [hrec] at h; exact absurd h (by simp [Except.map])
        | ok prs2 =>
          rw [hrec] at h
          simp only [Except.map, Except.ok.injEq] at h
          obtain ⟨hfm, hrest⟩ := ih prs2 hrec
          refine ⟨?_, ?_⟩
          · rw [List.filterMap_cons, hp]
            rw [← h, hfm]
            rfl
          · intro r hr
            rcases List.mem_cons.mp hr with hr1 | hr2
            · rw [hr1]; exact hcheck
            · exact hrest r hr2

/-- Under the reduction outcome, the pivot-row list is the per-row record list of
the first `k` rows. -/
theorem pivotRows_structure (m : Mat) (piv : Nat → Option Nat) (rowCount varCount k : Nat)
    (ub : List Nat) (ho : RrefOutcome m piv rowCount varCount k) (prs : List PivotRow)
    (h : buildPivotRows m piv varCount ub (List.range rowCount) = .ok prs) :
    prs = (List.range k).map (fun r => mkPivotRow m varCount ub r ((piv r).getD 0)) := by
  obtain ⟨hfm, -⟩ := buildPivotRows_ok m piv varCount ub (List.range rowCount) prs h
  rw [hfm]
  have hk := ho.k_le
  have hsplit : List.range rowCount = List.range k ++ (List.range (rowCount - k)).map (k + ·) := by
    rw [← List.range_add]
    congr 1
    omega
  rw [hsplit, List.filterMap_append]
  have h2 : ((List.range (rowCount - k)).map (k + ·)).filterMap
      (fun r => (piv r).map (mkPivotRow m varCount ub r)) = [] := by
    rw [List.filterMap_eq_nil_iff]
    intro a ha
    obtain ⟨j, hj, rfl⟩ := List.mem_map.mp ha
    rw [ho.piv_none (k + j) (by omega)]
    rfl
  rw [h2, List.append_nil]
  apply filterMap_eq_map_of
  intro r hr
  obtain ⟨c, hclt, hpc, -, -⟩ := ho.piv_some r (List.mem_range.mp hr)
  rw [hpc]
  rfl

/-! ### Small list utilities -/

theorem getD_map_lt {α β : Type} (f : α → β) (l : List α) (i : Nat) (hi : i < l.length)
    (d0 : β) (d1 : α) : (l.map f).getD i d0 = f (l.getD i d1) := by
  rw [List.getD_eq_getElem?_getD, List.getD_eq_getElem?_getD, List.getElem?_map,
    List.getElem?_eq_getElem hi]
  rfl

theorem getD_range_lt (n i : Nat) (hi : i < n) (d : Nat) : (List.range n).getD i d = i := by
  rw [List.getD_eq_getElem?_getD, List.getElem?_eq_getElem (by simpa using hi)]
  simp

theorem map_getD_range_self {α : Type} (l : List α) (d : α) :
    (List.range l.length).map (fun i => l.getD i d) = l := by
  refine List.ext_getElem (by simp) ?_
  intro n h1 h2
  rw [List.getElem_map]
  rw [List.getD_eq_getElem?_getD, List.getElem?_eq_getElem (by simpa using h2)]
  simp

theorem sum_map_zero {α : Type} (l : List α) (f : α → ℚ) (h : ∀ b ∈ l, f b = 0) :
    (l.map f).sum = 0 := by
  induction l with
  | nil => rfl
  | cons a as ih =>
    rw [List.map_cons, List.sum_cons, h a (by simp), ih fun b hb => h b (by simp [hb])]
    ring

theorem sum_map_eq_single {α : Type} [DecidableEq α] (l : List α) (f : α → ℚ) (a : α)
    (hnd : l.Nodup) (hmem : a ∈ l) (hz : ∀ b ∈ l, b ≠ a → f b = 0) :
    (l.map f).sum = f a := by
  induction l with
  | nil => exact absurd hmem (List.not_mem_nil a)
  | cons x xs ih =>
    rw [List.map_cons, List.sum_cons]
    rcases List.mem_cons.mp hmem with hax | hax
    · subst hax
      rw [sum_map_zero xs f fun b hb => hz b (by simp [hb])
        (fun hba => (List.nodup_cons.mp hnd).1 (hba ▸ hb))]
      · ring
    · rw [hz x (by simp) (fun hxa => (List.nodup_cons.mp hnd).1 (hxa ▸ hax)),
        ih (List.nodup_cons.mp hnd).2 hax fun b hb hba => hz b (by simp [hb]) hba]
      ring

theorem le_foldl_min (x : Nat) : ∀ (ts : List Nat) (t : Nat), x ≤ t → (∀ y ∈ ts, x ≤ y) →
    x ≤ ts.foldl min t := by
  intro ts
  induction ts with
  | nil => intro t ht _; exact ht
  | cons y ys ih =>
    intro t ht hall
    rw [List.foldl_cons]
    exact ih (min t y) (le_min ht (hall y (by simp))) fun z hz => hall z (by simp [hz])

/-! ### Upper bounds and valid configurations -/

theorem computeVariableUpperBounds_getD (sets : List (List Nat)) (targets : List Nat)
    (b : Nat) (hb : b < sets.length) :
    (computeVariableUpperBounds sets targets).getD b 0 =
      match (sets.getD b []).map (fun index => targets.getD index 0) with
      | [] => 0
      | t :: ts => ts.foldl min t := by
  unfold computeVariableUpperBounds
  rw [getD_map_lt _ sets b hb 0 []]

/-- In a valid configuration of a machine with in-range counter indices, a button
affecting at least one counter is pressed at most its computed upper bound. -/
theorem validConfig_le_ub (m : Machine) (cfg : List Nat)
    (hwf : ∀ s ∈ m.buttonCounterSets, ∀ c ∈ s, c < m.joltageTargets.length)
    (hv : IsValidConfig m cfg) (b : Nat) (hb : m.buttonCounterSets.getD b [] ≠ []) :
    cfg.getD b 0 ≤ (computeVariableUpperBounds m.buttonCounterSets m.joltageTargets).getD b 0 := by
  have hblt : b < m.buttonCounterSets.length := by
    by_contra hge
    rw [List.getD_eq_default _ _ (by omega)] at hb
    exact hb rfl
  have hsmem : m.buttonCounterSets.getD b [] ∈ m.buttonCounterSets := by
    rw [List.getD_eq_getElem?_getD, List.getElem?_eq_getElem hblt]
    exact List.getElem_mem hblt
  have hle : ∀ c ∈ m.buttonCounterSets.getD b [], cfg.getD b 0 ≤ m.joltageTargets.getD c 0 :=
    fun c hc => pressCount_le_target m cfg b c hv hc (hwf _ hsmem c hc)
  rw [computeVariableUpperBounds_getD m.buttonCounterSets m.joltageTargets b hblt]
  cases hs : m.buttonCounterSets.getD b [] with
  | nil => exact absurd hs hb
  | cons t ts =>
    rw [List.map_cons]
    exact le_foldl_min _ _ _ (hle t (by rw [hs]; simp))
      (by
        intro y hy
        obtain ⟨c, hc, rfl⟩ := List.mem_map.mp hy
        exact hle c (by rw [hs]; simp [hc]))

/-! ### The suffix tables -/

/-- The numeric value of one step's contribution pair. -/
theorem suffix_contrib (coeff : Fraction) (bound : Nat) (hred : coeff.Reduced) :
    (if (!coeff.isZero && decide (bound > 0)) = true then
        if coeff.compare Fraction.ZERO > 0 then (Fraction.ZERO, coeff.mulInt (bound : Int))
        else if coeff.compare Fraction.ZERO < 0 then (coeff.mulInt (bound : Int), Fraction.ZERO)
        else (Fraction.ZERO, Fraction.ZERO)
      else (Fraction.ZERO, Fraction.ZERO)).1.toRat =
        min 0 (coeff.toRat * (bound : ℚ)) ∧
    (if (!coeff.isZero && decide (bound > 0)) = true then
        if coeff.compare Fraction.ZERO > 0 then (Fraction.ZERO, coeff.mulInt (bound : Int))
        else if coeff.compare Fraction.ZERO < 0 then (coeff.mulInt (bound : Int), Fraction.ZERO)
        else (Fraction.ZERO, Fraction.ZERO)
      else (Fraction.ZERO, Fraction.ZERO)).2.toRat =
        max 0 (coeff.toRat * (bound : ℚ)) := by
  have hZden : (0 : Int) < Fraction.ZERO.den := by decide
  by_cases hz : coeff.isZero
  · have hc0 : coeff.toRat = 0 := (Fraction.isZero_iff _ hred.den_ne).mp hz
    rw [hz]
    simp [Fraction.toRat_ZERO, hc0]
  · by_cases hb : bound > 0
    · rw [Bool.not_eq_true] at hz
      rw [if_pos (show (!coeff.isZero && decide (bound > 0)) = true by rw [hz]; simp [hb])]
      rcases lt_trichotomy (coeff.compare Fraction.ZERO) 0 with hcmp | hcmp | hcmp
      · have hneg : coeff.toRat < 0 := by
          have := (Fraction.compare_neg_iff coeff Fraction.ZERO hred.1 hZden).mp hcmp
          rwa [Fraction.toRat_ZERO] at this
        rw [if_neg (by omega), if_pos hcmp]
        constructor
        · rw [Fraction.toRat_mulInt _ _ hred.den_ne]
          rw [min_eq_right]
          · push_cast; ring
          · apply mul_nonpos_of_nonpos_of_nonneg (le_of_lt hneg)
            positivity
        · rw [Fraction.toRat_ZERO]
          rw [max_eq_left]
          apply mul_nonpos_of_nonpos_of_nonneg (le_of_lt hneg)
          positivity
      · have hzero : coeff.toRat = 0 := by
          have h1 := (Fraction.compare_nonneg_iff coeff Fraction.ZERO hred.1 hZden).mp (by omega)
          have h2 := (Fraction.compare_nonpos_iff coeff Fraction.ZERO hred.1 hZden).mp (by omega)
          rw [Fraction.toRat_ZERO] at h1 h2
          linarith
        rw [if_neg (by omega), if_neg (by omega)]
        simp [Fraction.toRat_ZERO, hzero]
      · have hpos : 0 < coeff.toRat := by
          have := (Fraction.compare_pos_iff coeff Fraction.ZERO hred.1 hZden).mp hcmp
          rwa [Fraction.toRat_ZERO] at this
        rw [if_pos hcmp]
        constructor
        · rw [Fraction.toRat_ZERO]
          rw [min_eq_left]
          positivity
        · rw [Fraction.toRat_mulInt _ _ hred.den_ne]
          rw [max_eq_right]
          · push_cast; ring
          · positivity
    · have hb0 : bound = 0 := by omega
      subst hb0
      simp [Fraction.toRat_ZERO]

/-- The contribution pair consists of reduced fractions. -/
theorem suffix_contrib_reduced (coeff : Fraction) (bound : Nat) (hred : coeff.Reduced) :
    (if (!coeff.isZero && decide (bound > 0)) = true then
        if coeff.compare Fraction.ZERO > 0 then (Fraction.ZERO, coeff.mulInt (bound : Int))
        else if coeff.compare Fraction.ZERO < 0 then (coeff.mulInt (bound : Int), Fraction.ZERO)
        else (Fraction.ZERO, Fraction.ZERO)
      else (Fraction.ZERO, Fraction.ZERO)).1.Reduced ∧
    (if (!coeff.isZero && decide (bound > 0)) = true then
        if coeff.compare Fraction.ZERO > 0 then (Fraction.ZERO, coeff.mulInt (bound : Int))
        else if coeff.compare Fraction.ZERO < 0 then (coeff.mulInt (bound : Int), Fraction.ZERO)
        else (Fraction.ZERO, Fraction.ZERO)
      else (Fraction.ZERO, Fraction.ZERO)).2.Reduced := by
  constructor <;>
  · split
    · split
      · first
          | exact Fraction.ZERO_reduced
          | exact Fraction.mulInt_reduced _ _ hred.den_ne
      · split
        · first
            | exact Fraction.ZERO_reduced
            | exact Fraction.mulInt_reduced _ _ hred.den_ne
        · exact Fraction.ZERO_reduced
    · exact Fraction.ZERO_reduced

/-- Full description of the suffix tables: each entry is a reduced fraction
denoting the sum, over the remaining positions, of the least (respectively
greatest) possible contribution of that free variable. -/
theorem suffixTables_spec :
    ∀ (coeffs : List Fraction) (bounds : List Nat),
      (∀ f ∈ coeffs, f.Reduced) →
      ∀ idx : Nat,
        ((suffixTables coeffs bounds).1.getD idx Fraction.ZERO).Reduced ∧
        ((suffixTables coeffs bounds).2.getD idx Fraction.ZERO).Reduced ∧
        ((suffixTables coeffs bounds).1.getD idx Fraction.ZERO).toRat =
          ((List.range (min coeffs.length bounds.length - idx)).map fun j =>
            min 0 ((coeffs.getD (idx + j) Fraction.ZERO).toRat *
              (bounds.getD (idx + j) 0 : ℚ))).sum ∧
        ((suffixTables coeffs bounds).2.getD idx Fraction.ZERO).toRat =
          ((List.range (min coeffs.length bounds.length - idx)).map fun j =>
            max 0 ((coeffs.getD (idx + j) Fraction.ZERO).toRat *
              (bounds.getD (idx + j) 0 : ℚ))).sum := by
  intro coeffs
  induction coeffs with
  | nil =>
    intro bounds _ idx
    unfold suffixTables
    refine ⟨?_, ?_, ?_, ?_⟩ <;>
      cases idx <;>
      simp [Fraction.ZERO_reduced, Fraction.toRat_ZERO]
  | cons coeff cs ih =>
    intro bounds hred idx
    cases bounds with
    | nil =>
      unfold suffixTables
      refine ⟨?_, ?_, ?_, ?_⟩ <;>
        cases idx <;>
        simp [Fraction.ZERO_reduced, Fraction.toRat_ZERO]
    | cons bound bs =>
      have hredc : coeff.Reduced := hred coeff (by simp)
      have hredcs : ∀ f ∈ cs, f.Reduced := fun f hf => hred f (by simp [hf])
      obtain ⟨hcred1, hcred2⟩ := suffix_contrib_reduced coeff bound hredc
      obtain ⟨hcval1, hcval2⟩ := suffix_contrib coeff bound hredc
      have ih0 := ih bs hredcs 0
      unfold suffixTables
      rcases hST : suffixTables cs bs with ⟨mins, maxs⟩
      rw [hST] at ih0
      dsimp only at ih0 ⊢
      cases idx with
      | zero =>
        rw [List.getD_cons_zero, List.getD_cons_zero]
        have hr1 : (Fraction.add _ (mins.getD 0 Fraction.ZERO)).Reduced :=
          Fraction.add_reduced _ _ hcred1.den_ne ih0.1.den_ne
        have hr2 : (Fraction.add _ (maxs.getD 0 Fraction.ZERO)).Reduced :=
          Fraction.add_reduced _ _ hcred2.den_ne ih0.2.1.den_ne
        refine ⟨hr1, hr2, ?_, ?_⟩
        · rw [Fraction.toRat_add _ _ hcred1.den_ne ih0.1.den_ne, hcval1, ih0.2.2.1]
          simp only [List.length_cons]
          rw [show min (cs.length + 1) (bs.length + 1) - 0 = min cs.length bs.length + 1 by omega]
          rw [List.range_succ_eq_map, List.map_cons, List.sum_cons]
          refine congrArg₂ (· + ·) (by simp) ?_
          symm
          rw [List.map_map, Nat.sub_zero]
          refine congrArg List.sum (List.map_congr_left ?_)
          intro j hj
          simp [Function.comp, List.getD_cons_succ]
        · rw [Fraction.toRat_add _ _ hcred2.den_ne ih0.2.1.den_ne, hcval2, ih0.2.2.2]
          simp only [List.length_cons]
          rw [show min (cs.length + 1) (bs.length + 1) - 0 = min cs.length bs.length + 1 by omega]
          rw [List.range_succ_eq_map, List.map_cons, List.sum_cons]
          refine congrArg₂ (· + ·) (by simp) ?_
          symm
          rw [List.map_map, Nat.sub_zero]
          refine congrArg List.sum (List.map_congr_left ?_)
          intro j hj
          simp [Function.comp, List.getD_cons_succ]
      | succ idx2 =>
        rw [List.getD_cons_succ, List.getD_cons_succ]
        have ihi := ih bs hredcs idx2
        rw [hST] at ihi
        dsimp only at ihi
        refine ⟨ihi.1, ihi.2.1, ?_, ?_⟩
        · rw [ihi.2.2.1]
          simp only [List.length_cons]
          rw [show min (cs.length + 1) (bs.length + 1) - (idx2 + 1) =
            min cs.length bs.length - idx2 by omega]
          refine congrArg List.sum (List.map_congr_left ?_)
          intro j hj
          rw [show idx2 + 1 + j = (idx2 + j) + 1 by omega]
          rw [List.getD_cons_succ, List.getD_cons_succ]
        · rw [ihi.2.2.2]
          simp only [List.length_cons]
          rw [show min (cs.length + 1) (bs.length + 1) - (idx2 + 1) =
            min cs.length bs.length - idx2 by omega]
          refine congrArg List.sum (List.map_congr_left ?_)
          intro j hj
          rw [show idx2 + 1 + j = (idx2 + j) + 1 by omega]
          rw [List.getD_cons_succ, List.getD_cons_succ]

/-! ### The free-variable ordering -/

theorem attachCoeffs_fields (m : Mat) (freeColumns order freeBounds : List Nat)
    (row : PivotRow) :
    (attachCoeffs m freeColumns order freeBounds row).pivotCol = row.pivotCol ∧
    (attachCoeffs m freeColumns order freeBounds row).rhs = row.rhs ∧
    (attachCoeffs m freeColumns order freeBounds row).minAllowed = row.minAllowed ∧
    (attachCoeffs m freeColumns order freeBounds row).maxAllowed = row.maxAllowed ∧
    (attachCoeffs m freeColumns order freeBounds row).sourceRow = row.sourceRow ∧
    (attachCoeffs m freeColumns order freeBounds row).coeffs =
      order.map (fun idx => m row.sourceRow (freeColumns.getD idx 0)) ∧
    (attachCoeffs m freeColumns order freeBounds row).minSuffix =
      (suffixTables (order.map fun idx => m row.sourceRow (freeColumns.getD idx 0))
        freeBounds).1 ∧
    (attachCoeffs m freeColumns order freeBounds row).maxSuffix =
      (suffixTables (order.map fun idx => m row.sourceRow (freeColumns.getD idx 0))
        freeBounds).2 :=
  ⟨rfl, rfl, rfl, rfl, rfl, rfl, rfl, rfl⟩

/-- Facts about the sorted free-variable records: the sort is a permutation of
the enumerated free columns, so its `originalIndex` projections permute
`range`, and each record's fields agree with the free-column and bound tables. -/
theorem sorted_infos_facts (freeColumns ub : List Nat) :
    (List.insertionSort freeVarLE (freeColumns.enum.map fun p =>
        ({col := p.2, bound := ub.getD p.2 0, originalIndex := p.1} : FreeVarInfo))).length =
      freeColumns.length ∧
    ((List.insertionSort freeVarLE (freeColumns.enum.map fun p =>
        ({col := p.2, bound := ub.getD p.2 0, originalIndex := p.1} : FreeVarInfo))).map
      (fun i => i.originalIndex)).Perm (List.range freeColumns.length) ∧
    ∀ info ∈ List.insertionSort freeVarLE (freeColumns.enum.map fun p =>
        ({col := p.2, bound := ub.getD p.2 0, originalIndex := p.1} : FreeVarInfo)),
      info.originalIndex < freeColumns.length ∧
      info.col = freeColumns.getD info.originalIndex 0 ∧
      info.bound = ub.getD info.col 0 := by
  have hperm := List.perm_insertionSort freeVarLE (freeColumns.enum.map fun p =>
    ({col := p.2, bound := ub.getD p.2 0, originalIndex := p.1} : FreeVarInfo))
  refine ⟨?_, ?_, ?_⟩
  · rw [hperm.length_eq]
    simp
  · have h1 := hperm.map (fun i : FreeVarInfo => i.originalIndex)
    have h2 : (freeColumns.enum.map fun p =>
        ({col := p.2, bound := ub.getD p.2 0, originalIndex := p.1} : FreeVarInfo)).map
        (fun i => i.originalIndex) = freeColumns.enum.map Prod.fst := by
      rw [List.map_map]
      rfl
    rw [h2, List.enum_map_fst] at h1
    exact h1
  · intro info hmem
    have hmem2 := hperm.mem_iff.mp hmem
    obtain ⟨p, hp, rfl⟩ := List.mem_map.mp hmem2
    obtain ⟨i, x⟩ := p
    obtain ⟨hilt, hx⟩ := List.mem_enum hp
    refine ⟨hilt, ?_, rfl⟩
    dsimp only
    rw [hx, List.getD_eq_getElem?_getD, List.getElem?_eq_getElem hilt]
    rfl



/-! ### Minima of optional search results (`none` = unbounded) -/

/-- Minimum of two optional search results. -/
def omin : Option Nat → Option Nat → Option Nat
  | none, b => b
  | some a, none => some a
  | some a, some b => some (min a b)

/-- Minimum of a list of optional search results. -/
def ominList (l : List (Option Nat)) : Option Nat := l.foldr omin none

theorem omin_none_left (b : Option Nat) : omin none b = b := rfl

theorem omin_none_right (a : Option Nat) : omin a none = a := by
  cases a <;> rfl

theorem omin_comm (a b : Option Nat) : omin a b = omin b a := by
  cases a <;> cases b <;> simp [omin, Nat.min_comm]

theorem omin_assoc (a b c : Option Nat) : omin (omin a b) c = omin a (omin b c) := by
  cases a <;> cases b <;> cases c <;> simp [omin, Nat.min_assoc]

theorem ominList_append (l1 l2 : List (Option Nat)) :
    ominList (l1 ++ l2) = omin (ominList l1) (ominList l2) := by
  induction l1 with
  | nil => rw [List.nil_append]; rfl
  | cons x xs ih =>
    rw [List.cons_append]
    unfold ominList at ih ⊢
    rw [List.foldr_cons, List.foldr_cons, ih, omin_assoc]

theorem ominList_flatMap {α : Type} (l : List α) (f : α → List (Option Nat)) :
    ominList (l.flatMap f) = ominList (l.map fun a => ominList (f a)) := by
  induction l with
  | nil => rfl
  | cons x xs ih =>
    rw [List.flatMap_cons, List.map_cons, ominList_append, ih]
    unfold ominList
    rw [List.foldr_cons]

theorem ominList_all_none (l : List (Option Nat)) (h : ∀ x ∈ l, x = none) :
    ominList l = none := by
  induction l with
  | nil => rfl
  | cons x xs ih =>
    unfold ominList
    rw [List.foldr_cons, h x (by simp)]
    show omin none (ominList xs) = none
    rw [ih fun y hy => h y (by simp [hy])]
    rfl

/-- A minimum over results that are all at least `bb` is absorbed by `bb`. -/
theorem omin_absorb (bb : Nat) (l : List (Option Nat))
    (h : ∀ x ∈ l, ∀ t, x = some t → bb ≤ t) : omin (some bb) (ominList l) = some bb := by
  induction l with
  | nil => rfl
  | cons x xs ih =>
    unfold ominList
    rw [List.foldr_cons]
    show omin (some bb) (omin x (ominList xs)) = some bb
    rw [← omin_assoc, omin_comm (some bb) x, omin_assoc,
      ih fun y hy t ht => h y (by simp [hy]) t ht]
    cases hx : x with
    | none => rfl
    | some t =>
      have := h x (by simp) t hx
      simp [omin]
      omega

/-- A fold that takes the pointwise minimum of branch results computes the
minimum over all branches. -/
theorem foldl_omin {α : Type} (step : Option Nat → α → Option Nat) (bm : α → Option Nat) :
    ∀ (vs : List α), (∀ acc v, v ∈ vs → step acc v = omin acc (bm v)) →
      ∀ acc, vs.foldl step acc = omin acc (ominList (vs.map bm)) := by
  intro vs
  induction vs with
  | nil => intro _ acc; rw [List.foldl_nil, List.map_nil]; exact (omin_none_right acc).symm
  | cons v vs2 ih =>
    intro h acc
    rw [List.foldl_cons, List.map_cons]
    rw [ih (fun a w hw => h a w (by simp [hw])) (step acc v), h acc v (by simp)]
    unfold ominList
    rw [List.foldr_cons]
    show omin (omin acc (bm v)) _ = omin acc (omin (bm v) _)
    rw [omin_assoc]

/-! ### The search box -/

/-- All value tuples within the given per-position bounds (inclusive). -/
def boxTuples : List Nat → List (List Nat)
  | [] => [[]]
  | b :: bs => (List.range (b + 1)).flatMap fun v => (boxTuples bs).map (v :: ·)

theorem boxTuples_mem : ∀ (bs vals : List Nat),
    vals ∈ boxTuples bs ↔ vals.length = bs.length ∧
      ∀ j, j < bs.length → vals.getD j 0 ≤ bs.getD j 0 := by
  intro bs
  induction bs with
  | nil =>
    intro vals
    simp only [boxTuples, List.mem_singleton, List.length_nil]
    constructor
    · rintro rfl; exact ⟨rfl, by omega⟩
    · rintro ⟨h, -⟩; exact List.length_eq_zero.mp h
  | cons b bs2 ih =>
    intro vals
    simp only [boxTuples, List.mem_flatMap, List.mem_map, List.mem_range]
    constructor
    · rintro ⟨v, hv, vs, hvs, rfl⟩
      obtain ⟨hlen, hall⟩ := (ih vs).mp hvs
      refine ⟨by simp [hlen], ?_⟩
      intro j hj
      cases j with
      | zero =>
        simp only [List.getD_cons_zero]
        omega
      | succ j2 =>
        rw [List.getD_cons_succ, List.getD_cons_succ]
        exact hall j2 (by simpa using hj)
    · rintro ⟨hlen, hall⟩
      cases vals with
      | nil => simp at hlen
      | cons v vs =>
        refine ⟨v, ?_, vs, (ih vs).mpr ⟨by simpa using hlen, ?_⟩, rfl⟩
        · have hv0 := hall 0 (by simp)
          simp only [List.getD_cons_zero] at hv0
          omega
        · intro j hj
          have := hall (j + 1) (by simpa using hj)
          rw [List.getD_cons_succ, List.getD_cons_succ] at this
          exact this

/-! ### The leaf computation, characterized -/

/-- Placeholder row used as a `getD` default. -/
def dRA : PivotRow × Fraction :=
  (⟨0, Fraction.ZERO, Fraction.ZERO, Fraction.ZERO, [], [], [], 0⟩, Fraction.ZERO)

/-- The leaf value the search reaches from state `(rows, index, partialSum)` after
assigning the remaining free values `vals` (mirroring `dfs`'s state evolution). -/
def leafFor (ub : List Nat) : List Nat → List (PivotRow × Fraction) → Nat → Nat → Option Nat
  | [], rows, _, partialSum => leafTotal ub rows partialSum
  | v :: vs, rows, index, partialSum =>
    leafFor ub vs (if v = 0 then rows else addContrib rows index v) (index + 1)
      (partialSum + v)

/-- Coherence of the search state: every row carries reduced fractions, its
allowed window is `[rhs - bound, rhs]`, and its suffix tables tabulate the
extremal remaining contributions of the free variables (with respect to the
global bound list `fb`). -/
def RowsOK (ub fb : List Nat) (rows : List (PivotRow × Fraction)) : Prop :=
  ∀ ra ∈ rows,
    ra.1.rhs.Reduced ∧ ra.2.Reduced ∧ ra.1.minAllowed.Reduced ∧ ra.1.maxAllowed.Reduced ∧
    (∀ j, (ra.1.coeffs.getD j Fraction.ZERO).Reduced) ∧
    (∀ j, (ra.1.minSuffix.getD j Fraction.ZERO).Reduced) ∧
    (∀ j, (ra.1.maxSuffix.getD j Fraction.ZERO).Reduced) ∧
    ra.1.minAllowed.toRat = ra.1.rhs.toRat - (ub.getD ra.1.pivotCol 0 : ℚ) ∧
    ra.1.maxAllowed = ra.1.rhs ∧
    (∀ idx, (ra.1.minSuffix.getD idx Fraction.ZERO).toRat =
      ((List.range (fb.length - idx)).map fun j =>
        min 0 ((ra.1.coeffs.getD (idx + j) Fraction.ZERO).toRat *
          (fb.getD (idx + j) 0 : ℚ))).sum) ∧
    (∀ idx, (ra.1.maxSuffix.getD idx Fraction.ZERO).toRat =
      ((List.range (fb.length - idx)).map fun j =>
        max 0 ((ra.1.coeffs.getD (idx + j) Fraction.ZERO).toRat *
          (fb.getD (idx + j) 0 : ℚ))).sum)

theorem cast_toNat_of_nonneg (z : Int) (hz : 0 ≤ z) : ((z.toNat : ℕ) : ℚ) = (z : ℚ) := by
  rw [← Int.toNat_of_nonneg hz]
  norm_cast

/-- A leaf's total is at least the partial sum it is reached with. -/
theorem leafTotal_ge (ub : List Nat) :
    ∀ (rows : List (PivotRow × Fraction)) (ps t : Nat),
      leafTotal ub rows ps = some t → ps ≤ t := by
  intro rows
  induction rows with
  | nil =>
    intro ps t h
    unfold leafTotal at h
    cases h
    exact le_rfl
  | cons ra rest ih =>
    intro ps t h
    obtain ⟨row, a⟩ := ra
    unfold leafTotal at h
    dsimp only at h
    by_cases h1 : !(row.rhs.sub a).isInteger
    · rw [if_pos h1] at h; cases h
    · rw [if_neg h1] at h
      by_cases h2 : (row.rhs.sub a).toNumber < 0 ∨
          ((ub.getD row.pivotCol 0 : Nat) : Int) < (row.rhs.sub a).toNumber
      · rw [if_pos h2] at h; cases h
      · rw [if_neg h2] at h
        cases hrec : leafTotal ub rest ps with
        | none => rw [hrec] at h; cases h
        | some t2 =>
          rw [hrec] at h
          simp only [Option.map_some'] at h
          cases h
          have := ih ps t2 hrec
          omega

/-- A leaf from state `(rows, ps)` succeeds exactly when every row's implied
value is a bounded natural number, and then the total adds all implied values
to `ps`. -/
theorem leafTotal_some_iff (ub : List Nat) :
    ∀ (rows : List (PivotRow × Fraction)), (∀ ra ∈ rows, ra.1.rhs.Reduced ∧ ra.2.Reduced) →
      ∀ (ps t : Nat),
      (leafTotal ub rows ps = some t ↔
        (∀ ra ∈ rows, ∃ n : Nat, (n : ℚ) = ra.1.rhs.toRat - ra.2.toRat ∧
          n ≤ ub.getD ra.1.pivotCol 0) ∧
        (t : ℚ) = (ps : ℚ) + ∑ i ∈ Finset.range rows.length,
          ((rows.getD i dRA).1.rhs.toRat - (rows.getD i dRA).2.toRat)) := by
  intro rows
  induction rows with
  | nil =>
    intro _ ps t
    unfold leafTotal
    simp only [Option.some.injEq, List.length_nil, Finset.range_zero, Finset.sum_empty]
    constructor
    · rintro rfl
      exact ⟨by intro ra hra; exact absurd hra (List.not_mem_nil ra), by push_cast; ring⟩
    · rintro ⟨-, hsum⟩
      have h2 : (t : ℚ) = (ps : ℚ) := by rw [hsum]; ring
      exact_mod_cast h2.symm
  | cons ra rest ih =>
    intro hred ps t
    obtain ⟨row, a⟩ := ra
    have hredrow := hred (row, a) (by simp)
    have hsubred : (row.rhs.sub a).Reduced :=
      Fraction.sub_reduced _ _ hredrow.1.den_ne hredrow.2.den_ne
    have hsubval : (row.rhs.sub a).toRat = row.rhs.toRat - a.toRat :=
      Fraction.toRat_sub _ _ hredrow.1.den_ne hredrow.2.den_ne
    have hsumsplit : ∀ q : ℚ,
        (q = (ps : ℚ) + ∑ i ∈ Finset.range ((row, a) :: rest).length,
          ((((row, a) :: rest).getD i dRA).1.rhs.toRat -
            (((row, a) :: rest).getD i dRA).2.toRat)) ↔
        q = (ps : ℚ) + (row.rhs.toRat - a.toRat) + ∑ i ∈ Finset.range rest.length,
          ((rest.getD i dRA).1.rhs.toRat - (rest.getD i dRA).2.toRat) := by
      intro q
      simp only [List.length_cons]
      rw [Finset.sum_range_succ']
      simp only [List.getD_cons_succ, List.getD_cons_zero]
      constructor <;> intro hq <;> rw [hq] <;> ring
    unfold leafTotal
    dsimp only
    constructor
    · intro h
      by_cases h1 : !(row.rhs.sub a).isInteger
      · rw [if_pos h1] at h; cases h
      · rw [if_neg h1] at h
        by_cases h2 : (row.rhs.sub a).toNumber < 0 ∨
            ((ub.getD row.pivotCol 0 : Nat) : Int) < (row.rhs.sub a).toNumber
        · rw [if_pos h2] at h; cases h
        · rw [if_neg h2] at h
          push_neg at h2
          cases hrec : leafTotal ub rest ps with
          | none => rw [hrec] at h; cases h
          | some t2 =>
            rw [hrec] at h
            simp only [Option.map_some'] at h
            obtain ⟨hall, hsum⟩ := (ih (fun x hx => hred x (by simp [hx])) ps t2).mp hrec
            have hint : (row.rhs.sub a).isInteger = true := by
              cases hb : (row.rhs.sub a).isInteger
              · rw [hb] at h1; exact absurd rfl h1
              · rfl
            have hnum := Fraction.toNumber_of_isInteger _ hint
            have hvalQ : ((row.rhs.sub a).toNumber : ℚ) = row.rhs.toRat - a.toRat := by
              rw [hnum, ← hsubval]
              exact (Fraction.toRat_of_isInteger _ hint).symm
            refine ⟨?_, ?_⟩
            · intro rb hrb
              rcases List.mem_cons.mp hrb with hrb1 | hrb2
              · subst hrb1
                dsimp only
                refine ⟨(row.rhs.sub a).toNumber.toNat, ?_, ?_⟩
                · rw [cast_toNat_of_nonneg _ h2.1]
                  exact hvalQ
                · have h3 := h2.2
                  omega
              · exact hall rb hrb2
            · cases h
              rw [hsumsplit]
              push_cast
              rw [cast_toNat_of_nonneg _ h2.1, hvalQ]
              push_cast at hsum
              linarith [hsum]
    · rintro ⟨hall, hsum⟩
      obtain ⟨n, hn, hnle⟩ := hall (row, a) (by simp)
      dsimp only at hn hnle
      have hint : (row.rhs.sub a).isInteger = true := by
        refine Fraction.isInteger_of_int _ hsubred (n : Int) ?_
        rw [hsubval, ← hn]
        norm_cast
      have hnum := Fraction.toNumber_of_isInteger _ hint
      have hvalnum : (row.rhs.sub a).toNumber = (n : Int) := by
        have hq1 : ((row.rhs.sub a).num : ℚ) = (n : ℚ) := by
          rw [← Fraction.toRat_of_isInteger _ hint, hsubval, ← hn]
        have hq2 : (row.rhs.sub a).num = (n : Int) := by exact_mod_cast hq1
        rw [hnum, hq2]
      have hterm_nonneg : ∀ i ∈ Finset.range rest.length,
          0 ≤ (rest.getD i dRA).1.rhs.toRat - (rest.getD i dRA).2.toRat := by
        intro i hi
        have himem : rest.getD i dRA ∈ rest := by
          rw [List.getD_eq_getElem?_getD,
            List.getElem?_eq_getElem (Finset.mem_range.mp hi)]
          exact List.getElem_mem _
        obtain ⟨n2, hn2, -⟩ := hall (rest.getD i dRA) (List.mem_cons_of_mem _ himem)
        rw [← hn2]
        positivity
      have htn : n ≤ t := by
        have hQ : (n : ℚ) ≤ (t : ℚ) := by
          rw [(hsumsplit (t : ℚ)).mp hsum]
          have hs := Finset.sum_nonneg hterm_nonneg
          have hps : (0 : ℚ) ≤ (ps : ℚ) := by positivity
          rw [← hn]
          linarith
        exact_mod_cast hQ
      have htail : leafTotal ub rest ps = some (t - n) := by
        refine (ih (fun x hx => hred x (by simp [hx])) ps (t - n)).mpr
          ⟨fun rb hrb => hall rb (by simp [hrb]), ?_⟩
        rw [Nat.cast_sub htn, (hsumsplit (t : ℚ)).mp hsum, ← hn]
        ring
      rw [if_neg (by simp [hint]),
        if_neg (by rw [hvalnum]; push_neg; constructor <;> omega)]
      rw [htail]
      simp only [Option.map_some', Option.some.injEq]
      rw [hvalnum]
      simp only [Int.toNat_natCast]
      omega

/-! ### Evolution of the assigned contributions -/

theorem addContrib_length (rows : List (PivotRow × Fraction)) (index v : Nat) :
    (addContrib rows index v).length = rows.length := by
  unfold addContrib
  rw [List.length_map]

theorem addContrib_getD (rows : List (PivotRow × Fraction)) (index v i : Nat)
    (hi : i < rows.length) :
    (addContrib rows index v).getD i dRA =
      (let ra := rows.getD i dRA
       let coeff := ra.1.coeffs.getD index Fraction.ZERO
       if coeff.isZero then ra else (ra.1, ra.2.add (coeff.mulInt (v : Int)))) := by
  unfold addContrib
  rw [getD_map_lt _ rows i hi dRA dRA]

theorem addContrib_mem (rows : List (PivotRow × Fraction)) (index v : Nat)
    (ra2 : PivotRow × Fraction) (h : ra2 ∈ addContrib rows index v) :
    ∃ ra ∈ rows, ra2 =
      (let coeff := ra.1.coeffs.getD index Fraction.ZERO
       if coeff.isZero then ra else (ra.1, ra.2.add (coeff.mulInt (v : Int)))) := by
  unfold addContrib at h
  obtain ⟨ra, hra, rfl⟩ := List.mem_map.mp h
  exact ⟨ra, hra, rfl⟩

/-- The first component of each row is unchanged, and the assigned contribution
grows by `coeff * v`, staying reduced. -/
theorem addContrib_spec (rows : List (PivotRow × Fraction)) (index v i : Nat)
    (hi : i < rows.length)
    (hc : ((rows.getD i dRA).1.coeffs.getD index Fraction.ZERO).Reduced)
    (ha : (rows.getD i dRA).2.Reduced) :
    ((addContrib rows index v).getD i dRA).1 = (rows.getD i dRA).1 ∧
    ((addContrib rows index v).getD i dRA).2.Reduced ∧
    ((addContrib rows index v).getD i dRA).2.toRat = (rows.getD i dRA).2.toRat +
      ((rows.getD i dRA).1.coeffs.getD index Fraction.ZERO).toRat * (v : ℚ) := by
  rw [addContrib_getD rows index v i hi]
  dsimp only
  by_cases hz : ((rows.getD i dRA).1.coeffs.getD index Fraction.ZERO).isZero
  · rw [if_pos hz]
    have hzero : ((rows.getD i dRA).1.coeffs.getD index Fraction.ZERO).toRat = 0 :=
      (Fraction.isZero_iff _ hc.den_ne).mp hz
    exact ⟨rfl, ha, by rw [hzero]; ring⟩
  · rw [if_neg hz]
    refine ⟨rfl, ?_, ?_⟩
    · exact Fraction.add_reduced _ _ ha.den_ne (Fraction.mulInt_reduced _ _ hc.den_ne).den_ne
    · rw [Fraction.toRat_add _ _ ha.den_ne (Fraction.mulInt_reduced _ _ hc.den_ne).den_ne,
        Fraction.toRat_mulInt _ _ hc.den_ne]
      push_cast
      ring

/-- `RowsOK` is preserved when a free variable's contribution is added. -/
theorem addContrib_rowsOK (ub fb : List Nat) (rows : List (PivotRow × Fraction))
    (index v : Nat) (hOK : RowsOK ub fb rows) : RowsOK ub fb (addContrib rows index v) := by
  intro ra2 hra2
  obtain ⟨ra, hra, rfl⟩ := addContrib_mem rows index v _ hra2
  obtain ⟨h1, h2, h3, h4, h5, h6, h7, h8, h9, h10, h11⟩ := hOK ra hra
  dsimp only
  by_cases hz : (ra.1.coeffs.getD index Fraction.ZERO).isZero
  · rw [if_pos hz]
    exact ⟨h1, h2, h3, h4, h5, h6, h7, h8, h9, h10, h11⟩
  · rw [if_neg hz]
    refine ⟨h1, ?_, h3, h4, h5, h6, h7, h8, h9, h10, h11⟩
    exact Fraction.add_reduced _ _ h2.den_ne
      (Fraction.mulInt_reduced _ _ (h5 index).den_ne).den_ne

/-- If some row's implied value is negative or exceeds its bound, the leaf is
rejected. -/
theorem leafTotal_none_of_reject (ub : List Nat) :
    ∀ (rows : List (PivotRow × Fraction)), (∀ ra ∈ rows, ra.1.rhs.Reduced ∧ ra.2.Reduced) →
    ∀ (ra : PivotRow × Fraction), ra ∈ rows →
      (ra.1.rhs.toRat - ra.2.toRat < 0 ∨
        (ub.getD ra.1.pivotCol 0 : ℚ) < ra.1.rhs.toRat - ra.2.toRat) →
      ∀ ps, leafTotal ub rows ps = none := by
  intro rows hred ra hmem hbad ps
  cases hlt : leafTotal ub rows ps with
  | none => rfl
  | some t =>
    obtain ⟨hall, -⟩ := (leafTotal_some_iff ub rows hred ps t).mp hlt
    obtain ⟨n, hn, hnle⟩ := hall ra hmem
    rcases hbad with hbad | hbad
    · rw [← hn] at hbad
      have : (0 : ℚ) ≤ (n : ℚ) := by positivity
      linarith
    · rw [← hn] at hbad
      have : (n : ℚ) ≤ (ub.getD ra.1.pivotCol 0 : ℚ) := by exact_mod_cast hnle
      linarith

/-- The value of a leaf reached through `leafFor` is at least the starting
partial sum. -/
theorem leafFor_ge (ub : List Nat) :
    ∀ (vals : List Nat) (rows : List (PivotRow × Fraction)) (index ps t : Nat),
      leafFor ub vals rows index ps = some t → ps ≤ t := by
  intro vals
  induction vals with
  | nil =>
    intro rows index ps t h
    exact leafTotal_ge ub rows ps t h
  | cons v vs ih =>
    intro rows index ps t h
    unfold leafFor at h
    have := ih _ (index + 1) (ps + v) t h
    omega

/-! ### Soundness of the window pruning -/

theorem getD_drop (l : List Nat) (n i d : Nat) : (l.drop n).getD i d = l.getD (n + i) d := by
  rw [List.getD_eq_getElem?_getD, List.getD_eq_getElem?_getD, List.getElem?_drop]

theorem sum_shift_head (L idx : Nat) (h : idx < L) (g : Nat → ℚ) :
    ((List.range (L - idx)).map fun j => g (idx + j)).sum =
      g idx + ((List.range (L - (idx + 1))).map fun j => g (idx + 1 + j)).sum := by
  rw [show L - idx = (L - (idx + 1)) + 1 by omega, List.range_succ_eq_map, List.map_cons,
    List.sum_cons, List.map_map]
  congr 1
  refine congrArg List.sum (List.map_congr_left ?_)
  intro j hj
  simp only [Function.comp]
  congr 1
  omega

theorem mul_bounds (c v b : ℚ) (h0 : 0 ≤ v) (hvb : v ≤ b) :
    min 0 (c * b) ≤ c * v ∧ c * v ≤ max 0 (c * b) := by
  rcases le_or_lt 0 c with hc | hc
  · constructor
    · exact le_trans (min_le_left _ _) (by positivity)
    · exact le_trans (mul_le_mul_of_nonneg_left hvb hc) (le_max_right _ _)
  · constructor
    · exact le_trans (min_le_right _ _) (mul_le_mul_of_nonpos_left hvb (le_of_lt hc))
    · exact le_trans (by nlinarith) (le_max_left 0 (c * b))

/-- If some row's window of still-possible contributions misses its allowed
window, every completion of the current state is rejected. -/
theorem leafFor_none_of_bad (ub fb : List Nat) :
    ∀ (vals : List Nat) (index : Nat) (rows : List (PivotRow × Fraction)) (ps : Nat),
      RowsOK ub fb rows →
      vals ∈ boxTuples (fb.drop index) →
      (∃ ra ∈ rows,
        ra.2.toRat + (ra.1.maxSuffix.getD index Fraction.ZERO).toRat < ra.1.minAllowed.toRat ∨
        ra.1.maxAllowed.toRat < ra.2.toRat + (ra.1.minSuffix.getD index Fraction.ZERO).toRat) →
      leafFor ub vals rows index ps = none := by
  intro vals
  induction vals with
  | nil =>
    intro index rows ps hOK hmem hbad
    obtain ⟨hlen, -⟩ := (boxTuples_mem (fb.drop index) []).mp hmem
    have hdrop : fb.length ≤ index := by
      have hld := List.length_drop index fb
      simp only [List.length_nil] at hlen
      omega
    obtain ⟨ra, hra, hb⟩ := hbad
    obtain ⟨h1, h2, h3, h4, h5, h6, h7, h8, h9, h10, h11⟩ := hOK ra hra
    have hminz : (ra.1.minSuffix.getD index Fraction.ZERO).toRat = 0 := by
      rw [h10 index, show fb.length - index = 0 by omega]
      simp
    have hmaxz : (ra.1.maxSuffix.getD index Fraction.ZERO).toRat = 0 := by
      rw [h11 index, show fb.length - index = 0 by omega]
      simp
    unfold leafFor
    refine leafTotal_none_of_reject ub rows
      (fun rb hrb => ⟨(hOK rb hrb).1, (hOK rb hrb).2.1⟩) ra hra ?_ ps
    rcases hb with hb | hb
    · right
      rw [hmaxz, h8] at hb
      linarith
    · left
      rw [hminz, h9] at hb
      linarith
  | cons v vs ih =>
    intro index rows ps hOK hmem hbad
    cases hdrop : fb.drop index with
    | nil =>
      rw [hdrop] at hmem
      obtain ⟨hlen, -⟩ := (boxTuples_mem [] (v :: vs)).mp hmem
      simp at hlen
    | cons b rest =>
      rw [hdrop] at hmem
      obtain ⟨hlen, hallb⟩ := (boxTuples_mem (b :: rest) (v :: vs)).mp hmem
      have hvb : v ≤ b := by
        have hv0 := hallb 0 (by simp)
        simpa using hv0
      have hindexlt : index < fb.length := by
        have hld := List.length_drop index fb
        rw [hdrop] at hld
        simp only [List.length_cons] at hld
        omega
      have hfbidx : fb.getD index 0 = b := by
        have hd0 : (fb.drop index).getD 0 0 = b := by rw [hdrop]; rfl
        rw [getD_drop] at hd0
        simpa using hd0
      have hrest : fb.drop (index + 1) = rest := by
        have hdd : fb.drop (index + 1) = (fb.drop index).drop 1 := by
          rw [List.drop_drop]
        rw [hdd, hdrop]
        rfl
      have hmem2 : vs ∈ boxTuples (fb.drop (index + 1)) := by
        rw [hrest]
        refine (boxTuples_mem rest vs).mpr ⟨by simpa using hlen, ?_⟩
        intro j hj
        have hj2 := hallb (j + 1) (by simp only [List.length_cons]; omega)
        rw [List.getD_cons_succ, List.getD_cons_succ] at hj2
        exact hj2
      obtain ⟨ra, hra, hb⟩ := hbad
      obtain ⟨h1, h2, h3, h4, h5, h6, h7, h8, h9, h10, h11⟩ := hOK ra hra
      have hOK2 : RowsOK ub fb (if v = 0 then rows else addContrib rows index v) := by
        split
        · exact hOK
        · exact addContrib_rowsOK ub fb rows index v hOK
      have himg : ∃ ra2 ∈ (if v = 0 then rows else addContrib rows index v),
          ra2.1 = ra.1 ∧ ra2.2.toRat = ra.2.toRat +
            (ra.1.coeffs.getD index Fraction.ZERO).toRat * (v : ℚ) := by
        by_cases hv : v = 0
        · rw [if_pos hv]
          exact ⟨ra, hra, rfl, by rw [hv]; push_cast; ring⟩
        · rw [if_neg hv]
          refine ⟨(let coeff := ra.1.coeffs.getD index Fraction.ZERO
            if coeff.isZero then ra else (ra.1, ra.2.add (coeff.mulInt (v : Int)))), ?_, ?_, ?_⟩
          · unfold addContrib
            exact List.mem_map_of_mem _ hra
          · dsimp only
            split
            · rfl
            · rfl
          · dsimp only
            by_cases hz : (ra.1.coeffs.getD index Fraction.ZERO).isZero
            · rw [if_pos hz]
              rw [(Fraction.isZero_iff _ (h5 index).den_ne).mp hz]
              ring
            · rw [if_neg hz]
              dsimp only
              rw [Fraction.toRat_add _ _ h2.den_ne
                (Fraction.mulInt_reduced _ _ (h5 index).den_ne).den_ne,
                Fraction.toRat_mulInt _ _ (h5 index).den_ne]
              push_cast
              ring
      obtain ⟨ra2, hra2, hfst, hsnd⟩ := himg
      have hminstep : (ra.1.minSuffix.getD index Fraction.ZERO).toRat =
          min 0 ((ra.1.coeffs.getD index Fraction.ZERO).toRat * (b : ℚ)) +
            (ra.1.minSuffix.getD (index + 1) Fraction.ZERO).toRat := by
        rw [h10 index, h10 (index + 1),
          sum_shift_head fb.length index hindexlt
            (fun j => min 0 ((ra.1.coeffs.getD j Fraction.ZERO).toRat * (fb.getD j 0 : ℚ)))]
        rw [hfbidx]
      have hmaxstep : (ra.1.maxSuffix.getD index Fraction.ZERO).toRat =
          max 0 ((ra.1.coeffs.getD index Fraction.ZERO).toRat * (b : ℚ)) +
            (ra.1.maxSuffix.getD (index + 1) Fraction.ZERO).toRat := by
        rw [h11 index, h11 (index + 1),
          sum_shift_head fb.length index hindexlt
            (fun j => max 0 ((ra.1.coeffs.getD j Fraction.ZERO).toRat * (fb.getD j 0 : ℚ)))]
        rw [hfbidx]
      have hmul := mul_bounds ((ra.1.coeffs.getD index Fraction.ZERO).toRat) (v : ℚ) (b : ℚ)
        (by positivity) (by exact_mod_cast hvb)
      unfold leafFor
      refine ih (index + 1) _ (ps + v) hOK2 hmem2 ⟨ra2, hra2, ?_⟩
      rw [hfst, hsnd]
      rcases hb with hb | hb
      · left
        rw [hmaxstep] at hb
        linarith [hmul.2]
      · right
        rw [hminstep] at hb
        linarith [hmul.1]

/-- Characterization of a full completion: assigning the values `vals` from
position `index` succeeds with total `t` exactly when every row's implied value
(its right-hand side minus its already-assigned and newly-assigned
contributions) is a bounded natural number, and `t` adds the values and all
implied numbers to `ps`. -/
theorem leafFor_some_iff (ub fb : List Nat) :
    ∀ (vals : List Nat) (index : Nat) (rows : List (PivotRow × Fraction)) (ps t : Nat),
      RowsOK ub fb rows →
      (leafFor ub vals rows index ps = some t ↔
        (∀ i, i < rows.length → ∃ n : Nat,
          (n : ℚ) = (rows.getD i dRA).1.rhs.toRat - (rows.getD i dRA).2.toRat -
            (∑ j ∈ Finset.range vals.length,
              ((rows.getD i dRA).1.coeffs.getD (index + j) Fraction.ZERO).toRat *
                (vals.getD j 0 : ℚ)) ∧
          n ≤ ub.getD (rows.getD i dRA).1.pivotCol 0) ∧
        (t : ℚ) = (ps : ℚ) + (vals.sum : ℚ) + ∑ i ∈ Finset.range rows.length,
          ((rows.getD i dRA).1.rhs.toRat - (rows.getD i dRA).2.toRat -
            (∑ j ∈ Finset.range vals.length,
              ((rows.getD i dRA).1.coeffs.getD (index + j) Fraction.ZERO).toRat *
                (vals.getD j 0 : ℚ)))) := by
  intro vals
  induction vals with
  | nil =>
    intro index rows ps t hOK
    unfold leafFor
    rw [leafTotal_some_iff ub rows (fun ra hra => ⟨(hOK ra hra).1, (hOK ra hra).2.1⟩) ps t]
    simp only [List.length_nil, Finset.range_zero, Finset.sum_empty, List.sum_nil,
      Nat.cast_zero, add_zero, sub_zero]
    constructor
    · rintro ⟨hall, hsum⟩
      refine ⟨?_, hsum⟩
      intro i hi
      refine hall (rows.getD i dRA) ?_
      rw [List.getD_eq_getElem?_getD, List.getElem?_eq_getElem hi]
      exact List.getElem_mem hi
    · rintro ⟨hall, hsum⟩
      refine ⟨?_, hsum⟩
      intro ra hra
      obtain ⟨i, hi, heq⟩ := List.mem_iff_getElem.mp hra
      have hgd : rows.getD i dRA = ra := by
        rw [List.getD_eq_getElem?_getD, List.getElem?_eq_getElem hi]
        exact heq
      have := hall i hi
      rw [hgd] at this
      exact this
  | cons v vs ih =>
    intro index rows ps t hOK
    unfold leafFor
    have hOK2 : RowsOK ub fb (if v = 0 then rows else addContrib rows index v) := by
      split
      · exact hOK
      · exact addContrib_rowsOK ub fb rows index v hOK
    have hlen2 : (if v = 0 then rows else addContrib rows index v).length = rows.length := by
      split
      · rfl
      · exact addContrib_length rows index v
    have hrowi : ∀ i, i < rows.length →
        ((if v = 0 then rows else addContrib rows index v).getD i dRA).1 =
          (rows.getD i dRA).1 ∧
        ((if v = 0 then rows else addContrib rows index v).getD i dRA).2.toRat =
          (rows.getD i dRA).2.toRat +
            ((rows.getD i dRA).1.coeffs.getD index Fraction.ZERO).toRat * (v : ℚ) := by
      intro i hi
      have hmemi : rows.getD i dRA ∈ rows := by
        rw [List.getD_eq_getElem?_getD, List.getElem?_eq_getElem hi]
        exact List.getElem_mem hi
      obtain ⟨-, h2, -, -, h5, -⟩ := hOK (rows.getD i dRA) hmemi
      by_cases hv : v = 0
      · rw [if_pos hv, hv]
        push_cast
        exact ⟨rfl, by ring⟩
      · rw [if_neg hv]
        have := addContrib_spec rows index v i hi (h5 index) h2
        exact ⟨this.1, this.2.2⟩
    have hsumsplit : ∀ i, i < rows.length →
        (∑ j ∈ Finset.range (v :: vs).length,
          ((rows.getD i dRA).1.coeffs.getD (index + j) Fraction.ZERO).toRat *
            ((v :: vs).getD j 0 : ℚ)) =
        ((rows.getD i dRA).1.coeffs.getD index Fraction.ZERO).toRat * (v : ℚ) +
        (∑ j ∈ Finset.range vs.length,
          ((rows.getD i dRA).1.coeffs.getD (index + 1 + j) Fraction.ZERO).toRat *
            (vs.getD j 0 : ℚ)) := by
      intro i hi
      simp only [List.length_cons]
      rw [Finset.sum_range_succ']
      simp only [List.getD_cons_succ, List.getD_cons_zero]
      rw [add_comm]
      refine congrArg₂ (· + ·) ?_ ?_
      · rw [Nat.add_zero]
      · refine Finset.sum_congr rfl ?_
        intro j hj
        rw [show index + (j + 1) = index + 1 + j by omega]
    rw [ih (index + 1) (if v = 0 then rows else addContrib rows index v) (ps + v) t hOK2]
    constructor
    · rintro ⟨hall, hsum⟩
      constructor
      · intro i hi
        obtain ⟨n, hn, hnle⟩ := hall i (by rw [hlen2]; exact hi)
        obtain ⟨hfst, hsnd⟩ := hrowi i hi
        rw [hfst, hsnd] at hn
        rw [hfst] at hnle
        refine ⟨n, ?_, hnle⟩
        rw [hn, hsumsplit i hi]
        ring
      · rw [hsum]
        have hre : ∑ i ∈ Finset.range (if v = 0 then rows else addContrib rows index v).length,
            (((if v = 0 then rows else addContrib rows index v).getD i dRA).1.rhs.toRat -
              ((if v = 0 then rows else addContrib rows index v).getD i dRA).2.toRat -
              (∑ j ∈ Finset.range vs.length,
                (((if v = 0 then rows else addContrib rows index v).getD
                  i dRA).1.coeffs.getD (index + 1 + j) Fraction.ZERO).toRat *
                  (vs.getD j 0 : ℚ))) =
            ∑ i ∈ Finset.range rows.length,
            ((rows.getD i dRA).1.rhs.toRat - (rows.getD i dRA).2.toRat -
              (∑ j ∈ Finset.range (v :: vs).length,
                ((rows.getD i dRA).1.coeffs.getD (index + j) Fraction.ZERO).toRat *
                  ((v :: vs).getD j 0 : ℚ))) := by
          rw [hlen2]
          refine Finset.sum_congr rfl ?_
          intro i hi2
          have hi := Finset.mem_range.mp hi2
          obtain ⟨hfst, hsnd⟩ := hrowi i hi
          rw [hfst, hsnd, hsumsplit i hi]
          ring
        rw [hre]
        simp only [List.sum_cons]
        push_cast
        ring
    · rintro ⟨hall, hsum⟩
      constructor
      · intro i hi2
        have hi : i < rows.length := by rw [hlen2] at hi2; exact hi2
        obtain ⟨n, hn, hnle⟩ := hall i hi
        obtain ⟨hfst, hsnd⟩ := hrowi i hi
        rw [hfst, hsnd]
        refine ⟨n, ?_, hnle⟩
        rw [hn, hsumsplit i hi]
        ring
      · have hre : ∑ i ∈ Finset.range (if v = 0 then rows else addContrib rows index v).length,
            (((if v = 0 then rows else addContrib rows index v).getD i dRA).1.rhs.toRat -
              ((if v = 0 then rows else addContrib rows index v).getD i dRA).2.toRat -
              (∑ j ∈ Finset.range vs.length,
                (((if v = 0 then rows else addContrib rows index v).getD
                  i dRA).1.coeffs.getD (index + 1 + j) Fraction.ZERO).toRat *
                  (vs.getD j 0 : ℚ))) =
            ∑ i ∈ Finset.range rows.length,
            ((rows.getD i dRA).1.rhs.toRat - (rows.getD i dRA).2.toRat -
              (∑ j ∈ Finset.range (v :: vs).length,
                ((rows.getD i dRA).1.coeffs.getD (index + j) Fraction.ZERO).toRat *
                  ((v :: vs).getD j 0 : ℚ))) := by
          rw [hlen2]
          refine Finset.sum_congr rfl ?_
          intro i hi2
          have hi := Finset.mem_range.mp hi2
          obtain ⟨hfst, hsnd⟩ := hrowi i hi
          rw [hfst, hsnd, hsumsplit i hi]
          ring
        rw [hre, hsum]
        simp only [List.sum_cons]
        push_cast
        ring

/-- If every entry of a result list is at least `b` when defined, so is the
list's minimum. -/
theorem ominList_ge (b : Nat) :
    ∀ (l : List (Option Nat)), (∀ x ∈ l, ∀ t, x = some t → b ≤ t) →
      ∀ t, ominList l = some t → b ≤ t := by
  intro l
  induction l with
  | nil =>
    intro _ t ht
    simp [ominList] at ht
  | cons x xs ih =>
    intro h t ht
    have ht2 : omin x (ominList xs) = some t := ht
    have hxs := ih fun y hy => h y (List.mem_cons_of_mem _ hy)
    cases hxv : x with
    | none =>
      rw [hxv, omin_none_left] at ht2
      exact hxs t ht2
    | some a =>
      have hba : b ≤ a := h x (List.mem_cons_self _ _) a hxv
      cases hxsv : ominList xs with
      | none =>
        rw [hxv, hxsv, omin_none_right] at ht2
        simp only [Option.some.injEq] at ht2
        omega
      | some c =>
        have hbc : b ≤ c := hxs c hxsv
        rw [hxv, hxsv] at ht2
        simp only [omin, Option.some.injEq] at ht2
        omega

/-- A failed window-feasibility test names a row whose possible-contribution
window misses its allowed window. -/
theorem feasibleAll_false_bad (ub fb : List Nat) (rows : List (PivotRow × Fraction)) (s : Nat)
    (hOK : RowsOK ub fb rows) (hfeas : feasibleAll rows s = false) :
    ∃ ra ∈ rows,
      ra.2.toRat + (ra.1.maxSuffix.getD s Fraction.ZERO).toRat < ra.1.minAllowed.toRat ∨
      ra.1.maxAllowed.toRat < ra.2.toRat + (ra.1.minSuffix.getD s Fraction.ZERO).toRat := by
  have h2 : ¬ (feasibleAll rows s = true) := by rw [hfeas]; exact Bool.false_ne_true
  rw [feasibleAll, List.all_eq_true] at h2
  push_neg at h2
  obtain ⟨ra, hra, hbad⟩ := h2
  obtain ⟨h1, hr2, h3, h4, h5, h6, h7, h8, h9, h10, h11⟩ := hOK ra hra
  refine ⟨ra, hra, ?_⟩
  simp only [ne_eq, decide_eq_true_eq] at hbad
  rcases not_and_or.mp hbad with hc | hc
  · left
    have hmaxred : (ra.2.add (ra.1.maxSuffix.getD s Fraction.ZERO)).Reduced :=
      Fraction.add_reduced _ _ hr2.den_ne (h7 s).den_ne
    have := (Fraction.compare_neg_iff _ _ hmaxred.1 h3.1).mp (by omega)
    rw [Fraction.toRat_add _ _ hr2.den_ne (h7 s).den_ne] at this
    exact this
  · right
    have hminred : (ra.2.add (ra.1.minSuffix.getD s Fraction.ZERO)).Reduced :=
      Fraction.add_reduced _ _ hr2.den_ne (h6 s).den_ne
    have := (Fraction.compare_pos_iff _ _ hminred.1 h4.1).mp (by omega)
    rw [Fraction.toRat_add _ _ hr2.den_ne (h6 s).den_ne] at this
    exact this

/-- Absorbing a tail of results that are all at least `b`. -/
theorem omin_absorb_right (b : Nat) (A T : Option Nat) (h : omin (some b) T = some b) :
    omin (some b) (omin A T) = omin (some b) A := by
  rw [omin_comm A T, ← omin_assoc, h]

/-- The search `dfs` computes exactly the minimum of the incumbent and of the
leaf values over the whole box of remaining free-variable assignments: the
incumbent and window prunings never lose a minimum. -/
theorem dfs_spec (ub fb : List Nat) :
    ∀ (bnds : List Nat) (index : Nat) (rows : List (PivotRow × Fraction)) (ps : Nat)
      (best : Option Nat),
      bnds = fb.drop index →
      RowsOK ub fb rows →
      dfs ub bnds ps rows index best =
        omin best (ominList ((boxTuples bnds).map fun vals =>
          leafFor ub vals rows index ps)) := by
  intro bnds
  induction bnds with
  | nil =>
    intro index rows ps best hb hOK
    rw [show boxTuples ([] : List Nat) = [[]] from rfl, List.map_singleton,
      show leafFor ub [] rows index ps = leafTotal ub rows ps from rfl,
      show ominList [leafTotal ub rows ps] = omin (leafTotal ub rows ps) none from rfl,
      omin_none_right]
    unfold dfs
    cases hlt : leafTotal ub rows ps with
    | none => rw [omin_none_right]
    | some total =>
      cases best with
      | none => rfl
      | some b =>
        show (if total < b then some total else some b) = some (min b total)
        by_cases hc : total < b
        · rw [if_pos hc]
          congr 1
          omega
        · rw [if_neg hc]
          congr 1
          omega
  | cons bound rest ih =>
    intro index rows ps best hb hOK
    have hrest : rest = fb.drop (index + 1) := by
      have hdd : fb.drop (index + 1) = (fb.drop index).drop 1 := by rw [List.drop_drop]
      rw [hdd, ← hb]
      rfl
    have hbox : ominList ((boxTuples (bound :: rest)).map fun vals =>
        leafFor ub vals rows index ps) =
        ominList ((List.range (bound + 1)).map fun v =>
          ominList ((boxTuples rest).map fun vs =>
            leafFor ub vs (if v = 0 then rows else addContrib rows index v) (index + 1)
              (ps + v))) := by
      rw [show boxTuples (bound :: rest) =
        (List.range (bound + 1)).flatMap fun v => (boxTuples rest).map (v :: ·) from rfl]
      rw [List.map_flatMap, ominList_flatMap]
      congr 1
      refine List.map_congr_left ?_
      intro v hv
      rw [List.map_map]
      rfl
    have hOK2 : ∀ v : Nat, RowsOK ub fb (if v = 0 then rows else addContrib rows index v) := by
      intro v
      split
      · exact hOK
      · exact addContrib_rowsOK ub fb rows index v hOK
    have hbmnone : ∀ v : Nat, feasibleAll (if v = 0 then rows else addContrib rows index v)
        (index + 1) = false →
        ominList ((boxTuples rest).map fun vs =>
          leafFor ub vs (if v = 0 then rows else addContrib rows index v) (index + 1)
            (ps + v)) = none := by
      intro v hf
      refine ominList_all_none _ ?_
      intro x hx
      obtain ⟨vs, hvs, rfl⟩ := List.mem_map.mp hx
      exact leafFor_none_of_bad ub fb vs (index + 1) _ (ps + v) (hOK2 v)
        (by rw [← hrest]; exact hvs)
        (feasibleAll_false_bad ub fb _ (index + 1) (hOK2 v) hf)
    by_cases hb0 : bound = 0
    · subst hb0
      unfold dfs
      rw [if_pos rfl, hbox]
      rw [show List.range (0 + 1) = [0] from rfl, List.map_singleton]
      rw [show ∀ x : Option Nat, ominList [x] = x from fun x => omin_none_right x]
      simp only [if_pos rfl, Nat.add_zero]
      cases hfeas : feasibleAll rows (index + 1) with
      | true =>
        rw [if_pos rfl]
        exact ih (index + 1) rows ps best hrest hOK
      | false =>
        rw [if_neg (by simp)]
        have h0 := hbmnone 0
        simp only [if_pos rfl, Nat.add_zero] at h0
        rw [h0 hfeas, omin_none_right]
    · unfold dfs
      rw [if_neg hb0]
      have hstep : ∀ (maxV : Nat) (acc : Option Nat) (v : Nat),
          v ∈ List.range (maxV + 1) →
          (if feasibleAll (if v = 0 then rows else addContrib rows index v) (index + 1) = true
            then dfs ub rest (ps + v)
              (if v = 0 then rows else addContrib rows index v) (index + 1) acc
            else acc) =
          omin acc (ominList ((boxTuples rest).map fun vs =>
            leafFor ub vs (if v = 0 then rows else addContrib rows index v) (index + 1)
              (ps + v))) := by
        intro maxV acc v hv
        cases hf : feasibleAll (if v = 0 then rows else addContrib rows index v)
            (index + 1) with
        | true =>
          rw [if_pos rfl]
          exact ih (index + 1) _ (ps + v) acc hrest (hOK2 v)
        | false =>
          rw [if_neg (by simp), hbmnone v hf, omin_none_right]
      cases best with
      | none =>
        show (List.range (bound + 1)).foldl _ none = _
        rw [foldl_omin _ _ (List.range (bound + 1)) (hstep bound) none, hbox]
      | some b =>
        by_cases hbp : b ≤ ps
        · show (match (if b ≤ ps then none else some (min bound (b - ps - 1)) :
              Option Nat) with
            | none => some b
            | some maxValue => (List.range (maxValue + 1)).foldl _ (some b)) = _
          rw [if_pos hbp]
          refine (omin_absorb b _ ?_).symm
          intro x hx t hxt
          obtain ⟨vals, hvals, rfl⟩ := List.mem_map.mp hx
          have := leafFor_ge ub vals rows index ps t hxt
          omega
        · show (match (if b ≤ ps then none else some (min bound (b - ps - 1)) :
              Option Nat) with
            | none => some b
            | some maxValue => (List.range (maxValue + 1)).foldl
                (fun acc value =>
                  if feasibleAll (if value = 0 then rows else addContrib rows index value)
                      (index + 1) = true
                  then dfs ub rest (ps + value)
                    (if value = 0 then rows else addContrib rows index value) (index + 1) acc
                  else acc) (some b)) = _
          rw [if_neg hbp]
          show (List.range (min bound (b - ps - 1) + 1)).foldl _ (some b) = _
          rw [foldl_omin _ _ (List.range (min bound (b - ps - 1) + 1))
            (hstep (min bound (b - ps - 1))) (some b), hbox]
          have hsplit : bound + 1 = (min bound (b - ps - 1) + 1) +
              (bound - min bound (b - ps - 1)) := by omega
          conv_rhs => rw [hsplit, List.range_add, List.map_append, ominList_append]
          refine (omin_absorb_right b _ _ (omin_absorb b _ ?_)).symm
          intro x hx t hxt
          obtain ⟨v0, hv0, rfl⟩ := List.mem_map.mp hx
          obtain ⟨y, hy, rfl⟩ := List.mem_map.mp hv0
          have hylt := List.mem_range.mp hy
          have hge : ∀ t2, ominList ((boxTuples rest).map fun vs =>
              leafFor ub vs (if min bound (b - ps - 1) + 1 + y = 0 then rows
                else addContrib rows index (min bound (b - ps - 1) + 1 + y)) (index + 1)
                (ps + (min bound (b - ps - 1) + 1 + y))) = some t2 →
              ps + (min bound (b - ps - 1) + 1 + y) ≤ t2 := by
            refine ominList_ge (ps + (min bound (b - ps - 1) + 1 + y)) _ ?_
            intro z hz t2 hzt
            obtain ⟨vs, hvs, rfl⟩ := List.mem_map.mp hz
            exact leafFor_ge ub vs _ (index + 1) (ps + (min bound (b - ps - 1) + 1 + y)) t2 hzt
          have := hge t hxt
          omega

/-! ### Assembling the search correctness -/

/-- Two reduced fractions with the same rational value are equal. -/
theorem reduced_toRat_inj (a b : Fraction) (ha : a.Reduced) (hb : b.Reduced)
    (h : a.toRat = b.toRat) : a = b := by
  obtain ⟨had, hag, -⟩ := ha
  obtain ⟨hbd, hbg, -⟩ := hb
  unfold Fraction.toRat at h
  have had2 : (a.den : ℚ) ≠ 0 := Int.cast_ne_zero.mpr (by omega)
  have hbd2 : (b.den : ℚ) ≠ 0 := Int.cast_ne_zero.mpr (by omega)
  have hcross : a.num * b.den = b.num * a.den := by
    field_simp at h
    exact_mod_cast h
  have hco1 : IsCoprime (a.den : Int) a.num := by
    refine Int.gcd_eq_one_iff_coprime.mp ?_
    rw [Int.gcd_comm]
    exact hag
  have hco2 : IsCoprime (b.den : Int) b.num := by
    refine Int.gcd_eq_one_iff_coprime.mp ?_
    rw [Int.gcd_comm]
    exact hbg
  have hdvd1 : a.den ∣ b.den := by
    refine hco1.dvd_of_dvd_mul_left ⟨b.num, ?_⟩
    rw [hcross]
    ring
  have hdvd2 : b.den ∣ a.den := by
    refine hco2.dvd_of_dvd_mul_left ⟨a.num, ?_⟩
    rw [← hcross]
    ring
  have hden : a.den = b.den := Int.dvd_antisymm (by omega) (by omega) hdvd1 hdvd2
  have hnum : a.num = b.num := by
    have := hcross
    rw [hden] at this
    exact mul_right_cancel₀ (by omega) this
  cases a
  cases b
  simp only at hden hnum
  rw [hden, hnum]

/-- Subtracting the canonical zero is the identity on reduced fractions. -/
theorem sub_ZERO_eq (a : Fraction) (ha : a.Reduced) : a.sub Fraction.ZERO = a :=
  reduced_toRat_inj _ _
    (Fraction.sub_reduced a Fraction.ZERO ha.den_ne (by decide)) ha
    (by rw [Fraction.toRat_sub a Fraction.ZERO ha.den_ne (by decide), Fraction.toRat_ZERO]; ring)

/-- A defined list minimum is attained by an element. -/
theorem ominList_attained : ∀ (l : List (Option Nat)) (t : Nat),
    ominList l = some t → some t ∈ l := by
  intro l
  induction l with
  | nil =>
    intro t ht
    simp [ominList] at ht
  | cons x xs ih =>
    intro t ht
    have ht2 : omin x (ominList xs) = some t := ht
    cases hx : x with
    | none =>
      rw [hx, omin_none_left] at ht2
      exact List.mem_cons_of_mem _ (ih t ht2)
    | some a =>
      cases hxs : ominList xs with
      | none =>
        rw [hx, hxs, omin_none_right] at ht2
        simp only [Option.some.injEq] at ht2
        rw [← ht2]
        exact List.mem_cons_self _ _
      | some c =>
        rw [hx, hxs] at ht2
        simp only [omin, Option.some.injEq] at ht2
        rcases le_total a c with hac | hca
        · have hta : t = a := by omega
          rw [hta]
          exact List.mem_cons_self _ _
        · have htc : t = c := by omega
          refine List.mem_cons_of_mem _ (ih t ?_)
          rw [hxs, htc]

/-- The list minimum is at most any defined element. -/
theorem ominList_le : ∀ (l : List (Option Nat)) (x : Option Nat) (t : Nat),
    x ∈ l → x = some t → ∃ t2, ominList l = some t2 ∧ t2 ≤ t := by
  intro l
  induction l with
  | nil =>
    intro x t hx _
    exact absurd hx (List.not_mem_nil x)
  | cons y ys ih =>
    intro x t hx hxt
    have hshape : ominList (y :: ys) = omin y (ominList ys) := rfl
    rcases List.mem_cons.mp hx with h1 | h2
    · rw [hshape, ← h1, hxt]
      cases hos : ominList ys with
      | none => exact ⟨t, by rw [omin_none_right], le_rfl⟩
      | some c => exact ⟨min t c, rfl, min_le_left t c⟩
    · obtain ⟨t2, h2a, h2b⟩ := ih x t h2 hxt
      rw [hshape, h2a]
      cases y with
      | none => exact ⟨t2, rfl, h2b⟩
      | some a => exact ⟨min a t2, rfl, le_trans (min_le_right a t2) h2b⟩

/-- Summing a list's entries by position. -/
theorem list_sum_getD (l : List Nat) :
    ∑ b ∈ Finset.range l.length, l.getD b 0 = l.sum := by
  rw [finset_sum_eq_list_sum, map_getD_range_self]

/-- Splitting a positional sum by a predicate on the positions. -/
theorem sum_split_filter {M : Type} [AddCommMonoid M] (B : Nat) (p : Nat → Bool) (g : Nat → M) :
    ((List.range B).map g).sum =
      (((List.range B).filter p).map g).sum +
        (((List.range B).filter (fun c => !p c)).map g).sum := by
  have hperm := (List.filter_append_perm p (List.range B)).map g
  rw [← hperm.sum_eq, List.map_append, List.sum_append]

/-- Composing a map with positional lookup. -/
theorem map_comp_getD_range {M : Type} (l : List Nat) (h : Nat → M) :
    (List.range l.length).map (fun j => h (l.getD j 0)) = l.map h := by
  conv_rhs => rw [← map_getD_range_self l 0]
  rw [List.map_map]
  rfl

/-- The pivot column of each of the first `k` rows: its defaulted lookup is the
actual pivot, it is a real column, its pivot entry is `1`, and its other entries
are `0`. -/
theorem pivot_col_spec (mtx : Mat) (piv : Nat → Option Nat) (T B k : Nat)
    (ho : RrefOutcome mtx piv T B k) (r : Nat) (hr : r < k) :
    piv r = some ((piv r).getD 0) ∧ (piv r).getD 0 < B ∧
    (mtx r ((piv r).getD 0)).toRat = 1 ∧
    (∀ r2, r2 < T → r2 ≠ r → (mtx r2 ((piv r).getD 0)).toRat = 0) := by
  obtain ⟨c, hc, hpc, h1, h0⟩ := ho.piv_some r hr
  rw [hpc]
  simp only [Option.getD_some]
  exact ⟨trivial, hc, h1, h0⟩

/-- The pivot columns of distinct rows are distinct. -/
theorem pivotCols_nodup (mtx : Mat) (piv : Nat → Option Nat) (T B k : Nat)
    (ho : RrefOutcome mtx piv T B k) :
    ((List.range k).map fun r => (piv r).getD 0).Nodup := by
  refine (List.nodup_range k).map_on ?_
  intro r1 h1 r2 h2 heq
  rw [List.mem_range] at h1 h2
  by_contra hne
  rcases Nat.lt_or_ge r1 r2 with hlt | hge
  · have hc1 := (pivot_col_spec mtx piv T B k ho r1 h1).1
    have hc2 := (pivot_col_spec mtx piv T B k ho r2 h2).1
    have := ho.piv_mono r1 r2 ((piv r1).getD 0) ((piv r2).getD 0) hlt h2 hc1 hc2
    omega
  · have hlt : r2 < r1 := by omega
    have hc1 := (pivot_col_spec mtx piv T B k ho r1 h1).1
    have hc2 := (pivot_col_spec mtx piv T B k ho r2 h2).1
    have := ho.piv_mono r2 r1 ((piv r2).getD 0) ((piv r1).getD 0) hlt h1 hc2 hc1
    omega

/-- Row `r`'s equation, solved for its pivot variable: the pivot value plus the
free-column contributions equals the right-hand side. -/
theorem pivot_row_eq (mtx : Mat) (piv : Nat → Option Nat) (T B k : Nat)
    (ho : RrefOutcome mtx piv T B k)
    (x : Nat → ℚ) (hsat : Sat mtx T B x) (r : Nat) (hr : r < k) :
    x ((piv r).getD 0) +
      ((((List.range B).filter fun c =>
          !(((List.range k).map fun r2 => (piv r2).getD 0).contains c)).map
        fun c => (mtx r c).toRat * x c).sum) = (mtx r B).toRat := by
  have hrT : r < T := lt_of_lt_of_le hr ho.k_le
  have hrow := hsat r hrT
  unfold RowEq at hrow
  rw [finset_sum_eq_list_sum] at hrow
  rw [sum_split_filter B (fun c => ((List.range k).map fun r2 => (piv r2).getD 0).contains c)
    (fun c => (mtx r c).toRat * x c)] at hrow
  obtain ⟨hpr, hcB, h1, h0⟩ := pivot_col_spec mtx piv T B k ho r hr
  have hnd := pivotCols_nodup mtx piv T B k ho
  have hpermpc : List.Perm ((List.range B).filter fun c =>
      ((List.range k).map fun r2 => (piv r2).getD 0).contains c)
      ((List.range k).map fun r2 => (piv r2).getD 0) := by
    refine (List.perm_ext_iff_of_nodup ((List.nodup_range B).filter _) hnd).mpr ?_
    intro a
    rw [List.mem_filter]
    constructor
    · rintro ⟨-, hc⟩
      simpa using hc
    · intro ha
      refine ⟨?_, by simpa using ha⟩
      obtain ⟨r2, hr2, rfl⟩ := List.mem_map.mp ha
      rw [List.mem_range]
      exact (pivot_col_spec mtx piv T B k ho r2 (by simpa using hr2)).2.1
  have hsum_piv : (((List.range B).filter fun c =>
      ((List.range k).map fun r2 => (piv r2).getD 0).contains c).map
      fun c => (mtx r c).toRat * x c).sum = x ((piv r).getD 0) := by
    rw [(hpermpc.map fun c => (mtx r c).toRat * x c).sum_eq]
    rw [sum_map_eq_single _ _ ((piv r).getD 0) hnd
      (List.mem_map_of_mem _ (List.mem_range.mpr hr)) ?_]
    · rw [h1, one_mul]
    · intro b hb hbne
      obtain ⟨r2, hr2, rfl⟩ := List.mem_map.mp hb
      rw [List.mem_range] at hr2
      have hr2ne : r ≠ r2 := by
        intro hrr
        exact hbne (by rw [hrr])
      rw [(pivot_col_spec mtx piv T B k ho r2 hr2).2.2.2 r hrT hr2ne]
      ring
  rw [hsum_piv] at hrow
  exact hrow

/-- A sum over sorted positions of a function of the looked-up column equals the
sum over the free columns themselves. -/
theorem order_map_sum {M : Type} [AddCommMonoid M] (fc order : List Nat)
    (h : List.Perm order (List.range fc.length)) (g : Nat → M) :
    ((List.range fc.length).map fun j => g (fc.getD (order.getD j 0) 0)).sum =
      (fc.map g).sum := by
  have hlen : order.length = fc.length := by simpa using h.length_eq
  have h1 : (List.range fc.length).map (fun j => g (fc.getD (order.getD j 0) 0)) =
      order.map (fun o => g (fc.getD o 0)) := by
    rw [← hlen]
    exact map_comp_getD_range order (fun o => g (fc.getD o 0))
  rw [h1, (h.map fun o => g (fc.getD o 0)).sum_eq, ← map_comp_getD_range fc g]

/-- The initial search rows (pivot records with coefficient and suffix tables
attached, and zero assigned contributions) satisfy the search-state coherence
predicate. -/
theorem rowsOK_initial (mtx : Mat) (piv : Nat → Option Nat) (B k : Nat)
    (hmred : MatReduced mtx) (ub fc order fb : List Nat)
    (hordlen : order.length = fc.length) (hfblen : fb.length = fc.length) :
    RowsOK ub fb ((List.range k).map fun r =>
      (attachCoeffs mtx fc order fb (mkPivotRow mtx B ub r ((piv r).getD 0)),
        Fraction.ZERO)) := by
  intro ra hra
  obtain ⟨r, hrmem, rfl⟩ := List.mem_map.mp hra
  have hredc : ∀ f ∈ (order.map fun idx =>
      mtx (mkPivotRow mtx B ub r ((piv r).getD 0)).sourceRow (fc.getD idx 0)), f.Reduced := by
    intro f hf
    obtain ⟨idx, hidx, rfl⟩ := List.mem_map.mp hf
    exact hmred _ _
  have hsuf := suffixTables_spec (order.map fun idx =>
    mtx (mkPivotRow mtx B ub r ((piv r).getD 0)).sourceRow (fc.getD idx 0)) fb hredc
  have hminlen : min (order.map fun idx =>
      mtx (mkPivotRow mtx B ub r ((piv r).getD 0)).sourceRow (fc.getD idx 0)).length
      fb.length = fb.length := by
    rw [List.length_map, hordlen, hfblen, Nat.min_self]
  refine ⟨hmred r B, Fraction.ZERO_reduced,
    Fraction.sub_reduced _ _ (hmred r B).den_ne (Fraction.fromInt_reduced _).den_ne,
    hmred r B, ?_, ?_, ?_, ?_, rfl, ?_, ?_⟩
  · intro j
    by_cases hj : j < order.length
    · rw [show (attachCoeffs mtx fc order fb
        (mkPivotRow mtx B ub r ((piv r).getD 0)), Fraction.ZERO).1.coeffs =
          (order.map fun idx =>
            mtx (mkPivotRow mtx B ub r ((piv r).getD 0)).sourceRow (fc.getD idx 0)) from rfl,
        getD_map_lt _ order j hj Fraction.ZERO 0]
      exact hmred _ _
    · rw [List.getD_eq_default]
      · exact Fraction.ZERO_reduced
      · show (order.map fun idx =>
          mtx (mkPivotRow mtx B ub r ((piv r).getD 0)).sourceRow (fc.getD idx 0)).length ≤ j
        simpa using hj
  · intro j
    exact (hsuf j).1
  · intro j
    exact (hsuf j).2.1
  · rw [show (attachCoeffs mtx fc order fb
      (mkPivotRow mtx B ub r ((piv r).getD 0)), Fraction.ZERO).1.minAllowed =
        (mtx r B).sub (Fraction.fromInt ((ub.getD ((piv r).getD 0) 0 : Nat) : Int)) from rfl]
    rw [Fraction.toRat_sub _ _ (hmred r B).den_ne (Fraction.fromInt_reduced _).den_ne,
      Fraction.toRat_fromInt]
    push_cast
    rfl
  · intro idx
    have := (hsuf idx).2.2.1
    rw [hminlen] at this
    exact this
  · intro idx
    have := (hsuf idx).2.2.2
    rw [hminlen] at this
    exact this

/-- Distinct rows have distinct pivot columns. -/
theorem pivot_col_inj (mtx : Mat) (piv : Nat → Option Nat) (T B k : Nat)
    (ho : RrefOutcome mtx piv T B k) : ∀ i1, i1 < k → ∀ i2, i2 < k →
    (piv i1).getD 0 = (piv i2).getD 0 → i1 = i2 := by
  intro i1 h1 i2 h2 he
  by_contra hne
  rcases Nat.lt_or_ge i1 i2 with hlt | hge
  · have hc1 := (pivot_col_spec mtx piv T B k ho i1 h1).1
    have hc2 := (pivot_col_spec mtx piv T B k ho i2 h2).1
    have := ho.piv_mono i1 i2 ((piv i1).getD 0) ((piv i2).getD 0) hlt h2 hc1 hc2
    omega
  · have hlt : i2 < i1 := by omega
    have hc1 := (pivot_col_spec mtx piv T B k ho i1 h1).1
    have hc2 := (pivot_col_spec mtx piv T B k ho i2 h2).1
    have := ho.piv_mono i2 i1 ((piv i2).getD 0) ((piv i1).getD 0) hlt h1 hc2 hc1
    omega

/-- The columns of `0..B` that are pivot columns are exactly the pivot-column
list, up to permutation. -/
theorem perm_filter_pivotCols (mtx : Mat) (piv : Nat → Option Nat) (T B k : Nat)
    (ho : RrefOutcome mtx piv T B k) :
    List.Perm ((List.range B).filter fun c =>
        ((List.range k).map fun r2 => (piv r2).getD 0).contains c)
      ((List.range k).map fun r2 => (piv r2).getD 0) := by
  refine (List.perm_ext_iff_of_nodup ((List.nodup_range B).filter _)
    (pivotCols_nodup mtx piv T B k ho)).mpr ?_
  intro a
  rw [List.mem_filter]
  constructor
  · rintro ⟨-, hc⟩
    simpa using hc
  · intro ha
    refine ⟨?_, by simpa using ha⟩
    obtain ⟨r2, hr2, rfl⟩ := List.mem_map.mp ha
    rw [List.mem_range]
    exact (pivot_col_spec mtx piv T B k ho r2 (by simpa using hr2)).2.1

/-- A full row sum splits into the pivot variable plus the free-column
contributions. -/
theorem row_sum_split (mtx : Mat) (piv : Nat → Option Nat) (T B k : Nat)
    (ho : RrefOutcome mtx piv T B k) (x : Nat → ℚ) (r : Nat) (hr : r < k) :
    ∑ c ∈ Finset.range B, (mtx r c).toRat * x c =
      x ((piv r).getD 0) +
        ((((List.range B).filter fun c =>
          !(((List.range k).map fun r2 => (piv r2).getD 0).contains c)).map
            fun c => (mtx r c).toRat * x c).sum) := by
  have hrT : r < T := lt_of_lt_of_le hr ho.k_le
  rw [finset_sum_eq_list_sum]
  rw [sum_split_filter B (fun c => ((List.range k).map fun r2 => (piv r2).getD 0).contains c)
    (fun c => (mtx r c).toRat * x c)]
  obtain ⟨hpr, hcB, h1, h0⟩ := pivot_col_spec mtx piv T B k ho r hr
  have hnd := pivotCols_nodup mtx piv T B k ho
  congr 1
  rw [((perm_filter_pivotCols mtx piv T B k ho).map fun c => (mtx r c).toRat * x c).sum_eq]
  rw [sum_map_eq_single _ _ ((piv r).getD 0) hnd
    (List.mem_map_of_mem _ (List.mem_range.mpr hr)) ?_]
  · rw [h1, one_mul]
  · intro b hb hbne
    obtain ⟨r2, hr2, rfl⟩ := List.mem_map.mp hb
    rw [List.mem_range] at hr2
    have hr2ne : r ≠ r2 := by
      intro hrr
      exact hbne (by rw [hrr])
    rw [(pivot_col_spec mtx piv T B k ho r2 hr2).2.2.2 r hrT hr2ne]
    ring

/-- Members of the free-column list are real columns. -/
theorem fc_lt_B (B k : Nat) (pc : List Nat)
    (c : Nat) (hc : c ∈ (List.range B).filter fun col => !(pc.contains col)) : c < B := by
  have := (List.mem_filter.mp hc).1
  simpa using this

/-- Members of the free-column list are not pivot columns. -/
theorem fc_not_pivot (B : Nat) (pc : List Nat)
    (c : Nat) (hc : c ∈ (List.range B).filter fun col => !(pc.contains col)) : ¬ (c ∈ pc) := by
  have := (List.mem_filter.mp hc).2
  simpa using this

/-- A sum of looked-up-column values over the sorted positions equals the sum
over the free columns. -/
theorem fc_map_sum_eq {M : Type} [AddCommMonoid M] (fc order : List Nat)
    (horder : List.Perm order (List.range fc.length)) (g : Nat → M) :
    ∑ j ∈ Finset.range fc.length, g (fc.getD (order.getD j 0) 0) = (fc.map g).sum := by
  rw [finset_sum_eq_list_sum]
  exact order_map_sum fc order horder g

/-- Sorted positions index into the free-column list. -/
theorem ord_getD_lt (fc order : List Nat) (horder : List.Perm order (List.range fc.length))
    (j : Nat) (hj : j < fc.length) : order.getD j 0 < fc.length := by
  have hlen : order.length = fc.length := by simpa using horder.length_eq
  have hmem : order.getD j 0 ∈ order := by
    rw [List.getD_eq_getElem?_getD, List.getElem?_eq_getElem (by omega)]
    exact List.getElem_mem (by omega)
  have := horder.mem_iff.mp hmem
  simpa using this

/-- The looked-up free column of a sorted position is a free column. -/
theorem colOf_mem (fc order : List Nat) (horder : List.Perm order (List.range fc.length))
    (j : Nat) (hj : j < fc.length) : fc.getD (order.getD j 0) 0 ∈ fc := by
  have := ord_getD_lt fc order horder j hj
  rw [List.getD_eq_getElem?_getD, List.getElem?_eq_getElem this]
  exact List.getElem_mem this

/-- Distinct sorted positions look up distinct free columns. -/
theorem colOf_inj (fc order : List Nat) (hnd : fc.Nodup)
    (horder : List.Perm order (List.range fc.length))
    (j1 j2 : Nat) (h1 : j1 < fc.length) (h2 : j2 < fc.length)
    (he : fc.getD (order.getD j1 0) 0 = fc.getD (order.getD j2 0) 0) : j1 = j2 := by
  have hlen : order.length = fc.length := by simpa using horder.length_eq
  have hondup : order.Nodup := horder.nodup_iff.mpr (List.nodup_range fc.length)
  have ho1 := ord_getD_lt fc order horder j1 h1
  have ho2 := ord_getD_lt fc order horder j2 h2
  have hoeq : order.getD j1 0 = order.getD j2 0 := by
    rw [List.getD_eq_getElem fc 0 ho1, List.getD_eq_getElem fc 0 ho2] at he
    exact hnd.getElem_inj_iff.mp he
  rw [List.getD_eq_getElem order 0 (show j1 < order.length by omega)] at hoeq
  rw [List.getD_eq_getElem order 0 (show j2 < order.length by omega)] at hoeq
  exact hondup.getElem_inj_iff.mp hoeq

/-- From an accepted search leaf, a configuration of the same total that
satisfies the built system. -/
theorem search_leaf_sound (sets : List (List Nat)) (targets : List Nat) (mtx : Mat)
    (piv : Nat → Option Nat) (k : Nat)
    (ho : RrefOutcome mtx piv targets.length sets.length k)
    (hzero : ∀ r, k ≤ r → r < targets.length → (mtx r sets.length).toRat = 0)
    (ub fc order fb : List Nat)
    (hfc : fc = (List.range sets.length).filter fun col =>
      !(((List.range k).map fun r2 => (piv r2).getD 0).contains col))
    (horder : List.Perm order (List.range fc.length))
    (hfblen : fb.length = fc.length)
    (hOK : RowsOK ub fb ((List.range k).map fun r =>
      (attachCoeffs mtx fc order fb (mkPivotRow mtx sets.length ub r ((piv r).getD 0)),
        Fraction.ZERO)))
    (vals : List Nat) (t : Nat) (hvlen : vals.length = fb.length)
    (hleaf : leafFor ub vals ((List.range k).map fun r =>
      (attachCoeffs mtx fc order fb (mkPivotRow mtx sets.length ub r ((piv r).getD 0)),
        Fraction.ZERO)) 0 0 = some t) :
    ∃ cfg : List Nat, cfg.length = sets.length ∧
      Sat mtx targets.length sets.length (cfgQ cfg) ∧ cfg.sum = t := by
  obtain ⟨hall, htot⟩ := (leafFor_some_iff ub fb vals 0
    ((List.range k).map fun r =>
      (attachCoeffs mtx fc order fb (mkPivotRow mtx sets.length ub r ((piv r).getD 0)),
        Fraction.ZERO)) 0 t hOK).mp hleaf
  have hlen0 : ((List.range k).map fun r =>
      (attachCoeffs mtx fc order fb (mkPivotRow mtx sets.length ub r ((piv r).getD 0)),
        Fraction.ZERO)).length = k := by simp
  rw [hlen0] at hall htot
  have hgd : ∀ i, i < k → ((List.range k).map fun r =>
      (attachCoeffs mtx fc order fb (mkPivotRow mtx sets.length ub r ((piv r).getD 0)),
        Fraction.ZERO)).getD i dRA =
      (attachCoeffs mtx fc order fb (mkPivotRow mtx sets.length ub i ((piv i).getD 0)),
        Fraction.ZERO) := by
    intro i hi
    rw [getD_map_lt _ _ i (by simpa using hi) dRA 0, getD_range_lt k i hi]
  have hordlen : order.length = fc.length := by simpa using horder.length_eq
  have hvlen2 : vals.length = fc.length := by omega
  have hproj2 : ∀ i : Nat, (attachCoeffs mtx fc order fb (mkPivotRow mtx sets.length ub i
      ((piv i).getD 0)), Fraction.ZERO).2 = Fraction.ZERO := fun _ => rfl
  have hprojrhs : ∀ i : Nat, (attachCoeffs mtx fc order fb (mkPivotRow mtx sets.length ub i
      ((piv i).getD 0)), Fraction.ZERO).1.rhs = mtx i sets.length := fun _ => rfl
  have hprojpc : ∀ i : Nat, (attachCoeffs mtx fc order fb (mkPivotRow mtx sets.length ub i
      ((piv i).getD 0)), Fraction.ZERO).1.pivotCol = (piv i).getD 0 := fun _ => rfl
  have hsum_eq : ∀ i, i < k →
      (∑ j ∈ Finset.range vals.length,
        ((attachCoeffs mtx fc order fb (mkPivotRow mtx sets.length ub i ((piv i).getD 0)),
          Fraction.ZERO).1.coeffs.getD (0 + j) Fraction.ZERO).toRat * (vals.getD j 0 : ℚ)) =
      ∑ j ∈ Finset.range fc.length,
        (mtx i (fc.getD (order.getD j 0) 0)).toRat * (vals.getD j 0 : ℚ) := by
    intro i hi
    rw [hvlen2]
    refine Finset.sum_congr rfl ?_
    intro j hj
    have hjlt := Finset.mem_range.mp hj
    congr 2
    rw [show (attachCoeffs mtx fc order fb (mkPivotRow mtx sets.length ub i
        ((piv i).getD 0)), Fraction.ZERO).1.coeffs =
        order.map (fun idx => mtx i (fc.getD idx 0)) from rfl]
    rw [Nat.zero_add, getD_map_lt _ order j (by omega) Fraction.ZERO 0]
  have hall2 : ∀ i, i < k → ∃ n : ℕ, (n : ℚ) = (mtx i sets.length).toRat -
      (∑ j ∈ Finset.range fc.length,
        (mtx i (fc.getD (order.getD j 0) 0)).toRat * (vals.getD j 0 : ℚ)) ∧
      n ≤ ub.getD ((piv i).getD 0) 0 := by
    intro i hi
    obtain ⟨n, hn1, hn2⟩ := hall i hi
    rw [hgd i hi] at hn1 hn2
    rw [hproj2 i, hprojrhs i, Fraction.toRat_ZERO, sub_zero, hsum_eq i hi] at hn1
    rw [hprojpc i] at hn2
    exact ⟨n, hn1, hn2⟩
  have htot2 : (t : ℚ) = (vals.sum : ℚ) + ∑ i ∈ Finset.range k,
      ((mtx i sets.length).toRat -
        ∑ j ∈ Finset.range fc.length,
          (mtx i (fc.getD (order.getD j 0) 0)).toRat * (vals.getD j 0 : ℚ)) := by
    rw [htot, Nat.cast_zero, zero_add]
    congr 1
    refine Finset.sum_congr rfl ?_
    intro i hi2
    have hi := Finset.mem_range.mp hi2
    rw [hgd i hi, hproj2 i, hprojrhs i, Fraction.toRat_ZERO, sub_zero, hsum_eq i hi]
  choose N hN1 hN2 using hall2
  have hciB : ∀ i, i < k → (piv i).getD 0 < sets.length :=
    fun i hi => (pivot_col_spec mtx piv targets.length sets.length k ho i hi).2.1
  have hfcnd : fc.Nodup := by
    rw [hfc]
    exact (List.nodup_range _).filter _
  set f : Nat → Nat := fun c =>
    (∑ i ∈ Finset.range k,
      if (piv i).getD 0 = c then (if h : i < k then N i h else 0) else 0) +
    (∑ j ∈ Finset.range fc.length,
      if fc.getD (order.getD j 0) 0 = c then vals.getD j 0 else 0) with hfdef
  have hcfg_getD : ∀ c, c < sets.length → ((List.range sets.length).map f).getD c 0 = f c := by
    intro c hc
    rw [getD_map_lt f _ c (by simpa using hc) 0 0, getD_range_lt _ c hc]
  have hcfgQ : ∀ c, c < sets.length →
      cfgQ ((List.range sets.length).map f) c = (f c : ℚ) := by
    intro c hc
    unfold cfgQ
    rw [hcfg_getD c hc]
  have hdisj : ∀ i, i < k → ∀ j, j < fc.length →
      (piv i).getD 0 ≠ fc.getD (order.getD j 0) 0 := by
    intro i hi j hj heq
    have h1 : fc.getD (order.getD j 0) 0 ∈ fc := colOf_mem fc order horder j hj
    nth_rewrite 1 [hfc] at h1
    refine fc_not_pivot sets.length _ _ h1 ?_
    rw [← heq]
    exact List.mem_map_of_mem _ (List.mem_range.mpr hi)
  have hfp : ∀ i (hi : i < k), f ((piv i).getD 0) = N i hi := by
    intro i hi
    show (∑ i2 ∈ Finset.range k, if (piv i2).getD 0 = (piv i).getD 0 then
        (if h : i2 < k then N i2 h else 0) else 0) +
      (∑ j ∈ Finset.range fc.length,
        if fc.getD (order.getD j 0) 0 = (piv i).getD 0 then vals.getD j 0 else 0) = N i hi
    have hz : (∑ j ∈ Finset.range fc.length,
        if fc.getD (order.getD j 0) 0 = (piv i).getD 0 then vals.getD j 0 else 0) = 0 := by
      refine Finset.sum_eq_zero ?_
      intro j hj2
      refine if_neg ?_
      intro heq
      exact hdisj i hi j (Finset.mem_range.mp hj2) heq.symm
    have hone : (∑ i2 ∈ Finset.range k, if (piv i2).getD 0 = (piv i).getD 0 then
        (if h : i2 < k then N i2 h else 0) else 0) = (if h : i < k then N i h else 0) := by
      refine (Finset.sum_eq_single_of_mem i (Finset.mem_range.mpr hi) ?_).trans ?_
      · intro i2 hi2 hne
        exact if_neg fun heq => hne (pivot_col_inj mtx piv targets.length sets.length k ho
          i2 (Finset.mem_range.mp hi2) i hi heq)
      · rw [if_pos rfl]
    rw [hz, hone, dif_pos hi, Nat.add_zero]
  have hff : ∀ j, j < fc.length → f (fc.getD (order.getD j 0) 0) = vals.getD j 0 := by
    intro j hj
    show (∑ i ∈ Finset.range k, if (piv i).getD 0 = fc.getD (order.getD j 0) 0 then
        (if h : i < k then N i h else 0) else 0) +
      (∑ j2 ∈ Finset.range fc.length,
        if fc.getD (order.getD j2 0) 0 = fc.getD (order.getD j 0) 0 then
          vals.getD j2 0 else 0) = vals.getD j 0
    have hz : (∑ i ∈ Finset.range k, if (piv i).getD 0 = fc.getD (order.getD j 0) 0 then
        (if h : i < k then N i h else 0) else 0) = 0 := by
      refine Finset.sum_eq_zero ?_
      intro i hi2
      exact if_neg (hdisj i (Finset.mem_range.mp hi2) j hj)
    have hone : (∑ j2 ∈ Finset.range fc.length,
        if fc.getD (order.getD j2 0) 0 = fc.getD (order.getD j 0) 0 then
          vals.getD j2 0 else 0) = vals.getD j 0 := by
      refine (Finset.sum_eq_single_of_mem j (Finset.mem_range.mpr hj) ?_).trans ?_
      · intro j2 hj2 hne
        exact if_neg fun heq =>
          hne (colOf_inj fc order hfcnd horder j2 j (Finset.mem_range.mp hj2) hj heq)
      · rw [if_pos rfl]
    rw [hz, hone, Nat.zero_add]
  refine ⟨(List.range sets.length).map f, by simp, ?_, ?_⟩
  · intro r hrT
    unfold RowEq
    by_cases hrk : r < k
    · rw [row_sum_split mtx piv targets.length sets.length k ho _ r hrk]
      rw [← hfc]
      have hfree : (fc.map fun c => (mtx r c).toRat *
          cfgQ ((List.range sets.length).map f) c).sum =
          ∑ j ∈ Finset.range fc.length,
            (mtx r (fc.getD (order.getD j 0) 0)).toRat * (vals.getD j 0 : ℚ) := by
        rw [← fc_map_sum_eq fc order horder]
        refine Finset.sum_congr rfl ?_
        intro j hj2
        have hj := Finset.mem_range.mp hj2
        have hcB : fc.getD (order.getD j 0) 0 < sets.length := by
          have h1 := colOf_mem fc order horder j hj
          nth_rewrite 1 [hfc] at h1
          exact fc_lt_B sets.length k _ _ h1
        rw [hcfgQ _ hcB, hff j hj]
      rw [hfree]
      have hpv : cfgQ ((List.range sets.length).map f) ((piv r).getD 0) =
          ((N r hrk : ℕ) : ℚ) := by
        rw [hcfgQ _ (hciB r hrk), hfp r hrk]
      rw [hpv, hN1 r hrk]
      ring
    · have hkr : k ≤ r := by omega
      have hz : ∀ c ∈ Finset.range sets.length,
          (mtx r c).toRat * cfgQ ((List.range sets.length).map f) c = 0 := by
        intro c hc2
        rw [ho.tail_zero r hkr hrT c (Finset.mem_range.mp hc2)]
        ring
      rw [Finset.sum_eq_zero hz, hzero r hkr hrT]
  · have hsum1 : ((List.range sets.length).map f).sum =
        (∑ i ∈ Finset.range k, (if h : i < k then N i h else 0)) + vals.sum := by
      rw [← finset_sum_eq_list_sum]
      have hexp : ∀ c, f c =
          (∑ i ∈ Finset.range k,
            if (piv i).getD 0 = c then (if h : i < k then N i h else 0) else 0) +
          (∑ j ∈ Finset.range fc.length,
            if fc.getD (order.getD j 0) 0 = c then vals.getD j 0 else 0) := fun c => rfl
      calc ∑ c ∈ Finset.range sets.length, f c
          = (∑ c ∈ Finset.range sets.length, ∑ i ∈ Finset.range k,
              if (piv i).getD 0 = c then (if h : i < k then N i h else 0) else 0) +
            (∑ c ∈ Finset.range sets.length, ∑ j ∈ Finset.range fc.length,
              if fc.getD (order.getD j 0) 0 = c then vals.getD j 0 else 0) := by
            rw [← Finset.sum_add_distrib]
            all_goals exact Finset.sum_congr rfl fun c _ => hexp c
        _ = (∑ i ∈ Finset.range k, (if h : i < k then N i h else 0)) + vals.sum := by
            congr 1
            · rw [Finset.sum_comm]
              refine Finset.sum_congr rfl ?_
              intro i hi2
              have hi := Finset.mem_range.mp hi2
              rw [Finset.sum_ite_eq (Finset.range sets.length) ((piv i).getD 0)
                (fun c => if h : i < k then N i h else 0),
                if_pos (Finset.mem_range.mpr (hciB i hi))]
            · rw [Finset.sum_comm]
              rw [show vals.sum = ∑ j ∈ Finset.range fc.length, vals.getD j 0 by
                rw [← hvlen2, list_sum_getD]]
              refine Finset.sum_congr rfl ?_
              intro j hj2
              have hj := Finset.mem_range.mp hj2
              have hcB : fc.getD (order.getD j 0) 0 < sets.length := by
                have h1 := colOf_mem fc order horder j hj
                nth_rewrite 1 [hfc] at h1
                exact fc_lt_B sets.length k _ _ h1
              rw [Finset.sum_ite_eq (Finset.range sets.length) (fc.getD (order.getD j 0) 0)
                (fun c => vals.getD j 0), if_pos (Finset.mem_range.mpr hcB)]
    have htot3 : (t : ℚ) = (vals.sum : ℚ) +
        ∑ i ∈ Finset.range k, (((if h : i < k then N i h else 0 : ℕ)) : ℚ) := by
      rw [htot2]
      congr 1
      refine Finset.sum_congr rfl ?_
      intro i hi2
      have hi := Finset.mem_range.mp hi2
      rw [dif_pos hi, ← hN1 i hi]
    have htot4 : t = vals.sum + ∑ i ∈ Finset.range k, (if h : i < k then N i h else 0) := by
      have : (t : ℚ) = ((vals.sum + ∑ i ∈ Finset.range k,
          (if h : i < k then N i h else 0) : ℕ) : ℚ) := by
        rw [htot3]
        push_cast
        ring
      exact_mod_cast this
    rw [hsum1, htot4]
    omega

/-- From a bounded satisfying configuration, an accepted search leaf with the
configuration's total. -/
theorem search_leaf_complete (sets : List (List Nat)) (targets : List Nat) (mtx : Mat)
    (piv : Nat → Option Nat) (k : Nat)
    (ho : RrefOutcome mtx piv targets.length sets.length k)
    (ub fc order fb : List Nat)
    (hfc : fc = (List.range sets.length).filter fun col =>
      !(((List.range k).map fun r2 => (piv r2).getD 0).contains col))
    (horder : List.Perm order (List.range fc.length))
    (hfblen : fb.length = fc.length)
    (hfbval : ∀ j, j < fc.length → fb.getD j 0 = ub.getD (fc.getD (order.getD j 0) 0) 0)
    (hOK : RowsOK ub fb ((List.range k).map fun r =>
      (attachCoeffs mtx fc order fb (mkPivotRow mtx sets.length ub r ((piv r).getD 0)),
        Fraction.ZERO)))
    (cfg : List Nat) (hlen : cfg.length = sets.length)
    (hsat : Sat mtx targets.length sets.length (cfgQ cfg))
    (hbnd : ∀ b, b < sets.length → cfg.getD b 0 ≤ ub.getD b 0) :
    ∃ vals, vals ∈ boxTuples fb ∧
      leafFor ub vals ((List.range k).map fun r =>
        (attachCoeffs mtx fc order fb (mkPivotRow mtx sets.length ub r ((piv r).getD 0)),
          Fraction.ZERO)) 0 0 = some cfg.sum := by
  have hordlen : order.length = fc.length := by simpa using horder.length_eq
  have hcolB : ∀ j, j < fc.length → fc.getD (order.getD j 0) 0 < sets.length := by
    intro j hj
    have h1 := colOf_mem fc order horder j hj
    nth_rewrite 1 [hfc] at h1
    exact fc_lt_B sets.length k _ _ h1
  have hvals_getD : ∀ j, j < fb.length →
      ((List.range fb.length).map fun j2 => cfg.getD (fc.getD (order.getD j2 0) 0) 0).getD
        j 0 = cfg.getD (fc.getD (order.getD j 0) 0) 0 := by
    intro j hj
    rw [getD_map_lt _ _ j (by simpa using hj) 0 0, getD_range_lt _ j hj]
  have hvalslen : ((List.range fb.length).map fun j2 =>
      cfg.getD (fc.getD (order.getD j2 0) 0) 0).length = fb.length := by simp
  refine ⟨(List.range fb.length).map fun j2 => cfg.getD (fc.getD (order.getD j2 0) 0) 0,
    ?_, ?_⟩
  · refine (boxTuples_mem fb _).mpr ⟨hvalslen, ?_⟩
    intro j hj
    rw [hvals_getD j hj, hfbval j (by omega)]
    exact hbnd _ (hcolB j (by omega))
  · have hgd : ∀ i, i < k → ((List.range k).map fun r =>
        (attachCoeffs mtx fc order fb (mkPivotRow mtx sets.length ub r ((piv r).getD 0)),
          Fraction.ZERO)).getD i dRA =
        (attachCoeffs mtx fc order fb (mkPivotRow mtx sets.length ub i ((piv i).getD 0)),
          Fraction.ZERO) := by
      intro i hi
      rw [getD_map_lt _ _ i (by simpa using hi) dRA 0, getD_range_lt k i hi]
    have hproj2 : ∀ i : Nat, (attachCoeffs mtx fc order fb (mkPivotRow mtx sets.length ub i
        ((piv i).getD 0)), Fraction.ZERO).2 = Fraction.ZERO := fun _ => rfl
    have hprojrhs : ∀ i : Nat, (attachCoeffs mtx fc order fb (mkPivotRow mtx sets.length ub i
        ((piv i).getD 0)), Fraction.ZERO).1.rhs = mtx i sets.length := fun _ => rfl
    have hprojpc : ∀ i : Nat, (attachCoeffs mtx fc order fb (mkPivotRow mtx sets.length ub i
        ((piv i).getD 0)), Fraction.ZERO).1.pivotCol = (piv i).getD 0 := fun _ => rfl
    have hsum_eq : ∀ i, i < k →
        (∑ j ∈ Finset.range ((List.range fb.length).map fun j2 =>
            cfg.getD (fc.getD (order.getD j2 0) 0) 0).length,
          ((attachCoeffs mtx fc order fb (mkPivotRow mtx sets.length ub i ((piv i).getD 0)),
            Fraction.ZERO).1.coeffs.getD (0 + j) Fraction.ZERO).toRat *
            (((List.range fb.length).map fun j2 =>
              cfg.getD (fc.getD (order.getD j2 0) 0) 0).getD j 0 : ℚ)) =
        ∑ j ∈ Finset.range fc.length,
          (mtx i (fc.getD (order.getD j 0) 0)).toRat *
            (cfg.getD (fc.getD (order.getD j 0) 0) 0 : ℚ) := by
      intro i hi
      rw [show ((List.range fb.length).map fun j2 =>
        cfg.getD (fc.getD (order.getD j2 0) 0) 0).length = fc.length from by
          simp [hfblen]]
      refine Finset.sum_congr rfl ?_
      intro j hj
      have hjlt := Finset.mem_range.mp hj
      dsimp only
      rw [hvals_getD j (by omega)]
      congr 2
      rw [show (attachCoeffs mtx fc order fb (mkPivotRow mtx sets.length ub i
          ((piv i).getD 0)), Fraction.ZERO).1.coeffs =
          order.map (fun idx => mtx i (fc.getD idx 0)) from rfl]
      rw [Nat.zero_add, getD_map_lt _ order j (by omega) Fraction.ZERO 0]
    have hfree : ∀ i, i < k → (fc.map fun c => (mtx i c).toRat * cfgQ cfg c).sum =
        ∑ j ∈ Finset.range fc.length,
          (mtx i (fc.getD (order.getD j 0) 0)).toRat *
            (cfg.getD (fc.getD (order.getD j 0) 0) 0 : ℚ) := by
      intro i hi
      rw [← fc_map_sum_eq fc order horder]
      rfl
    have hpre : ∀ i, i < k → (cfg.getD ((piv i).getD 0) 0 : ℚ) =
        (mtx i sets.length).toRat - ∑ j ∈ Finset.range fc.length,
          (mtx i (fc.getD (order.getD j 0) 0)).toRat *
            (cfg.getD (fc.getD (order.getD j 0) 0) 0 : ℚ) := by
      intro i hi
      have hrow := pivot_row_eq mtx piv targets.length sets.length k ho (cfgQ cfg) hsat i hi
      rw [← hfc] at hrow
      rw [hfree i hi] at hrow
      have hq : cfgQ cfg ((piv i).getD 0) = (cfg.getD ((piv i).getD 0) 0 : ℚ) := rfl
      rw [hq] at hrow
      linarith
    refine (leafFor_some_iff ub fb _ 0 _ 0 cfg.sum hOK).mpr ⟨?_, ?_⟩
    · intro i hi'
      have hi : i < k := by
        have hlk : ((List.range k).map fun r =>
            (attachCoeffs mtx fc order fb (mkPivotRow mtx sets.length ub r
              ((piv r).getD 0)), Fraction.ZERO)).length = k := by simp
        omega
      rw [hgd i hi, hproj2 i, hprojrhs i, hprojpc i, Fraction.toRat_ZERO, sub_zero,
        hsum_eq i hi]
      exact ⟨cfg.getD ((piv i).getD 0) 0, hpre i hi, hbnd _ ((pivot_col_spec mtx piv
        targets.length sets.length k ho i hi).2.1)⟩
    · rw [show ((List.range k).map fun r =>
        (attachCoeffs mtx fc order fb (mkPivotRow mtx sets.length ub r ((piv r).getD 0)),
          Fraction.ZERO)).length = k from by simp]
      have hS : (∑ i ∈ Finset.range k,
          ((((List.range k).map fun r =>
            (attachCoeffs mtx fc order fb (mkPivotRow mtx sets.length ub r
              ((piv r).getD 0)), Fraction.ZERO)).getD i dRA).1.rhs.toRat -
            (((List.range k).map fun r =>
              (attachCoeffs mtx fc order fb (mkPivotRow mtx sets.length ub r
                ((piv r).getD 0)), Fraction.ZERO)).getD i dRA).2.toRat -
            (∑ j ∈ Finset.range ((List.range fb.length).map fun j2 =>
                cfg.getD (fc.getD (order.getD j2 0) 0) 0).length,
              ((((List.range k).map fun r =>
                (attachCoeffs mtx fc order fb (mkPivotRow mtx sets.length ub r
                  ((piv r).getD 0)), Fraction.ZERO)).getD i dRA).1.coeffs.getD (0 + j)
                  Fraction.ZERO).toRat *
                (((List.range fb.length).map fun j2 =>
                  cfg.getD (fc.getD (order.getD j2 0) 0) 0).getD j 0 : ℚ)))) =
          ∑ i ∈ Finset.range k, (cfg.getD ((piv i).getD 0) 0 : ℚ) := by
        refine Finset.sum_congr rfl ?_
        intro i hi2
        have hi := Finset.mem_range.mp hi2
        rw [hgd i hi, hproj2 i, hprojrhs i, Fraction.toRat_ZERO, sub_zero, hsum_eq i hi,
          hpre i hi]
      rw [Nat.cast_zero, zero_add, hS]
      have hcast : ((cfg.sum : ℕ) : ℚ) =
          ∑ c ∈ Finset.range sets.length, (cfg.getD c 0 : ℚ) := by
        rw [← list_sum_getD cfg, hlen]
        push_cast
        rfl
      have hsplitQ : ∑ c ∈ Finset.range sets.length, (cfg.getD c 0 : ℚ) =
          (∑ i ∈ Finset.range k, (cfg.getD ((piv i).getD 0) 0 : ℚ)) +
          (∑ j ∈ Finset.range fc.length, (cfg.getD (fc.getD (order.getD j 0) 0) 0 : ℚ)) := by
        rw [finset_sum_eq_list_sum]
        rw [sum_split_filter sets.length (fun c =>
          ((List.range k).map fun r2 => (piv r2).getD 0).contains c)
          (fun c => (cfg.getD c 0 : ℚ))]
        congr 1
        · rw [((perm_filter_pivotCols mtx piv targets.length sets.length k ho).map
            fun c => (cfg.getD c 0 : ℚ)).sum_eq]
          rw [List.map_map, finset_sum_eq_list_sum]
          rfl
        · rw [← hfc, ← fc_map_sum_eq fc order horder]
      have hvs : ((((List.range fb.length).map fun j2 =>
          cfg.getD (fc.getD (order.getD j2 0) 0) 0).sum : ℕ) : ℚ) =
          ∑ j ∈ Finset.range fc.length, (cfg.getD (fc.getD (order.getD j 0) 0) 0 : ℚ) := by
        rw [← finset_sum_eq_list_sum, hfblen]
        push_cast
        rfl
      rw [hcast, hsplitQ, hvs]
      ring

/-- The data-model invariant of the spec: every button's counter indices are in
range. -/
def WellFormed (m : Machine) : Prop :=
  ∀ s ∈ m.buttonCounterSets, ∀ c ∈ s, c < m.joltageTargets.length

instance (m : Machine) : Decidable (WellFormed m) := by
  unfold WellFormed
  infer_instance

theorem replicate_zero_getD (n c : Nat) : (List.replicate n 0).getD c 0 = 0 := by
  by_cases h : c < n
  · rw [List.getD_eq_getElem _ _ (by simpa using h), List.getElem_replicate]
  · rw [List.getD_eq_default _ _ (by simpa using h)]

/-- With no counters, the all-zero configuration is valid with total `0`. -/
theorem empty_targets_valid (m : Machine) (h : m.joltageTargets.length = 0) :
    IsValidConfig m (List.replicate m.buttonCounterSets.length 0) ∧
      (List.replicate m.buttonCounterSets.length 0).sum = 0 := by
  refine ⟨⟨by simp, ?_⟩, by simp⟩
  intro c hc
  omega

/-- With no buttons and all-zero targets, the empty configuration is valid. -/
theorem no_buttons_valid (m : Machine) (hB : m.buttonCounterSets.length = 0)
    (hall : ∀ x ∈ m.joltageTargets, x = 0) :
    IsValidConfig m [] := by
  refine ⟨by simpa using hB.symm, ?_⟩
  intro c hc
  rw [show pressSum m.buttonCounterSets [] c = 0 from by
    rw [pressSum_eq_sum, hB]; rfl]
  have hmem : m.joltageTargets.getD c 0 ∈ m.joltageTargets := by
    rw [List.getD_eq_getElem _ _ hc]
    exact List.getElem_mem hc
  exact (hall _ hmem).symm

/-- If the reduced system is all zeros, the all-zero configuration is valid. -/
theorem zero_config_valid (m : Machine) (mtx : Mat)
    (hiff : ∀ x, Sat mtx m.joltageTargets.length m.buttonCounterSets.length x ↔
      Sat (buildAugmentedMatrix m.buttonCounterSets m.joltageTargets.length m.joltageTargets)
        m.joltageTargets.length m.buttonCounterSets.length x)
    (hzrow : ∀ r, r < m.joltageTargets.length →
      (∀ c, c < m.buttonCounterSets.length → (mtx r c).toRat = 0) ∧
        (mtx r m.buttonCounterSets.length).toRat = 0) :
    IsValidConfig m (List.replicate m.buttonCounterSets.length 0) := by
  rw [isValidConfig_iff_sat]
  refine ⟨by simp, ?_⟩
  rw [← hiff]
  intro r hr
  unfold RowEq
  rw [(hzrow r hr).2]
  refine Finset.sum_eq_zero ?_
  intro c hc
  rw [(hzrow r hr).1 c (Finset.mem_range.mp hc)]
  ring

/-- Zeroing the zero-effect buttons of a valid configuration keeps it valid, does
not increase the total, and brings every press count within its computed bound. -/
theorem zeroed_config (m : Machine) (hwf : WellFormed m) (cfg : List Nat)
    (hv : IsValidConfig m cfg) :
    ∃ cfg2, IsValidConfig m cfg2 ∧ cfg2.sum ≤ cfg.sum ∧
      cfg2.length = m.buttonCounterSets.length ∧
      ∀ b, b < m.buttonCounterSets.length →
        cfg2.getD b 0 ≤ (computeVariableUpperBounds m.buttonCounterSets
          m.joltageTargets).getD b 0 := by
  refine ⟨(List.range m.buttonCounterSets.length).map fun b =>
    if m.buttonCounterSets.getD b [] = [] then 0 else cfg.getD b 0, ?_, ?_, by simp, ?_⟩
  · refine ⟨by simp, ?_⟩
    intro c hc
    have hps : pressSum m.buttonCounterSets ((List.range m.buttonCounterSets.length).map
        fun b => if m.buttonCounterSets.getD b [] = [] then 0 else cfg.getD b 0) c =
        pressSum m.buttonCounterSets cfg c := by
      rw [pressSum_eq_sum, pressSum_eq_sum]
      refine congrArg List.sum (List.map_congr_left ?_)
      intro b hb
      have hblt := List.mem_range.mp hb
      by_cases hcon : (m.buttonCounterSets.getD b []).contains c = true
      · rw [if_pos hcon, if_pos hcon]
        rw [getD_map_lt _ _ b (by simpa using hblt) 0 0, getD_range_lt _ b hblt]
        have hne : m.buttonCounterSets.getD b [] ≠ [] := by
          intro hemp
          rw [hemp] at hcon
          simp at hcon
        rw [if_neg hne]
      · rw [if_neg hcon, if_neg hcon]
    rw [hps]
    exact hv.2 c hc
  · have hlen := hv.1
    calc ((List.range m.buttonCounterSets.length).map fun b =>
          if m.buttonCounterSets.getD b [] = [] then 0 else cfg.getD b 0).sum
        = ∑ b ∈ Finset.range m.buttonCounterSets.length,
            (if m.buttonCounterSets.getD b [] = [] then 0 else cfg.getD b 0) := by
          rw [finset_sum_eq_list_sum]
      _ ≤ ∑ b ∈ Finset.range m.buttonCounterSets.length, cfg.getD b 0 := by
          refine Finset.sum_le_sum ?_
          intro b hb
          split
          · exact Nat.zero_le _
          · exact le_rfl
      _ = cfg.sum := by
          rw [← hlen, list_sum_getD]
  · intro b hb
    rw [getD_map_lt _ _ b (by simpa using hb) 0 0, getD_range_lt _ b hb]
    by_cases hemp : m.buttonCounterSets.getD b [] = []
    · rw [if_pos hemp]
      exact Nat.zero_le _
    · rw [if_neg hemp]
      exact validConfig_le_ub m cfg hwf hv b hemp

/-- A row of the reduced matrix whose coefficients are all zero and whose system
is satisfiable has right-hand side zero, so the pivot-row construction succeeds. -/
theorem buildPivotRows_cond_of_sat (T B : Nat) (mtx : Mat) (hmred : MatReduced mtx)
    (x : Nat → ℚ) (hsat : Sat mtx T B x) :
    ∀ r ∈ List.range T, ((List.range B).any fun c => !(mtx r c).isZero) = true ∨
      (mtx r B).isZero = true := by
  intro r hr
  by_cases hany : ((List.range B).any fun c => !(mtx r c).isZero) = true
  · exact Or.inl hany
  · right
    rw [Bool.not_eq_true, List.any_eq_false] at hany
    have hall : ∀ c, c < B → (mtx r c).toRat = 0 := by
      intro c hc
      have h1 := hany c (List.mem_range.mpr hc)
      simp only [Bool.not_eq_true'] at h1
      have h1b : (mtx r c).isZero = true := by
        cases hb : (mtx r c).isZero
        · exact absurd hb h1
        · rfl
      exact (Fraction.isZero_iff _ (hmred r c).den_ne).mp h1b
    have hrow := hsat r (by simpa using hr)
    unfold RowEq at hrow
    rw [Finset.sum_eq_zero (fun c hc => by
      rw [hall c (Finset.mem_range.mp hc)]; ring)] at hrow
    exact (Fraction.isZero_iff _ (hmred r B).den_ne).mpr hrow.symm

/-- When every listed row passes the zero-row check, the pivot-row construction
returns a result. -/
theorem buildPivotRows_total (m : Mat) (piv : Nat → Option Nat) (varCount : Nat)
    (ub : List Nat) : ∀ (rows : List Nat),
    (∀ r ∈ rows, ((List.range varCount).any fun c => !(m r c).isZero) = true ∨
      (m r varCount).isZero = true) →
    ∃ prs, buildPivotRows m piv varCount ub rows = .ok prs := by
  intro rows
  induction rows with
  | nil => exact fun _ => ⟨[], rfl⟩
  | cons row rest ih =>
    intro h
    obtain ⟨prs2, hrec⟩ := ih fun r hr => h r (List.mem_cons_of_mem _ hr)
    have hcond : (!((List.range varCount).any fun c => !(m row c).isZero) &&
        !(m row varCount).isZero) = false := by
      rcases h row (List.mem_cons_self _ _) with h1 | h1 <;> rw [h1] <;> simp
    unfold buildPivotRows
    dsimp only
    rw [hcond]
    simp only [Bool.false_eq_true, if_false]
    cases hp : piv row with
    | none => exact ⟨prs2, hrec⟩
    | some c =>
      rw [hrec]
      exact ⟨_, rfl⟩

/-- Rows past the pivot rows have zero right-hand side once the pivot-row
construction has succeeded. -/
theorem tail_rhs_zero (T B : Nat) (mtx : Mat) (piv : Nat → Option Nat) (k : Nat)
    (ho : RrefOutcome mtx piv T B k) (hmred : MatReduced mtx) (ub : List Nat)
    (prs : List PivotRow)
    (hok : buildPivotRows mtx piv B ub (List.range T) = .ok prs) :
    ∀ r, k ≤ r → r < T → (mtx r B).toRat = 0 := by
  intro r hkr hrT
  have h2 := (buildPivotRows_ok mtx piv B ub _ prs hok).2 r (List.mem_range.mpr hrT)
  have hany : ((List.range B).any fun c => !(mtx r c).isZero) = false := by
    rw [List.any_eq_false]
    intro c hc
    have hz := ho.tail_zero r hkr hrT c (by simpa using hc)
    have hzt : (mtx r c).isZero = true := (Fraction.isZero_iff _ (hmred r c).den_ne).mpr hz
    simp [hzt]
  exact (Fraction.isZero_iff _ (hmred r B).den_ne).mp (h2 hany)

/-- The zero-free-variable direct solve agrees with the leaf computation on the
rows paired with zero contributions. -/
theorem uniqueSolveTotal_iff_leafTotal (ub : List Nat) :
    ∀ (prs : List PivotRow), (∀ row ∈ prs, row.rhs.Reduced) →
      ∀ t, (uniqueSolveTotal ub prs = .ok t ↔
        leafTotal ub (prs.map fun row => (row, Fraction.ZERO)) 0 = some t) := by
  intro prs
  induction prs with
  | nil =>
    intro _ t
    constructor
    · intro h
      have : t = 0 := by
        have h2 : (Except.ok 0 : Except SolveError Nat) = .ok t := h
        simpa using h2.symm
      rw [this]
      rfl
    · intro h
      have : t = 0 := by
        have h2 : (some 0 : Option Nat) = some t := h
        simpa using h2.symm
      rw [this]
      rfl
  | cons row rest ih =>
    intro hred t
    have hrr : row.rhs.Reduced := hred row (List.mem_cons_self _ _)
    have hsub : row.rhs.sub Fraction.ZERO = row.rhs := sub_ZERO_eq _ hrr
    have ih2 := ih fun r hr => hred r (List.mem_cons_of_mem _ hr)
    unfold uniqueSolveTotal leafTotal
    rw [List.map_cons]
    dsimp only
    rw [hsub]
    by_cases hint : row.rhs.isInteger
    · have hc1 : ¬ ((!row.rhs.isInteger) = true) := by rw [hint]; simp
      rw [if_neg hc1, if_neg hc1]
      by_cases hbv : row.rhs.toNumber < 0 ∨ ((ub.getD row.pivotCol 0 : Nat) : Int) <
          row.rhs.toNumber
      · rw [if_pos hbv, if_pos hbv]
        constructor
        · intro h
          cases h
        · intro h
          cases h
      · rw [if_neg hbv, if_neg hbv]
        cases hrec : uniqueSolveTotal ub rest with
        | error e =>
          cases hlt : leafTotal ub (rest.map fun r => (r, Fraction.ZERO)) 0 with
          | none =>
            constructor
            · intro h
              simp [Except.map] at h
            · intro h
              simp at h
          | some t2 =>
            have := (ih2 t2).mpr hlt
            rw [hrec] at this
            cases this
        | ok t2 =>
          have hlt := (ih2 t2).mp hrec
          rw [hlt]
          constructor
          · intro h
            have h2 : (Except.ok (t2 + row.rhs.toNumber.toNat) :
                Except SolveError Nat) = .ok t := h
            simp only [Except.ok.injEq] at h2
            rw [← h2]
            rfl
          · intro h
            have h2 : (some (t2 + row.rhs.toNumber.toNat) : Option Nat) = some t := h
            simp only [Option.some.injEq] at h2
            rw [← h2]
            rfl
    · have hfalse : row.rhs.isInteger = false := by
        cases hb : row.rhs.isInteger
        · rfl
        · exact absurd hb hint
      have hc1 : (!row.rhs.isInteger) = true := by rw [hfalse]; rfl
      rw [if_pos hc1, if_pos hc1]
      constructor
      · intro h
        cases h
      · intro h
        cases h

/-- The free (non-pivot) columns, as computed in `minPressesForJoltage`. -/
def freeColsOf (B : Nat) (prs : List PivotRow) : List Nat :=
  (List.range B).filter fun col => !((prs.map (·.pivotCol)).contains col)

/-- The sorted free-variable records, as computed in `minPressesForJoltage`. -/
def sortedInfosOf (fc ub : List Nat) : List FreeVarInfo :=
  List.insertionSort freeVarLE (fc.enum.map fun p =>
    { col := p.2, bound := ub.getD p.2 0, originalIndex := p.1 : FreeVarInfo })

/-- The original indices of the sorted free variables. -/
def orderOf (fc ub : List Nat) : List Nat := (sortedInfosOf fc ub).map (·.originalIndex)

/-- The bounds of the sorted free variables. -/
def fbOf (fc ub : List Nat) : List Nat := (sortedInfosOf fc ub).map (·.bound)

/-- The setup phase, characterized on the main path (counters and buttons
present, reduction and pivot-row construction done). -/
theorem searchSetup_eq_main (m : Machine) (hT : ¬ (m.joltageTargets.length = 0))
    (hB : ¬ (m.buttonCounterSets.length = 0))
    (mtx : Mat) (piv : Nat → Option Nat)
    (hpr : rref (buildAugmentedMatrix m.buttonCounterSets m.joltageTargets.length
      m.joltageTargets) m.joltageTargets.length m.buttonCounterSets.length = some (mtx, piv))
    (pivotRows0 : List PivotRow)
    (hbp : buildPivotRows mtx piv m.buttonCounterSets.length
      (computeVariableUpperBounds m.buttonCounterSets m.joltageTargets)
      (List.range m.joltageTargets.length) = .ok pivotRows0) :
    searchSetup m =
      if pivotRows0.length = 0 then .ok (.inl 0)
      else if (freeColsOf m.buttonCounterSets.length pivotRows0).length = 0 then
        (uniqueSolveTotal (computeVariableUpperBounds m.buttonCounterSets m.joltageTargets)
          (pivotRows0.map (attachCoeffs mtx
            (freeColsOf m.buttonCounterSets.length pivotRows0)
            (orderOf (freeColsOf m.buttonCounterSets.length pivotRows0)
              (computeVariableUpperBounds m.buttonCounterSets m.joltageTargets))
            (fbOf (freeColsOf m.buttonCounterSets.length pivotRows0)
              (computeVariableUpperBounds m.buttonCounterSets m.joltageTargets))))).map .inl
      else .ok (.inr
        ⟨pivotRows0.map (attachCoeffs mtx
            (freeColsOf m.buttonCounterSets.length pivotRows0)
            (orderOf (freeColsOf m.buttonCounterSets.length pivotRows0)
              (computeVariableUpperBounds m.buttonCounterSets m.joltageTargets))
            (fbOf (freeColsOf m.buttonCounterSets.length pivotRows0)
              (computeVariableUpperBounds m.buttonCounterSets m.joltageTargets))),
          computeVariableUpperBounds m.buttonCounterSets m.joltageTargets,
          fbOf (freeColsOf m.buttonCounterSets.length pivotRows0)
            (computeVariableUpperBounds m.buttonCounterSets m.joltageTargets)⟩) := by
  unfold searchSetup
  dsimp only
  rw [if_neg hT, if_neg hB, hpr]
  dsimp only
  rw [hbp]
  rfl

/-- The sorted original indices permute the free-column positions. -/
theorem orderOf_perm (fc ub : List Nat) :
    List.Perm (orderOf fc ub) (List.range fc.length) := (sorted_infos_facts fc ub).2.1

theorem orderOf_length (fc ub : List Nat) : (orderOf fc ub).length = fc.length := by
  simpa using (orderOf_perm fc ub).length_eq

theorem fbOf_length (fc ub : List Nat) : (fbOf fc ub).length = fc.length := by
  unfold fbOf
  rw [List.length_map]
  exact (sorted_infos_facts fc ub).1

/-- Each sorted bound is the bound of the looked-up free column. -/
theorem fbOf_getD (fc ub : List Nat) (j : Nat) (hj : j < fc.length) :
    (fbOf fc ub).getD j 0 = ub.getD (fc.getD ((orderOf fc ub).getD j 0) 0) 0 := by
  obtain ⟨hslen, -, hmem⟩ := sorted_infos_facts fc ub
  have hjs : j < (sortedInfosOf fc ub).length := by
    show j < (List.insertionSort freeVarLE (fc.enum.map fun p =>
      { col := p.2, bound := ub.getD p.2 0, originalIndex := p.1 : FreeVarInfo })).length
    omega
  have hb : (fbOf fc ub).getD j 0 =
      ((sortedInfosOf fc ub).getD j ⟨0, 0, 0⟩).bound := by
    unfold fbOf
    rw [getD_map_lt _ _ j hjs 0 ⟨0, 0, 0⟩]
  have ho2 : (orderOf fc ub).getD j 0 =
      ((sortedInfosOf fc ub).getD j ⟨0, 0, 0⟩).originalIndex := by
    unfold orderOf
    rw [getD_map_lt _ _ j hjs 0 ⟨0, 0, 0⟩]
  have hmemj : (sortedInfosOf fc ub).getD j ⟨0, 0, 0⟩ ∈ sortedInfosOf fc ub := by
    rw [List.getD_eq_getElem _ _ hjs]
    exact List.getElem_mem hjs
  obtain ⟨-, hcol, hbound⟩ := hmem _ hmemj
  rw [hb, ho2, hbound, hcol]

/-- Soundness and minimality of the solver: every reported total is achieved by
a valid configuration, and (for well-formed machines with buttons) the solver
succeeds on solvable machines with a minimal total. -/
theorem minPresses_spec (m : Machine) :
    (∀ t, minPressesForJoltage m = .ok t → ∃ cfg, IsValidConfig m cfg ∧ cfg.sum = t) ∧
    (WellFormed m → m.buttonCounterSets.length ≠ 0 →
      ∀ cfg0, IsValidConfig m cfg0 →
        ∃ t, minPressesForJoltage m = .ok t ∧
          ∀ cfg, IsValidConfig m cfg → t ≤ cfg.sum) := by
  by_cases hT : m.joltageTargets.length = 0
  · have hss : searchSetup m = .ok (.inl 0) := by
      unfold searchSetup
      dsimp only
      rw [if_pos hT]
    have hmp : minPressesForJoltage m = .ok 0 := by
      unfold minPressesForJoltage
      rw [hss]
    constructor
    · intro t ht
      rw [hmp] at ht
      simp only [Except.ok.injEq] at ht
      obtain ⟨hv, hsum⟩ := empty_targets_valid m hT
      exact ⟨_, hv, by rw [hsum]; omega⟩
    · intro _ _ cfg0 _
      exact ⟨0, hmp, fun cfg _ => Nat.zero_le _⟩
  · by_cases hB : m.buttonCounterSets.length = 0
    · by_cases hall : (m.joltageTargets.all fun x => x = 0) = true
      · have hss : searchSetup m = .ok (.inl 0) := by
          unfold searchSetup
          dsimp only
          rw [if_neg hT, if_pos hB, if_pos hall]
        have hmp : minPressesForJoltage m = .ok 0 := by
          unfold minPressesForJoltage
          rw [hss]
        constructor
        · intro t ht
          rw [hmp] at ht
          simp only [Except.ok.injEq] at ht
          refine ⟨[], no_buttons_valid m hB ?_, by simpa using ht⟩
          intro x hx
          have := List.all_eq_true.mp hall x hx
          simpa using this
        · intro _ hne _ _
          exact absurd hB hne
      · have hss : searchSetup m = .error .infeasibleTarget := by
          unfold searchSetup
          dsimp only
          rw [if_neg hT, if_pos hB, if_neg hall]
        have hmp : minPressesForJoltage m = .error .infeasibleTarget := by
          unfold minPressesForJoltage
          rw [hss]
        constructor
        · intro t ht
          rw [hmp] at ht
          cases ht
        · intro _ hne _ _
          exact absurd hB hne
    · obtain ⟨pr, hpr0⟩ := Option.isSome_iff_exists.mp
        (rref_isSome (buildAugmentedMatrix m.buttonCounterSets m.joltageTargets.length
          m.joltageTargets) m.joltageTargets.length m.buttonCounterSets.length)
      obtain ⟨mtx, piv⟩ := pr
      obtain ⟨⟨k, ho⟩, hmredm, hsatiff⟩ := rref_spec _ m.joltageTargets.length
        m.buttonCounterSets.length mtx piv (buildAugmentedMatrix_matReduced _ _ _) hpr0
      have hconv : ∀ cfg, cfg.length = m.buttonCounterSets.length →
          Sat mtx m.joltageTargets.length m.buttonCounterSets.length (cfgQ cfg) →
          IsValidConfig m cfg := by
        intro cfg hl hs
        rw [isValidConfig_iff_sat]
        exact ⟨hl, (hsatiff _).mp hs⟩
      have hconv2 : ∀ cfg, IsValidConfig m cfg →
          cfg.length = m.buttonCounterSets.length ∧
          Sat mtx m.joltageTargets.length m.buttonCounterSets.length (cfgQ cfg) := by
        intro cfg hv
        obtain ⟨hl, hs⟩ := (isValidConfig_iff_sat m cfg).mp hv
        exact ⟨hl, (hsatiff _).mpr hs⟩
      cases hbp : buildPivotRows mtx piv m.buttonCounterSets.length
          (computeVariableUpperBounds m.buttonCounterSets m.joltageTargets)
          (List.range m.joltageTargets.length) with
      | error e =>
        have hss : searchSetup m = .error e := by
          unfold searchSetup
          dsimp only
          rw [if_neg hT, if_neg hB, hpr0]
          dsimp only
          rw [hbp]
        have hmp : minPressesForJoltage m = .error e := by
          unfold minPressesForJoltage
          rw [hss]
        constructor
        · intro t ht
          rw [hmp] at ht
          cases ht
        · intro hwf hne cfg0 hv0
          obtain ⟨-, hs0⟩ := hconv2 cfg0 hv0
          obtain ⟨prs, hprs⟩ := buildPivotRows_total mtx piv m.buttonCounterSets.length
            (computeVariableUpperBounds m.buttonCounterSets m.joltageTargets)
            (List.range m.joltageTargets.length)
            (buildPivotRows_cond_of_sat m.joltageTargets.length m.buttonCounterSets.length
              mtx hmredm (cfgQ cfg0) hs0)
          rw [hbp] at hprs
          cases hprs
      | ok pivotRows0 =>
        have hstruct := pivotRows_structure mtx piv m.joltageTargets.length
          m.buttonCounterSets.length k (computeVariableUpperBounds m.buttonCounterSets
            m.joltageTargets) ho pivotRows0 hbp
        have hzero := tail_rhs_zero m.joltageTargets.length m.buttonCounterSets.length mtx
          piv k ho hmredm (computeVariableUpperBounds m.buttonCounterSets m.joltageTargets)
          pivotRows0 hbp
        have hplen : pivotRows0.length = k := by rw [hstruct]; simp
        have hssm := searchSetup_eq_main m hT hB mtx piv hpr0 pivotRows0 hbp
        by_cases hk0 : pivotRows0.length = 0
        · rw [if_pos hk0] at hssm
          have hmp : minPressesForJoltage m = .ok 0 := by
            unfold minPressesForJoltage
            rw [hssm]
          have hvz : IsValidConfig m (List.replicate m.buttonCounterSets.length 0) := by
            refine zero_config_valid m mtx hsatiff ?_
            intro r hr
            refine ⟨?_, hzero r (by omega) hr⟩
            intro c hc
            exact ho.tail_zero r (by omega) hr c hc
          constructor
          · intro t ht
            rw [hmp] at ht
            simp only [Except.ok.injEq] at ht
            refine ⟨_, hvz, ?_⟩
            have hz : (List.replicate m.buttonCounterSets.length 0).sum = 0 := by simp
            rw [hz]
            omega
          · intro hwf hne cfg0 hv0
            exact ⟨0, hmp, fun cfg _ => Nat.zero_le _⟩
        · rw [if_neg hk0] at hssm
          set UB := computeVariableUpperBounds m.buttonCounterSets m.joltageTargets with hUB
          set FC := freeColsOf m.buttonCounterSets.length pivotRows0 with hFC
          set ORD := orderOf FC UB with hORD
          set FB := fbOf FC UB with hFB
          have hfc : FC = (List.range m.buttonCounterSets.length).filter fun col =>
              !(((List.range k).map fun r2 => (piv r2).getD 0).contains col) := by
            rw [hFC]
            unfold freeColsOf
            rw [hstruct, List.map_map]
            rfl
          have horder : List.Perm ORD (List.range FC.length) := by
            rw [hORD]
            exact orderOf_perm FC UB
          have hordlen : ORD.length = FC.length := by simpa using horder.length_eq
          have hfblen : FB.length = FC.length := by
            rw [hFB]
            exact fbOf_length FC UB
          have hfbval : ∀ j, j < FC.length →
              FB.getD j 0 = UB.getD (FC.getD (ORD.getD j 0) 0) 0 := by
            intro j hj
            rw [hFB, hORD]
            exact fbOf_getD FC UB j hj
          have hOK := rowsOK_initial mtx piv m.buttonCounterSets.length k hmredm UB FC ORD
            FB hordlen hfblen
          have hrows0eq : (pivotRows0.map (attachCoeffs mtx FC ORD FB)).map
              (fun row => (row, Fraction.ZERO)) =
              (List.range k).map fun r =>
                (attachCoeffs mtx FC ORD FB (mkPivotRow mtx m.buttonCounterSets.length UB r
                  ((piv r).getD 0)), Fraction.ZERO) := by
            rw [hstruct, List.map_map, List.map_map]
            rfl
          have hprsred : ∀ row ∈ pivotRows0.map (attachCoeffs mtx FC ORD FB),
              row.rhs.Reduced := by
            intro row hrow
            rw [hstruct, List.map_map] at hrow
            obtain ⟨r, -, rfl⟩ := List.mem_map.mp hrow
            exact hmredm r m.buttonCounterSets.length
          have hkit : ∀ cfg, WellFormed m → IsValidConfig m cfg →
              ∃ (cfg2 : List Nat) (vals : List Nat), cfg2.sum ≤ cfg.sum ∧
                vals ∈ boxTuples FB ∧
                leafFor UB vals ((List.range k).map fun r =>
                  (attachCoeffs mtx FC ORD FB (mkPivotRow mtx m.buttonCounterSets.length UB
                    r ((piv r).getD 0)), Fraction.ZERO)) 0 0 = some cfg2.sum := by
            intro cfg hwf hv
            obtain ⟨cfg2, hv2, hle, hlen2, hbnd2⟩ := zeroed_config m hwf cfg hv
            obtain ⟨-, hs2⟩ := hconv2 cfg2 hv2
            obtain ⟨vals, hvmem, hvleaf⟩ := search_leaf_complete m.buttonCounterSets
              m.joltageTargets mtx piv k ho UB FC ORD FB hfc horder hfblen hfbval hOK cfg2
              hlen2 hs2 (fun b hb => hbnd2 b hb)
            exact ⟨cfg2, vals, hle, hvmem, hvleaf⟩
          by_cases hfc0 : FC.length = 0
          · rw [if_pos hfc0] at hssm
            have hfbnil : FB = [] := by
              have h2 := hfblen
              rw [hfc0] at h2
              exact List.length_eq_zero.mp h2
            cases hust : uniqueSolveTotal UB (pivotRows0.map (attachCoeffs mtx FC ORD FB))
              with
            | error e =>
              have hmp : minPressesForJoltage m = .error e := by
                unfold minPressesForJoltage
                rw [hssm, hust]
                rfl
              constructor
              · intro t ht
                rw [hmp] at ht
                cases ht
              · intro hwf hne cfg0 hv0
                obtain ⟨cfg2, vals, hle, hvmem, hvleaf⟩ := hkit cfg0 hwf hv0
                rw [hfbnil] at hvmem
                have hvnil : vals = [] := by simpa [boxTuples] using hvmem
                rw [hvnil] at hvleaf
                have hlt : leafTotal UB ((pivotRows0.map (attachCoeffs mtx FC ORD FB)).map
                    fun row => (row, Fraction.ZERO)) 0 = some cfg2.sum := by
                  rw [hrows0eq]
                  exact hvleaf
                have hok2 := (uniqueSolveTotal_iff_leafTotal UB _ hprsred cfg2.sum).mpr hlt
                rw [hust] at hok2
                cases hok2
            | ok n =>
              have hmp : minPressesForJoltage m = .ok n := by
                unfold minPressesForJoltage
                rw [hssm, hust]
                rfl
              have hlt := (uniqueSolveTotal_iff_leafTotal UB _ hprsred n).mp hust
              rw [hrows0eq] at hlt
              constructor
              · intro t ht
                rw [hmp] at ht
                simp only [Except.ok.injEq] at ht
                obtain ⟨cfg, hclen, hcsat, hcsum⟩ := search_leaf_sound m.buttonCounterSets
                  m.joltageTargets mtx piv k ho hzero UB FC ORD FB hfc horder hfblen hOK
                  [] n (by rw [hfbnil]) hlt
                exact ⟨cfg, hconv cfg hclen hcsat, by omega⟩
              · intro hwf hne cfg0 hv0
                refine ⟨n, hmp, ?_⟩
                intro cfg hv
                obtain ⟨cfg2, vals, hle, hvmem, hvleaf⟩ := hkit cfg hwf hv
                rw [hfbnil] at hvmem
                have hvnil : vals = [] := by simpa [boxTuples] using hvmem
                rw [hvnil] at hvleaf
                have hlt2 : leafTotal UB ((pivotRows0.map (attachCoeffs mtx FC ORD FB)).map
                    fun row => (row, Fraction.ZERO)) 0 = some cfg2.sum := by
                  rw [hrows0eq]
                  exact hvleaf
                have hok2 := (uniqueSolveTotal_iff_leafTotal UB _ hprsred cfg2.sum).mpr hlt2
                rw [hust] at hok2
                simp only [Except.ok.injEq] at hok2
                omega
          · rw [if_neg hfc0] at hssm
            have hrun : runSearch ⟨pivotRows0.map (attachCoeffs mtx FC ORD FB), UB, FB⟩ =
                ominList ((boxTuples FB).map fun vals =>
                  leafFor UB vals ((List.range k).map fun r =>
                    (attachCoeffs mtx FC ORD FB (mkPivotRow mtx m.buttonCounterSets.length
                      UB r ((piv r).getD 0)), Fraction.ZERO)) 0 0) := by
              show dfs UB FB 0 ((pivotRows0.map (attachCoeffs mtx FC ORD FB)).map
                fun row => (row, Fraction.ZERO)) 0 none = _
              rw [hrows0eq]
              rw [dfs_spec UB FB FB 0 _ 0 none (List.drop_zero FB).symm hOK]
              rw [omin_none_left]
            cases hrs : ominList ((boxTuples FB).map fun vals =>
                leafFor UB vals ((List.range k).map fun r =>
                  (attachCoeffs mtx FC ORD FB (mkPivotRow mtx m.buttonCounterSets.length UB
                    r ((piv r).getD 0)), Fraction.ZERO)) 0 0) with
            | none =>
              have hmp : minPressesForJoltage m = .error .unsolvable := by
                unfold minPressesForJoltage
                rw [hssm]
                dsimp only
                rw [hrun, hrs]
              constructor
              · intro t ht
                rw [hmp] at ht
                cases ht
              · intro hwf hne cfg0 hv0
                obtain ⟨cfg2, vals, hle, hvmem, hvleaf⟩ := hkit cfg0 hwf hv0
                obtain ⟨t2, ht2, -⟩ := ominList_le _ _ cfg2.sum
                  (List.mem_map_of_mem (fun vals2 =>
                    leafFor UB vals2 ((List.range k).map fun r =>
                      (attachCoeffs mtx FC ORD FB (mkPivotRow mtx m.buttonCounterSets.length
                        UB r ((piv r).getD 0)), Fraction.ZERO)) 0 0) hvmem) hvleaf
                rw [hrs] at ht2
                cases ht2
            | some best =>
              have hmp : minPressesForJoltage m = .ok best := by
                unfold minPressesForJoltage
                rw [hssm]
                dsimp only
                rw [hrun, hrs]
              constructor
              · intro t ht
                rw [hmp] at ht
                simp only [Except.ok.injEq] at ht
                have hmem := ominList_attained _ best hrs
                obtain ⟨vals, hvm, hveq⟩ := List.mem_map.mp hmem
                obtain ⟨hvlen, -⟩ := (boxTuples_mem FB vals).mp hvm
                obtain ⟨cfg, hclen, hcsat, hcsum⟩ := search_leaf_sound m.buttonCounterSets
                  m.joltageTargets mtx piv k ho hzero UB FC ORD FB hfc horder hfblen hOK
                  vals best hvlen hveq
                exact ⟨cfg, hconv cfg hclen hcsat, by omega⟩
              · intro hwf hne cfg0 hv0
                refine ⟨best, hmp, ?_⟩
                intro cfg hv
                obtain ⟨cfg2, vals, hle, hvmem, hvleaf⟩ := hkit cfg hwf hv
                obtain ⟨t2, ht2, hle2⟩ := ominList_le _ _ cfg2.sum
                  (List.mem_map_of_mem (fun vals2 =>
                    leafFor UB vals2 ((List.range k).map fun r =>
                      (attachCoeffs mtx FC ORD FB (mkPivotRow mtx m.buttonCounterSets.length
                        UB r ((piv r).getD 0)), Fraction.ZERO)) 0 0) hvmem) hvleaf
                rw [hrs] at ht2
                simp only [Option.some.injEq] at ht2
                omega

/-- Claim C1: for every machine satisfying the data-model invariant (every
button's counter indices are valid counter indices) with at least one button,
for which some valid configuration exists — an assignment of a press count to
every button making every counter reach exactly its target — the solver returns
the minimum, over all valid configurations, of the total number of presses. -/
theorem c1_minimality (m : Machine) (hwf : WellFormed m)
    (hbtn : m.buttonCounterSets ≠ []) (cfg0 : List Nat) (h0 : IsValidConfig m cfg0) :
    ∃ t, minPressesForJoltage m = .ok t ∧
      (∃ cfg, IsValidConfig m cfg ∧ cfg.sum = t) ∧
      (∀ cfg, IsValidConfig m cfg → t ≤ cfg.sum) := by
  have hne : m.buttonCounterSets.length ≠ 0 := by
    intro h
    exact hbtn (List.length_eq_zero.mp h)
  obtain ⟨t, hok, hmin⟩ := (minPresses_spec m).2 hwf hne cfg0 h0
  obtain ⟨cfg, hv, hsum⟩ := (minPresses_spec m).1 t hok
  exact ⟨t, hok, ⟨cfg, hv, hsum⟩, hmin⟩

theorem c1_minimality_witness :
    WellFormed mScenarioA ∧ mScenarioA.buttonCounterSets ≠ [] ∧
      IsValidConfig mScenarioA [5] ∧
      (∃ t, minPressesForJoltage mScenarioA = .ok t ∧
        (∃ cfg, IsValidConfig mScenarioA cfg ∧ cfg.sum = t) ∧
        (∀ cfg, IsValidConfig mScenarioA cfg → t ≤ cfg.sum)) :=
  ⟨by decide, by decide, by decide,
    c1_minimality mScenarioA (by decide) (by decide) [5] (by decide)⟩

/-- Claim C2, amended: the solver's output is only the total press count — no
per-button press vector is part of the output (and none is recoverable from it:
two machines with identical buttons and different targets can produce identical
outputs). What holds is that every reported total is realized by some valid
configuration: a per-button press vector that reproduces every counter target
exactly and whose entries sum to the returned total. -/
theorem c2_amended_exists_vector (m : Machine) (t : Nat)
    (h : minPressesForJoltage m = .ok t) :
    ∃ cfg, IsValidConfig m cfg ∧ cfg.sum = t :=
  (minPresses_spec m).1 t h

theorem c2_amended_witness :
    minPressesForJoltage mScenarioA = .ok 5 ∧
      (∃ cfg, IsValidConfig mScenarioA cfg ∧ cfg.sum = 5) :=
  ⟨by decide, c2_amended_exists_vector mScenarioA 5 (by decide)⟩

end Day10
